import Mathlib

/-!
Verification development for the js-dependency-graph repository.

The repository's graph-construction engine is shallowly embedded here:
  * a POSIX model of the `node:path` collaborator,
  * a finite-map model of the filesystem (`node:fs`),
  * `resolveImports` (the Reference Resolver),
  * `parseFile` (the Source Extractor; the `@babel/parser` and
    `@babel/traverse` collaborators are parameters),
  * `buildMetricsFromEntrypoint` (the Graph Builder, with a fuel
    parameter standing for the possibly diverging BFS loop),
  * the watcher lifecycle of `liveChangeFeed` as a state machine.

JavaScript strings are modelled as Lean `String`; the handful of
JS string primitives the source uses (`trim`, `startsWith`,
`toLowerCase`, `split`, ...) are defined below over `String.data`
with structural recursion so that concrete runs evaluate in the
kernel.
-/

set_option maxRecDepth 20000
set_option maxHeartbeats 1600000

namespace JsDep

/-! ## JS string primitives -/

/-- Whitespace characters recognised by JS `String.prototype.trim`
(restricted to the ASCII ones, which are the only ones arising here). -/
def jsIsWs (c : Char) : Bool :=
  c = ' ' || c = '\t' || c = '\n' || c = '\r' || c = '\x0b' || c = '\x0c'

/-- Drop leading whitespace of a character list. -/
def dropWsL : List Char → List Char
  | [] => []
  | c :: cs => if jsIsWs c then dropWsL cs else c :: cs

/-- JS `s.trim()`. -/
def jsTrim (s : String) : String :=
  ⟨(dropWsL (dropWsL s.data.reverse).reverse)⟩

/-- JS `s.startsWith(p)`. -/
def jsStartsWith (s p : String) : Bool :=
  p.data.isPrefixOf s.data

/-- JS `s.endsWith(p)`. -/
def jsEndsWith (s p : String) : Bool :=
  p.data.reverse.isPrefixOf s.data.reverse

/-- JS `s.toLowerCase()` (ASCII). -/
def jsToLower (s : String) : String :=
  ⟨s.data.map Char.toLower⟩

/-- Split a character list at every occurrence of `sep`
(JS `s.split(sep)` with a one-character separator). -/
def splitCh (sep : Char) : List Char → List (List Char)
  | [] => [[]]
  | c :: cs =>
    match splitCh sep cs with
    | [] => [[]]
    | g :: gs => if c = sep then [] :: g :: gs else (c :: g) :: gs

/-- JS `s.split(sep)` for a one-character separator. -/
def jsSplitCh (sep : Char) (s : String) : List String :=
  (splitCh sep s.data).map fun l => ⟨l⟩

/-- JS `s.split(/\r?\n/)`: split at `\n`, then drop one trailing `\r`
from each piece. -/
def jsSplitLines (s : String) : List String :=
  (splitCh '\n' s.data).map fun l =>
    ⟨match l.reverse with
     | '\r' :: rest => rest.reverse
     | _ => l⟩

/-- Substring test on character lists. -/
def containsL (needle : List Char) : List Char → Bool
  | [] => needle.isEmpty
  | c :: cs => needle.isPrefixOf (c :: cs) || containsL needle cs

/-- JS `s.includes(t)`. -/
def jsContains (s t : String) : Bool :=
  containsL t.data s.data

/-- Concatenate a list of strings with a separator. -/
def joinWith (sep : String) : List String → String
  | [] => ""
  | [x] => x
  | x :: xs => x ++ sep ++ joinWith sep xs

/-- Character-level intercalation (the `data` of `joinWith`). -/
def icalt (sep : Char) : List (List Char) → List Char
  | [] => []
  | [x] => x
  | x :: y :: ys => x ++ sep :: icalt sep (y :: ys)

/-- Helper for `dedupFirst`: keep elements not seen before. -/
def dedupAux (seen : List String) : List String → List String
  | [] => []
  | x :: xs => if seen.contains x then dedupAux seen xs else x :: dedupAux (x :: seen) xs

/-- First-occurrence-preserving deduplication (the JS idiom
`Array.from(new Set(arr))`). -/
def dedupFirst (l : List String) : List String := dedupAux [] l

/-! ## POSIX model of `node:path`

All analysed paths are forward-slash paths; `path.sep` is `"/"`. -/

/-- `path.isAbsolute` (POSIX). -/
def pIsAbsolute (s : String) : Bool := jsStartsWith s "/"

/-- Normalise the segments of an absolute path: drop empty and `"."`
segments, let `".."` pop (at the root it is dropped).  The accumulator
is the reversed stack of kept segments. -/
def normAbsSegs (acc : List String) : List String → List String
  | [] => acc.reverse
  | s :: rest =>
    if s = "" || s = "." then normAbsSegs acc rest
    else if s = ".." then normAbsSegs (acc.drop 1) rest
    else normAbsSegs (s :: acc) rest

/-- Normalise the segments of a relative path: `".."` pops a kept
segment when one is available and is otherwise retained. -/
def normRelSegs (acc : List String) : List String → List String
  | [] => acc.reverse
  | s :: rest =>
    if s = "" || s = "." then normRelSegs acc rest
    else if s = ".." then
      match acc with
      | [] => normRelSegs [".."] rest
      | top :: tl => if top = ".." then normRelSegs (s :: acc) rest else normRelSegs tl rest
    else normRelSegs (s :: acc) rest

/-- Segments of a slash-separated path string. -/
def segsOf (s : String) : List String := jsSplitCh '/' s

/-- `path.normalize` (POSIX). -/
def pNormalize (s : String) : String :=
  if s = "" then "." else
  let abs := pIsAbsolute s
  let hadTrail := jsEndsWith s "/"
  let n := if abs then normAbsSegs [] (segsOf s) else normRelSegs [] (segsOf s)
  let body := joinWith "/" n
  if abs then
    if body = "" then "/" else "/" ++ body ++ (if hadTrail then "/" else "")
  else
    if body = "" then (if hadTrail then "./" else ".")
    else body ++ (if hadTrail then "/" else "")

/-- `path.resolve(...parts)` (POSIX): the rightmost absolute part wins,
otherwise the working directory `cwd` is prepended; the concatenation is
normalised as an absolute path (no trailing slash). -/
def pResolve (cwd : String) (parts : List String) : String :=
  let effective := parts.foldl (fun acc p => if pIsAbsolute p then [p] else acc ++ [p]) [cwd]
  let segs := effective.flatMap segsOf
  let n := normAbsSegs [] segs
  if n = [] then "/" else "/" ++ joinWith "/" n

/-- `path.join(...parts)` (POSIX). -/
def pJoin (parts : List String) : String :=
  let j := joinWith "/" (parts.filter (fun p => p ≠ ""))
  if j = "" then "." else pNormalize j

/-- Index (from the start of `l`) of the slash ending the directory part,
per Node's `posix.dirname` scan from the end skipping trailing slashes.
The input pairs are `(character, index)` from the end of the path down to
index 1. -/
def dirnameEnd : List (Char × Nat) → Bool → Option Nat
  | [], _ => none
  | (c, i) :: rest, matchedSlash =>
    if c = '/' then
      if !matchedSlash then some i else dirnameEnd rest matchedSlash
    else dirnameEnd rest false

/-- `path.dirname` (POSIX), transcribed from Node's scan. -/
def pDirname (s : String) : String :=
  let l := s.data
  if l = [] then "." else
  let hasRoot := pIsAbsolute s
  let len := l.length
  let idxs := (List.range len).reverse
  let pairs := (l.reverse.zip idxs).take (len - 1)
  match dirnameEnd pairs true with
  | none => if hasRoot then "/" else "."
  | some e => if hasRoot && e = 1 then "//" else ⟨l.take e⟩

/-- `path.basename` (POSIX, one-argument form). -/
def pBasename (s : String) : String :=
  let r := (s.data.reverse).dropWhile (fun c => c = '/')
  ⟨(r.takeWhile (fun c => c ≠ '/')).reverse⟩

/-- `path.extname` (POSIX): suffix of the basename from its last dot,
empty for a dotless basename, a leading-dot-only basename, or `".."`. -/
def pExtname (s : String) : String :=
  let b := (pBasename s).data
  if b = ['.', '.'] then "" else
  let rb := b.reverse
  let pre := rb.takeWhile (fun c => c ≠ '.')
  if pre.length = rb.length then ""
  else if pre.length + 1 = rb.length then ""
  else ⟨('.' :: pre.reverse)⟩

/-- Longest common prefix of two segment lists. -/
def dropCommon : List String → List String → (List String × List String)
  | [], t => ([], t)
  | f, [] => (f, [])
  | fh :: ft, th :: tt =>
    if fh = th then dropCommon ft tt else (fh :: ft, th :: tt)

/-- `path.relative(from, to)` (POSIX): both sides are resolved, the
common segment prefix is dropped, each leftover `from` segment becomes
`".."`. -/
def pRelative (cwd fromP toP : String) : String :=
  let f := normAbsSegs [] (segsOf (pResolve cwd [fromP]))
  let t := normAbsSegs [] (segsOf (pResolve cwd [toP]))
  let (fr, tr) := dropCommon f t
  joinWith "/" (List.replicate fr.length ".." ++ tr)

/-! ## Filesystem model (`node:fs`)

A static file tree: a finite map from normalised absolute paths to file
contents, a list of directories, and a list of file paths that exist but
whose read fails (e.g. permission denied), which models the gap between
`fs.existsSync`/`fs.statSync` succeeding and `fs.readFileSync`
throwing. -/

structure FS where
  files : List (String × String)
  dirs : List String
  unreadable : List String
deriving Repr, DecidableEq

/-- `fs.statSync(p).isFile()` over the model. -/
def FS.isFile (fs : FS) (p : String) : Bool :=
  fs.files.any fun e => e.1 = pNormalize p

/-- `fs.statSync(p).isDirectory()` over the model. -/
def FS.isDir (fs : FS) (p : String) : Bool :=
  fs.dirs.any fun d => d = pNormalize p

/-- `fs.existsSync(p)`. -/
def FS.existsSync (fs : FS) (p : String) : Bool :=
  fs.isFile p || fs.isDir p

/-- `fs.readFileSync(p, "utf8")`: fails on unreadable or missing files. -/
def FS.readFileSync (fs : FS) (p : String) : Except String String :=
  if fs.unreadable.any (fun u => u = pNormalize p) then Except.error "EACCES"
  else
    match fs.files.find? (fun e => e.1 = pNormalize p) with
    | some e => Except.ok e.2
    | none => Except.error "ENOENT"

/-- Result kind of a successful `fs.statSync`. -/
inductive StatKind where
  | file
  | dir
deriving Repr, DecidableEq

/-- `fs.statSync(p)` with errors as `none` (the source always guards
stat calls with try/catch via `safeStat`, or checks existence first). -/
def FS.statSync (fs : FS) (p : String) : Option StatKind :=
  if fs.isFile p then some StatKind.file
  else if fs.isDir p then some StatKind.dir
  else none

/-- `fs.readdirSync(p)`: basenames of the immediate children of `p`,
in the (fixed) enumeration order of the file tree; empty for a missing
directory (the source wraps every `readdirSync` in try/catch yielding
`[]`). -/
def FS.readdirSync (fs : FS) (p : String) : List String :=
  let pn := pNormalize p
  dedupFirst <| ((fs.files.map Prod.fst) ++ fs.dirs).filterMap fun q =>
    if pDirname q = pn && q ≠ pn then some (pBasename q) else none

/-! ## Reference Resolver (`resolveImports.js`) -/

/-- `CODE_EXTENSIONS` of the resolver. -/
def CODE_EXTENSIONS : List String :=
  [".js", ".mjs", ".cjs", ".ts", ".tsx", ".jsx"]

/-- `ASSET_EXTENSIONS` of the resolver. -/
def ASSET_EXTENSIONS : List String :=
  [".json", ".css", ".scss", ".sass", ".less", ".html", ".htm", ".md",
   ".txt", ".csv", ".svg", ".png", ".jpg", ".jpeg", ".gif", ".webp",
   ".ico", ".woff", ".woff2", ".ttf", ".eot"]

/-- `ALL_EXTENSIONS` of the resolver. -/
def ALL_EXTENSIONS : List String := CODE_EXTENSIONS ++ ASSET_EXTENSIONS

/-- `stripQueryAndHash`: `String(s).split(/[?#]/)[0]`. -/
def stripQueryAndHash (s : String) : String :=
  ⟨s.data.takeWhile fun c => c ≠ '?' && c ≠ '#'⟩

/-- `existsFile`: `fs.existsSync(p) && fs.statSync(p).isFile()`. -/
def existsFile (fs : FS) (p : String) : Bool :=
  fs.existsSync p &&
    (match fs.statSync p with
     | some StatKind.file => true
     | _ => false)

/-- `existsDir`: `fs.existsSync(p) && fs.statSync(p).isDirectory()`. -/
def existsDir (fs : FS) (p : String) : Bool :=
  fs.existsSync p &&
    (match fs.statSync p with
     | some StatKind.dir => true
     | _ => false)

/-- `isInsideRoot` of the resolver (also duplicated in the builder):
`file === root || file.startsWith(root + path.sep)`. -/
def isInsideRoot (cwd rootAbs fileAbs : String) : Bool :=
  let root := pResolve cwd [rootAbs]
  let file := pResolve cwd [fileAbs]
  file = root || jsStartsWith file (root ++ "/")

/-- The `"<base>.<ext>"` loop of `resolveWithExtensions` (only taken
when the base has no extension). -/
def rwByExt (fs : FS) (baseAbs : String) : Option String :=
  if pExtname baseAbs = "" then
    (ALL_EXTENSIONS.map (fun ext => baseAbs ++ ext)).find? (fun cand => existsFile fs cand)
  else none

/-- The `"<base>/index.<ext>"` loop of `resolveWithExtensions` (only
taken when the base is an existing directory). -/
def rwByIndex (fs : FS) (baseAbs : String) : Option String :=
  if existsDir fs baseAbs then
    (ALL_EXTENSIONS.map (fun ext => pJoin [baseAbs, "index" ++ ext])).find?
      (fun cand => existsFile fs cand)
  else none

/-- `resolveWithExtensions`: the literal path if it carries an extension
and exists; else each extension appended; else `index.<ext>` inside the
path as a directory. -/
def resolveWithExtensions (fs : FS) (baseAbs : String) : Option String :=
  if pExtname baseAbs ≠ "" && existsFile fs baseAbs then some baseAbs
  else
    match rwByExt fs baseAbs with
    | some c => some c
    | none => rwByIndex fs baseAbs

/-- `guessPublicRoots`: conventional public/static roots that exist,
most common first, with the project root itself as fallback. -/
def guessPublicRoots (fs : FS) (projectRoot : String) : List String :=
  ([pJoin [projectRoot, "app", "public"],
    pJoin [projectRoot, "public"],
    pJoin [projectRoot, "src", "public"],
    pJoin [projectRoot, "www"],
    pJoin [projectRoot, "static"],
    projectRoot]).filter fun r => existsDir fs r

/-- Loop body of the root-absolute branch of `resolveImports`: try each
public root in order, returning the first contained hit. -/
def tryPublicRoots (fs : FS) (cwd rootAbs relWeb : String) : List String → Option String
  | [] => none
  | pr :: rest =>
    let base := pResolve cwd [pr, relWeb]
    match resolveWithExtensions fs base with
    | some hit =>
      if isInsideRoot cwd rootAbs hit then some hit
      else tryPublicRoots fs cwd rootAbs relWeb rest
    | none => tryPublicRoots fs cwd rootAbs relWeb rest

/-- `resolveImports(fromAbs, spec, projectRoot)` (the current resolver of
`resolveImports.js`, the one with the containment invariant). -/
def resolveImports (fs : FS) (cwd : String) (fromAbs spec projectRoot : String) : Option String :=
  if spec = "" then none
  else
    let rootAbs := pResolve cwd [projectRoot]
    let fromDir := pDirname (pResolve cwd [fromAbs])
    let cleaned := stripQueryAndHash (jsTrim spec)
    if cleaned = "" then none
    else if !jsStartsWith cleaned "." && !jsStartsWith cleaned "/" then none
    else if jsStartsWith cleaned "." then
      let base := pResolve cwd [fromDir, cleaned]
      match resolveWithExtensions fs base with
      | some hit => if isInsideRoot cwd rootAbs hit then some hit else none
      | none => none
    else if jsStartsWith cleaned "/" then
      let relWeb : String := ⟨cleaned.data.dropWhile fun c => c = '/'⟩
      tryPublicRoots fs cwd rootAbs relWeb (guessPublicRoots fs rootAbs)
    else none

/-- The candidate paths `resolveWithExtensions` considers for a base. -/
def rwCandidates (fs : FS) (baseAbs : String) : List String :=
  (if pExtname baseAbs ≠ "" then [baseAbs]
   else ALL_EXTENSIONS.map (fun ext => baseAbs ++ ext)) ++
  (if existsDir fs baseAbs then
    ALL_EXTENSIONS.map (fun ext => pJoin [baseAbs, "index" ++ ext])
   else [])

/-- All candidate paths `resolveImports` considers for a specifier. -/
def resolverCandidates (fs : FS) (cwd : String) (fromAbs spec projectRoot : String) :
    List String :=
  if spec = "" then []
  else
    let rootAbs := pResolve cwd [projectRoot]
    let fromDir := pDirname (pResolve cwd [fromAbs])
    let cleaned := stripQueryAndHash (jsTrim spec)
    if cleaned = "" then []
    else if !jsStartsWith cleaned "." && !jsStartsWith cleaned "/" then []
    else if jsStartsWith cleaned "." then
      rwCandidates fs (pResolve cwd [fromDir, cleaned])
    else if jsStartsWith cleaned "/" then
      let relWeb : String := ⟨cleaned.data.dropWhile fun c => c = '/'⟩
      (guessPublicRoots fs rootAbs).flatMap fun pr =>
        rwCandidates fs (pResolve cwd [pr, relWeb])
    else []

/-! ## Graph Builder (`buildMetricsFromEntrypoint.js`)

The builder is parameterised by the extraction function `pf` standing for
the imported `parseFile`, and by a fuel value: the BFS loop and the
mutually recursive directory-expansion helpers have no termination
measure in the source (a text file referencing its own directory makes
them diverge), so every recursive call consumes one unit of fuel and
`none` stands for a run that does not complete. -/

/-- `MAX_DIR_ENTRIES`: max direct children per referenced directory. -/
def MAX_DIR_ENTRIES : Nat := 140

/-- `MAX_DIR_DEPTH`: how deep referenced directories are expanded. -/
def MAX_DIR_DEPTH : Nat := 2

/-- `MAX_SKELETON_DIRS`: number of top-level dirs in the skeleton. -/
def MAX_SKELETON_DIRS : Nat := 16

/-- `MAX_SKELETON_FILES_PER_DIR`: max files per skeleton directory. -/
def MAX_SKELETON_FILES_PER_DIR : Nat := 100

/-- `SKIP_NAMES`: noise / OS / build-artifact names to ignore. -/
def SKIP_NAMES : List String :=
  [".DS_Store", "Thumbs.db", ".git", ".svn", ".hg", "node_modules",
   ".next", ".nuxt", "dist", "build", "out", ".cache", ".idea", ".vscode"]

/-- `ASSET_EXT_ALLOW`: extensions considered architecturally useful. -/
def ASSET_EXT_ALLOW : List String :=
  [".js", ".mjs", ".cjs", ".ts", ".tsx", ".jsx",
   ".json", ".jsonc", ".csv", ".tsv", ".md", ".txt",
   ".html", ".htm", ".css", ".yml", ".yaml",
   ".env", ".env.local", ".sql",
   ".png", ".jpg", ".jpeg", ".gif", ".svg", ".webp", ".ico"]

/-- `PARSEABLE_TEXT_EXT`: cheaply parseable non-JS file types. -/
def PARSEABLE_TEXT_EXT : List String :=
  [".json", ".jsonc", ".md", ".txt", ".html", ".htm", ".css"]

/-- A graph node as the builder emits it.  `kind` is `none` when the
optional JS `kind` field is absent. -/
structure NodeRec where
  id : String
  file : String
  lines : Nat
  complexity : Nat
  headerComment : String
  kind : Option String
deriving Repr, DecidableEq

/-- A graph edge `{source, target, type}`. -/
structure LinkRec where
  source : String
  target : String
  type : String
deriving Repr, DecidableEq

/-- The fields of a `parseFile` result that the builder reads
(`imports`, `lines`, `complexity`, `headerComment`, and the four
reference buckets merged in section 2.1b; a bucket that is not an array
in JS contributes nothing and is modelled as `[]`). -/
structure Parsed where
  imports : List String
  lines : Nat
  complexity : Nat
  headerComment : String
  fileRefsAbs : List String
  fileRefsRel : List String
  assetRefsAbs : List String
  assetRefsRel : List String
deriving Repr

instance : Inhabited Parsed := ⟨⟨[], 0, 0, "", [], [], [], []⟩⟩

/-- JS `s.replace(/\\/g, "/")`. -/
def replaceBackslashes (s : String) : String :=
  ⟨s.data.map fun c => if c = '\\' then '/' else c⟩

/-- `toProjectRelativeId` (builder): `path.relative` of the resolved
paths, falling back to the basename when the path lies outside the root,
with backslashes normalised to forward slashes. -/
def toProjectRelativeId (cwd projectRoot absPath : String) : String :=
  let rootAbs := pResolve cwd [projectRoot]
  let fileAbs := pResolve cwd [absPath]
  let rel := pRelative cwd rootAbs fileAbs
  let rel2 := if jsStartsWith rel (".." ++ "/") || rel = ".." then pBasename fileAbs else rel
  replaceBackslashes rel2

/-- JS truthiness of the optional `kind` field. -/
def kindStr : Option String → String
  | none => ""
  | some k => k

/-- The in-place merge of `ensureNode` for an already known id: zero or
empty fields may be filled in, populated fields are kept. -/
def mergeNode (existing incoming : NodeRec) : NodeRec :=
  { existing with
    lines := if existing.lines = 0 && incoming.lines > 0 then incoming.lines else existing.lines
    complexity :=
      if existing.complexity = 0 && incoming.complexity > 0 then incoming.complexity
      else existing.complexity
    headerComment :=
      if existing.headerComment = "" && incoming.headerComment ≠ "" then incoming.headerComment
      else existing.headerComment
    kind :=
      if kindStr existing.kind = "" && kindStr incoming.kind ≠ "" then incoming.kind
      else existing.kind
    file := if existing.file = "" && incoming.file ≠ "" then incoming.file else existing.file }

/-- The `normalized` node pushed by `ensureNode` for a fresh id `i`
(`i` is the trimmed id). -/
def normalizeNode (i : String) (node : NodeRec) : NodeRec :=
  { id := i
    file := if node.file ≠ "" then node.file else i
    lines := node.lines
    complexity := node.complexity
    headerComment := node.headerComment
    kind := if kindStr node.kind ≠ "" then some (kindStr node.kind) else none }

/-- `ensureNode`: dedupe by trimmed id; merge into an existing node or
append a fresh normalised one.  The `nodes` array and the `nodeIndex`
map alias the same objects in JS, so a single insertion-ordered list
models both; the returned flag is the JS return value. -/
def ensureNode (nodes : List NodeRec) (node : NodeRec) : List NodeRec × Bool :=
  let i := jsTrim node.id
  if i = "" then (nodes, false)
  else if nodes.any (fun n => n.id = i) then
    (nodes.map (fun ex => if ex.id = i then mergeNode ex node else ex), false)
  else (nodes ++ [normalizeNode i node], true)

/-- The dedup key of `ensureLink`: `` `${s}|${ty}|${t}` ``. -/
def linkKey (s ty t : String) : String := s ++ "|" ++ ty ++ "|" ++ t

/-- `ensureLink`: drop empty endpoints, dedupe by the key string, else
append.  The `linkIndex` set is in sync with the pushed links, so key
membership is modelled by scanning the list. -/
def ensureLink (links : List LinkRec) (sourceId targetId type0 : String) :
    List LinkRec × Bool :=
  let ty := if type0 = "" then "use" else type0
  if sourceId = "" || targetId = "" then (links, false)
  else if links.any (fun l => linkKey l.source l.type l.target = linkKey sourceId ty targetId) then
    (links, false)
  else (links ++ [⟨sourceId, targetId, ty⟩], true)

/-- `isScriptFile`. -/
def isScriptFile (p : String) : Bool :=
  let ext := jsToLower (pExtname p)
  ext = ".js" || ext = ".mjs" || ext = ".cjs" || ext = ".ts" || ext = ".tsx" || ext = ".jsx"

/-- `toAbsFromRelMaybe`: keep absolute refs (normalised), interpret
relative refs against the project root, reject empty ones. -/
def toAbsFromRelMaybe (cwd projectRootAbs relOrAbs : String) : Option String :=
  let raw := jsTrim relOrAbs
  if raw = "" then none
  else if pIsAbsolute raw then some (pNormalize raw)
  else some (pResolve cwd [projectRootAbs, raw])

/-- The builder's traversal state: visited set, insertion-ordered nodes,
links, and the FIFO work queue. -/
structure BState where
  visited : List String
  nodes : List NodeRec
  links : List LinkRec
  queue : List String
deriving Repr, DecidableEq

mutual

/-- `expandDirectoryBounded`: bounded expansion of a referenced
directory (depth capped by `MAX_DIR_DEPTH`). -/
def expandDirectoryBounded (gas : Nat) (fs : FS) (pf : String → String → Parsed)
    (cwd projectRootAbs refDirAbs refDirId : String) (depth : Nat) (st : BState) : BState :=
  match gas with
  | 0 => st
  | g + 1 =>
    if MAX_DIR_DEPTH ≤ depth then st
    else
      expandEntries g fs pf cwd projectRootAbs refDirAbs refDirId depth
        (fs.readdirSync refDirAbs) 0 st

/-- The entry loop of `expandDirectoryBounded` (count capped by
`MAX_DIR_ENTRIES`). -/
def expandEntries (gas : Nat) (fs : FS) (pf : String → String → Parsed)
    (cwd projectRootAbs refDirAbs refDirId : String) (depth : Nat)
    (entries : List String) (count : Nat) (st : BState) : BState :=
  match gas with
  | 0 => st
  | g + 1 =>
    match entries with
    | [] => st
    | name :: rest =>
      if MAX_DIR_ENTRIES ≤ count then st
      else if name = "" then
        expandEntries g fs pf cwd projectRootAbs refDirAbs refDirId depth rest count st
      else if SKIP_NAMES.contains name then
        expandEntries g fs pf cwd projectRootAbs refDirAbs refDirId depth rest count st
      else if jsStartsWith name "." then
        expandEntries g fs pf cwd projectRootAbs refDirAbs refDirId depth rest count st
      else
        match fs.statSync (pJoin [refDirAbs, name]) with
        | none =>
          expandEntries g fs pf cwd projectRootAbs refDirAbs refDirId depth rest count st
        | some StatKind.dir =>
          expandEntries g fs pf cwd projectRootAbs refDirAbs refDirId depth rest (count + 1)
            (expandDirectoryBounded g fs pf cwd projectRootAbs (pJoin [refDirAbs, name])
              (toProjectRelativeId cwd projectRootAbs (pJoin [refDirAbs, name])) (depth + 1)
              { st with
                nodes := (ensureNode st.nodes
                  ⟨toProjectRelativeId cwd projectRootAbs (pJoin [refDirAbs, name]),
                   toProjectRelativeId cwd projectRootAbs (pJoin [refDirAbs, name]),
                   0, 0, "", some "dir"⟩).1,
                links := (ensureLink st.links refDirId
                  (toProjectRelativeId cwd projectRootAbs (pJoin [refDirAbs, name]))
                  "include").1 })
        | some StatKind.file =>
          if !(name = "Dockerfile" || name = "Makefile" || name = "LICENSE") &&
              jsToLower (pExtname name) ≠ "" &&
              !ASSET_EXT_ALLOW.contains (jsToLower (pExtname name)) then
            expandEntries g fs pf cwd projectRootAbs refDirAbs refDirId depth rest count st
          else
            if isScriptFile (pJoin [refDirAbs, name]) &&
                !st.visited.contains (pJoin [refDirAbs, name]) then
              expandEntries g fs pf cwd projectRootAbs refDirAbs refDirId depth rest (count + 1)
                { st with
                  nodes := (ensureNode st.nodes
                    ⟨toProjectRelativeId cwd projectRootAbs (pJoin [refDirAbs, name]),
                     toProjectRelativeId cwd projectRootAbs (pJoin [refDirAbs, name]), 0, 0, "",
                     some (if isScriptFile (pJoin [refDirAbs, name])
                           then "file" else "asset")⟩).1,
                  links := (ensureLink st.links refDirId
                    (toProjectRelativeId cwd projectRootAbs (pJoin [refDirAbs, name]))
                    "include").1,
                  queue := st.queue ++ [pJoin [refDirAbs, name]] }
            else if PARSEABLE_TEXT_EXT.contains (jsToLower (pExtname name)) then
              expandEntries g fs pf cwd projectRootAbs refDirAbs refDirId depth rest (count + 1)
                (tryParseReferencedTextFile g fs pf cwd projectRootAbs (pJoin [refDirAbs, name])
                  (toProjectRelativeId cwd projectRootAbs (pJoin [refDirAbs, name]))
                  { st with
                    nodes := (ensureNode st.nodes
                      ⟨toProjectRelativeId cwd projectRootAbs (pJoin [refDirAbs, name]),
                       toProjectRelativeId cwd projectRootAbs (pJoin [refDirAbs, name]), 0, 0, "",
                       some (if isScriptFile (pJoin [refDirAbs, name])
                             then "file" else "asset")⟩).1,
                    links := (ensureLink st.links refDirId
                      (toProjectRelativeId cwd projectRootAbs (pJoin [refDirAbs, name]))
                      "include").1 })
            else
              expandEntries g fs pf cwd projectRootAbs refDirAbs refDirId depth rest (count + 1)
                { st with
                  nodes := (ensureNode st.nodes
                    ⟨toProjectRelativeId cwd projectRootAbs (pJoin [refDirAbs, name]),
                     toProjectRelativeId cwd projectRootAbs (pJoin [refDirAbs, name]), 0, 0, "",
                     some (if isScriptFile (pJoin [refDirAbs, name])
                           then "file" else "asset")⟩).1,
                  links := (ensureLink st.links refDirId
                    (toProjectRelativeId cwd projectRootAbs (pJoin [refDirAbs, name]))
                    "include").1 }

/-- `tryParseReferencedTextFile`: parse a referenced non-JS text file
once and add its discovered references (an unreadable file is a silent
return). -/
def tryParseReferencedTextFile (gas : Nat) (fs : FS) (pf : String → String → Parsed)
    (cwd projectRootAbs fileAbs parentId : String) (st : BState) : BState :=
  match gas with
  | 0 => st
  | g + 1 =>
    match fs.readFileSync fileAbs with
    | Except.error _ => st
    | Except.ok text =>
      tpRefs g fs pf cwd projectRootAbs parentId
        ((pf text fileAbs).fileRefsAbs ++ (pf text fileAbs).fileRefsRel ++
         (pf text fileAbs).assetRefsAbs ++ (pf text fileAbs).assetRefsRel) st

/-- The reference loop of `tryParseReferencedTextFile`. -/
def tpRefs (gas : Nat) (fs : FS) (pf : String → String → Parsed)
    (cwd projectRootAbs parentId : String) (refs : List String) (st : BState) : BState :=
  match gas with
  | 0 => st
  | g + 1 =>
    match refs with
    | [] => st
    | ref :: rest =>
      match toAbsFromRelMaybe cwd projectRootAbs ref with
      | none => tpRefs g fs pf cwd projectRootAbs parentId rest st
      | some refAbs =>
        if !isInsideRoot cwd projectRootAbs refAbs then
          tpRefs g fs pf cwd projectRootAbs parentId rest st
        else if !fs.existsSync refAbs then
          tpRefs g fs pf cwd projectRootAbs parentId rest st
        else
          match fs.statSync refAbs with
          | none => tpRefs g fs pf cwd projectRootAbs parentId rest st
          | some StatKind.dir =>
            tpRefs g fs pf cwd projectRootAbs parentId rest
              (expandDirectoryBounded g fs pf cwd projectRootAbs refAbs
                (toProjectRelativeId cwd projectRootAbs refAbs) 0
                { st with
                  nodes := (ensureNode st.nodes
                    ⟨toProjectRelativeId cwd projectRootAbs refAbs,
                     toProjectRelativeId cwd projectRootAbs refAbs, 0, 0, "",
                     some "dir"⟩).1,
                  links := (ensureLink st.links parentId
                    (toProjectRelativeId cwd projectRootAbs refAbs) "include").1 })
          | some StatKind.file =>
            tpRefs g fs pf cwd projectRootAbs parentId rest
              (if isScriptFile refAbs && !st.visited.contains refAbs then
                { st with
                  nodes := (ensureNode st.nodes
                    ⟨toProjectRelativeId cwd projectRootAbs refAbs,
                     toProjectRelativeId cwd projectRootAbs refAbs, 0, 0, "",
                     some (if isScriptFile refAbs then "file" else "asset")⟩).1,
                  links := (ensureLink st.links parentId
                    (toProjectRelativeId cwd projectRootAbs refAbs) "include").1,
                  queue := st.queue ++ [refAbs] }
               else
                { st with
                  nodes := (ensureNode st.nodes
                    ⟨toProjectRelativeId cwd projectRootAbs refAbs,
                     toProjectRelativeId cwd projectRootAbs refAbs, 0, 0, "",
                     some (if isScriptFile refAbs then "file" else "asset")⟩).1,
                  links := (ensureLink st.links parentId
                    (toProjectRelativeId cwd projectRootAbs refAbs) "include").1 })

end

/-- Section 2.1b of the main loop: the discovered-references loop of the
currently visited file (directory references trigger bounded expansion,
file references become include edges and possibly queue entries). -/
def processRefs (gas : Nat) (fs : FS) (pf : String → String → Parsed)
    (cwd projectRootAbs nodeId : String) : List String → BState → BState
  | [], st => st
  | ref :: rest, st =>
    match toAbsFromRelMaybe cwd projectRootAbs ref with
    | none => processRefs gas fs pf cwd projectRootAbs nodeId rest st
    | some refAbs =>
      if !isInsideRoot cwd projectRootAbs refAbs then
        processRefs gas fs pf cwd projectRootAbs nodeId rest st
      else if !fs.existsSync refAbs then
        processRefs gas fs pf cwd projectRootAbs nodeId rest st
      else
        match fs.statSync refAbs with
        | none => processRefs gas fs pf cwd projectRootAbs nodeId rest st
        | some StatKind.dir =>
          processRefs gas fs pf cwd projectRootAbs nodeId rest
            (expandDirectoryBounded gas fs pf cwd projectRootAbs refAbs
              (toProjectRelativeId cwd projectRootAbs refAbs) 0
              { st with
                nodes := (ensureNode st.nodes
                  ⟨toProjectRelativeId cwd projectRootAbs refAbs,
                   toProjectRelativeId cwd projectRootAbs refAbs, 0, 0, "",
                   some "dir"⟩).1,
                links := (ensureLink st.links nodeId
                  (toProjectRelativeId cwd projectRootAbs refAbs) "include").1 })
        | some StatKind.file =>
          processRefs gas fs pf cwd projectRootAbs nodeId rest
            (if isScriptFile refAbs && !st.visited.contains refAbs then
              { st with
                nodes := (ensureNode st.nodes
                  ⟨toProjectRelativeId cwd projectRootAbs refAbs,
                   toProjectRelativeId cwd projectRootAbs refAbs, 0, 0, "",
                   some (if isScriptFile refAbs then "file" else "asset")⟩).1,
                links := (ensureLink st.links nodeId
                  (toProjectRelativeId cwd projectRootAbs refAbs) "include").1,
                queue := st.queue ++ [refAbs] }
             else
              { st with
                nodes := (ensureNode st.nodes
                  ⟨toProjectRelativeId cwd projectRootAbs refAbs,
                   toProjectRelativeId cwd projectRootAbs refAbs, 0, 0, "",
                   some (if isScriptFile refAbs then "file" else "asset")⟩).1,
                links := (ensureLink st.links nodeId
                  (toProjectRelativeId cwd projectRootAbs refAbs) "include").1 })

/-- Section 2.2 of the main loop: resolve each import specifier, add a
`use` edge for each hit and enqueue unvisited targets. -/
def processImports (fs : FS) (cwd projectRoot nodeId fromAbs : String) :
    List String → BState → BState
  | [], st => st
  | spec :: rest, st =>
    match resolveImports fs cwd fromAbs spec projectRoot with
    | none => processImports fs cwd projectRoot nodeId fromAbs rest st
    | some resolvedAbs =>
      processImports fs cwd projectRoot nodeId fromAbs rest
        (if !st.visited.contains resolvedAbs then
          { st with
            links := (ensureLink st.links nodeId
              (toProjectRelativeId cwd projectRoot resolvedAbs) "use").1,
            queue := st.queue ++ [resolvedAbs] }
         else
          { st with
            links := (ensureLink st.links nodeId
              (toProjectRelativeId cwd projectRoot resolvedAbs) "use").1 })

/-- The breadth-first traversal loop of `buildMetricsFromEntrypoint`.
`Except.error` models the uncaught `readUtf8` throw; `none` models a run
that does not complete within the given fuel. -/
def buildLoop (gas : Nat) (fs : FS) (pf : String → String → Parsed)
    (cwd projectRoot : String) (st : BState) : Option (Except String BState) :=
  match gas with
  | 0 => none
  | g + 1 =>
    match st.queue with
    | [] => some (Except.ok st)
    | abs :: qrest =>
      if abs = "" then
        buildLoop g fs pf cwd projectRoot { st with queue := qrest }
      else if st.visited.contains abs then
        buildLoop g fs pf cwd projectRoot { st with queue := qrest }
      else
        match fs.readFileSync abs with
        | Except.error e => some (Except.error e)
        | Except.ok code =>
          buildLoop g fs pf cwd projectRoot
            (processImports fs cwd projectRoot (toProjectRelativeId cwd projectRoot abs) abs
              (pf code abs).imports
              (processRefs g fs pf cwd (pResolve cwd [projectRoot])
                (toProjectRelativeId cwd projectRoot abs)
                ((pf code abs).fileRefsAbs ++ (pf code abs).fileRefsRel ++
                 (pf code abs).assetRefsAbs ++ (pf code abs).assetRefsRel)
                { st with
                  visited := st.visited ++ [abs],
                  nodes := (ensureNode st.nodes
                    ⟨toProjectRelativeId cwd projectRoot abs,
                     toProjectRelativeId cwd projectRoot abs,
                     (pf code abs).lines, (pf code abs).complexity,
                     (pf code abs).headerComment, none⟩).1,
                  queue := qrest }))

/-- `preferredDirs` of `discoverProjectSkeleton`. -/
def preferredDirs : List String :=
  ["app", "src", "routes", "controllers", "services", "lib", "config",
   "data", "public", "views", "static", "assets", "scripts", "tests"]

/-- `topFiles` of `discoverProjectSkeleton`. -/
def topFiles : List String :=
  ["package.json", "package-lock.json", "pnpm-lock.yaml", "yarn.lock",
   "README.md", "readme.md", "config.json", ".env"]

/-- The shallow file listing of one skeleton directory. -/
def skeletonFiles (fs : FS) (cwd projectRootAbs dirId dirAbs : String) :
    List String → Nat → BState → BState
  | [], _, st => st
  | name :: rest, fileCount, st =>
    if MAX_SKELETON_FILES_PER_DIR ≤ fileCount then st
    else if name = "" then skeletonFiles fs cwd projectRootAbs dirId dirAbs rest fileCount st
    else if SKIP_NAMES.contains name then
      skeletonFiles fs cwd projectRootAbs dirId dirAbs rest fileCount st
    else if jsStartsWith name "." then
      skeletonFiles fs cwd projectRootAbs dirId dirAbs rest fileCount st
    else
      match fs.statSync (pJoin [dirAbs, name]) with
      | some StatKind.file =>
        if !(name = "Dockerfile" || name = "Makefile" || name = "LICENSE") &&
            jsToLower (pExtname name) ≠ "" &&
            !ASSET_EXT_ALLOW.contains (jsToLower (pExtname name)) then
          skeletonFiles fs cwd projectRootAbs dirId dirAbs rest fileCount st
        else
          skeletonFiles fs cwd projectRootAbs dirId dirAbs rest (fileCount + 1)
            { st with
              nodes := (ensureNode st.nodes
                ⟨toProjectRelativeId cwd projectRootAbs (pJoin [dirAbs, name]),
                 toProjectRelativeId cwd projectRootAbs (pJoin [dirAbs, name]), 0, 0, "",
                 some (if isScriptFile (pJoin [dirAbs, name]) then "file" else "asset")⟩).1,
              links := (ensureLink st.links dirId
                (toProjectRelativeId cwd projectRootAbs (pJoin [dirAbs, name]))
                "include").1 }
      | some StatKind.dir => skeletonFiles fs cwd projectRootAbs dirId dirAbs rest fileCount st
      | none => skeletonFiles fs cwd projectRootAbs dirId dirAbs rest fileCount st

/-- The preferred-directory loop of `discoverProjectSkeleton`. -/
def skeletonDirs (fs : FS) (cwd projectRootAbs : String) :
    List String → Nat → BState → BState
  | [], _, st => st
  | dirName :: rest, addedDirs, st =>
    if MAX_SKELETON_DIRS ≤ addedDirs then st
    else if dirName = "" || SKIP_NAMES.contains dirName then
      skeletonDirs fs cwd projectRootAbs rest addedDirs st
    else
      match fs.statSync (pJoin [projectRootAbs, dirName]) with
      | some StatKind.dir =>
        skeletonDirs fs cwd projectRootAbs rest (addedDirs + 1)
          (skeletonFiles fs cwd projectRootAbs
            (toProjectRelativeId cwd projectRootAbs (pJoin [projectRootAbs, dirName]))
            (pJoin [projectRootAbs, dirName])
            (fs.readdirSync (pJoin [projectRootAbs, dirName])) 0
            { st with
              nodes := (ensureNode st.nodes
                ⟨toProjectRelativeId cwd projectRootAbs (pJoin [projectRootAbs, dirName]),
                 toProjectRelativeId cwd projectRootAbs (pJoin [projectRootAbs, dirName]),
                 0, 0, "", some "dir"⟩).1,
              links := (ensureLink st.links "."
                (toProjectRelativeId cwd projectRootAbs (pJoin [projectRootAbs, dirName]))
                "include").1 })
      | some StatKind.file => skeletonDirs fs cwd projectRootAbs rest addedDirs st
      | none => skeletonDirs fs cwd projectRootAbs rest addedDirs st

/-- The top-level convention-file loop of `discoverProjectSkeleton`. -/
def skeletonTop (fs : FS) (cwd projectRootAbs : String) :
    List String → BState → BState
  | [], st => st
  | name :: rest, st =>
    if name = "" then skeletonTop fs cwd projectRootAbs rest st
    else
      match fs.statSync (pJoin [projectRootAbs, name]) with
      | some StatKind.file =>
        skeletonTop fs cwd projectRootAbs rest
          { st with
            nodes := (ensureNode st.nodes
              ⟨toProjectRelativeId cwd projectRootAbs (pJoin [projectRootAbs, name]),
               toProjectRelativeId cwd projectRootAbs (pJoin [projectRootAbs, name]),
               0, 0, "", some "asset"⟩).1,
            links := (ensureLink st.links "."
              (toProjectRelativeId cwd projectRootAbs (pJoin [projectRootAbs, name]))
              "include").1 }
      | some StatKind.dir => skeletonTop fs cwd projectRootAbs rest st
      | none => skeletonTop fs cwd projectRootAbs rest st

/-- `discoverProjectSkeleton`: a synthetic root node `"."` of kind
`"root"`, the preferred directories with one level of files, and a few
top-level convention files. -/
def discoverProjectSkeleton (fs : FS) (cwd projectRootAbs : String) (st : BState) : BState :=
  skeletonTop fs cwd projectRootAbs topFiles
    (skeletonDirs fs cwd projectRootAbs preferredDirs 0
      { st with nodes := (ensureNode st.nodes ⟨".", ".", 0, 0, "", some "root"⟩).1 })

/-- The auto-mode fallback gate of the builder: run the skeleton pass
exactly when the traversal yielded at most 5 nodes and at most 1 link. -/
def buildFinish (fs : FS) (cwd projectRoot : String) (st : BState) : BState :=
  if st.nodes.length ≤ 5 && st.links.length ≤ 1 then
    discoverProjectSkeleton fs cwd (pResolve cwd [projectRoot]) st
  else st

/-- The ambient world a run executes in.  The builder reads only the
file tree and the working directory; the clock and randomness source are
carried to state that the builder does not consult them (unlike
`liveChangeFeed`, which uses `Date.now` and `Math.random`). -/
structure World where
  fs : FS
  cwd : String
  clockMs : Nat
  randomSeed : Nat

/-- The returned metrics payload `{meta: {entry, urlInfo}, nodes, links}`. -/
structure Graph where
  entry : String
  urlInfo : String
  nodes : List NodeRec
  links : List LinkRec
deriving Repr, DecidableEq

/-- `buildMetricsFromEntrypoint({projectRoot, entryAbs, urlInfo})`:
run the BFS from the entrypoint, apply the skeleton fallback, return the
payload.  `Except.error` is the uncaught entry/traversal read failure;
`none` is a run that does not complete within the fuel. -/
def buildMetricsFromEntrypoint (gas : Nat) (w : World) (pf : String → String → Parsed)
    (projectRoot entryAbs urlInfo : String) : Option (Except String Graph) :=
  match buildLoop gas w.fs pf w.cwd projectRoot ⟨[], [], [], [entryAbs]⟩ with
  | none => none
  | some (Except.error e) => some (Except.error e)
  | some (Except.ok st) =>
    let st := buildFinish w.fs w.cwd projectRoot st
    some (Except.ok
      ⟨toProjectRelativeId w.cwd projectRoot entryAbs, urlInfo, st.nodes, st.links⟩)

/-- A path segment that survives normalisation unchanged. -/
def cleanSeg (s : String) : Prop := s ≠ "" ∧ s ≠ "." ∧ s ≠ ".."

instance (s : String) : Decidable (cleanSeg s) := by
  unfold cleanSeg
  infer_instance

/-- A node id free of the whitespace/dot pathologies that would let a
filesystem name break the id discipline of the builder: trimming is the
identity on it and it is not `"."` (the synthetic root id). -/
def GoodId (i : String) : Prop := jsTrim i = i ∧ i ≠ "."

instance (i : String) : Decidable (GoodId i) := by
  unfold GoodId
  infer_instance

/-- Well-formedness of a file tree with respect to a project root: every
recorded path is absolute, is normalisation-fixed, and yields a good
project-relative id. -/
def HFS (fs : FS) (cwd projectRoot : String) : Prop :=
  ∀ k ∈ fs.files.map Prod.fst ++ fs.dirs,
    pIsAbsolute k = true ∧ pNormalize k = k ∧
      GoodId (toProjectRelativeId cwd projectRoot k)

instance (fs : FS) (cwd projectRoot : String) : Decidable (HFS fs cwd projectRoot) := by
  unfold HFS
  infer_instance

/-- Shorthand for the project-relative id of a path. -/
def idOf (cwd projectRoot p : String) : String := toProjectRelativeId cwd projectRoot p

/-- Queue invariant of the builder: each queued path is the entry or an
existing file with a well-behaved id. -/
def QueueOK (fs : FS) (cwd projectRoot entryAbs : String) (st : BState) : Prop :=
  ∀ q ∈ st.queue, q = entryAbs ∨ (fs.isFile q = true ∧ GoodId (idOf cwd projectRoot q))

/-- Link invariant: every endpoint of every link names a node, except
that a target may instead still be waiting in the queue. -/
def LinksOK (cwd projectRoot : String) (st : BState) : Prop :=
  ∀ l ∈ st.links,
    (∃ n ∈ st.nodes, n.id = l.source) ∧
    ((∃ n ∈ st.nodes, n.id = l.target) ∨ ∃ q ∈ st.queue, idOf cwd projectRoot q = l.target)

/-- Visited invariant: every visited path whose trimmed id is nonempty
has a node carrying that trimmed id. -/
def VisitedOK (cwd projectRoot : String) (st : BState) : Prop :=
  ∀ v ∈ st.visited, jsTrim (idOf cwd projectRoot v) = "" ∨
    ∃ n ∈ st.nodes, n.id = jsTrim (idOf cwd projectRoot v)

/-- Node invariant: no traversal node carries the synthetic root id. -/
def NodesOK (st : BState) : Prop := ∀ n ∈ st.nodes, n.id ≠ "" ∧ n.id ≠ "."

/-- Stored links never carry an empty endpoint (`ensureLink` drops
those). -/
def LinkNZ (st : BState) : Prop := ∀ l ∈ st.links, l.source ≠ "" ∧ l.target ≠ ""

/-- The state relation established by one `processImports` call: visited
and nodes untouched, the queue only grows (and only with resolver hits,
which are good existing files), and every new link is a `use` edge from
`nodeId` to the id of a resolver hit that is afterwards queued or was
already visited. -/
def ImpPost (fs : FS) (cwd projectRoot nodeId : String) (st st' : BState) : Prop :=
  st'.visited = st.visited ∧ st'.nodes = st.nodes ∧
  (∀ q ∈ st.queue, q ∈ st'.queue) ∧
  (∀ q ∈ st'.queue, q ∈ st.queue ∨
    (fs.isFile q = true ∧ GoodId (idOf cwd projectRoot q))) ∧
  (∀ l ∈ st'.links, l ∈ st.links ∨
    (l.source = nodeId ∧ l.source ≠ "" ∧ l.target ≠ "" ∧
      ∃ r, fs.isFile r = true ∧ GoodId (idOf cwd projectRoot r) ∧
        l.target = idOf cwd projectRoot r ∧
        (r ∈ st'.queue ∨ st.visited.contains r = true)))

/-- The two guarantees of the traversal loop, as a predicate of its
result: no read error can surface when the tree has no unreadable entry
and the entry is a real file, and a successful final state has an empty
queue, node-backed links (up to the empty queue) and disciplined node
ids. -/
def LoopGoal (fs : FS) (cwd projectRoot entryAbs : String)
    (res : Option (Except String BState)) : Prop :=
  (fs.unreadable = [] → fs.isFile entryAbs = true →
    ∀ e, res ≠ some (Except.error e)) ∧
  (∀ st', res = some (Except.ok st') →
    st'.queue = [] ∧ LinksOK cwd projectRoot st' ∧ NodesOK st')

/-- Every link endpoint names a node (the final-graph form of the link
invariant, with no queue escape hatch). -/
def LinksNB (st : BState) : Prop :=
  ∀ l ∈ st.links,
    (∃ n ∈ st.nodes, n.id = l.source) ∧ (∃ n ∈ st.nodes, n.id = l.target)

instance (st : BState) : Decidable (LinksNB st) := by
  unfold LinksNB
  infer_instance

/-- Bookkeeping facts preserved by the skeleton pass: the node count
never shrinks and a node with a populated `kind` keeps its id and kind. -/
def SkelMeta (st st' : BState) : Prop :=
  st.nodes.length ≤ st'.nodes.length ∧
  ∀ n ∈ st.nodes, kindStr n.kind ≠ "" →
    ∃ n' ∈ st'.nodes, n'.id = n.id ∧ n'.kind = n.kind

/-- The state relation established by one call of the directory-expansion
family, relative to the caller-supplied source id `rid`: provided `rid`
is empty or already names a node, the call leaves `visited` untouched,
only appends to the queue (and only good file paths), never loses or
renames node ids, only adds nodes with good nonempty ids, and only adds
links whose two endpoints name nodes of the resulting state. -/
def FamStep (fs : FS) (cwd projectRoot rid : String) (st st' : BState) : Prop :=
  (rid = "" ∨ ∃ n ∈ st.nodes, n.id = rid) →
  (st'.visited = st.visited ∧
   (∀ q ∈ st.queue, q ∈ st'.queue) ∧
   (∀ q ∈ st'.queue, q ∈ st.queue ∨
     (fs.isFile q = true ∧ GoodId (idOf cwd projectRoot q))) ∧
   (∀ n ∈ st.nodes, ∃ n' ∈ st'.nodes, n'.id = n.id) ∧
   (∀ n' ∈ st'.nodes, (∃ n ∈ st.nodes, n'.id = n.id) ∨ (n'.id ≠ "" ∧ GoodId n'.id)) ∧
   (∀ l ∈ st'.links, l ∈ st.links ∨
     ((∃ n ∈ st'.nodes, n.id = l.source) ∧ (∃ n ∈ st'.nodes, n.id = l.target))))

/-! ## The Source Extractor (`parseFile`, `src/unnamed/part_012`) -/

/-- The JS AST node shapes consulted by the extractor's safe-pattern
recognisers (`@babel/parser` and `@babel/traverse` are collaborators;
the visitor walk is a parameter of `parseJsTs`). -/
inductive JsAst where
  | ident (name : String)
  | strLit (value : String)
  | member (obj : JsAst) (prop : JsAst)
  | call (callee : JsAst) (args : List JsAst)
  | other
deriving Repr

/-! JSON values: `JSON.parse` is a collaborator returning this shape,
`none` modelling its throw. -/
mutual
/-- A parsed JSON value. -/
inductive Json where
  | null
  | bool (b : Bool)
  | num (n : Int)
  | str (s : String)
  | arr (xs : JsonList)
  | obj (kvs : JsonObj)
inductive JsonList where
  | nil
  | cons (hd : Json) (tl : JsonList)
inductive JsonObj where
  | nil
  | cons (k : String) (v : Json) (tl : JsonObj)
end

/-- The output record of `parseFile` (`symbols` as `kind × name` pairs,
`callsBy` as an association list, the `_fileRefsAbs` set as an
insertion-ordered duplicate-free list). -/
structure POut where
  imports : List String
  lines : Nat
  complexity : Nat
  headerComment : String
  symbols : List (String × String)
  callsBy : List (String × List String)
  assetRefs : List String
  fileRefsAbs : List String
deriving Repr, DecidableEq

/-- `emptyOut({lines, headerComment})`. -/
def emptyOut (lines : Nat) (headerComment : String) : POut :=
  ⟨[], lines, 0, headerComment, [], [], [], []⟩

/-- `uniq`: drop falsy (empty) entries, dedupe keeping first
occurrences. -/
def uniq (arr : List String) : List String :=
  dedupFirst (arr.filter (fun s => s ≠ ""))

/-- The `x.split(":")` destructuring of `finalize`'s symbol rebuild. -/
def pSplitSym (x : String) : String × String :=
  match jsSplitCh ':' x with
  | k :: n :: _ => (k, n)
  | [k] => (k, "")
  | [] => ("", "")

/-- `finalize`. -/
def finalize (out : POut) : POut :=
  { out with
    imports := uniq out.imports
    assetRefs := uniq out.assetRefs
    callsBy := out.callsBy.map (fun kv => (kv.1, uniq kv.2))
    symbols := (uniq (out.symbols.map (fun s => s.1 ++ ":" ++ s.2))).map pSplitSym }

/-- `safeDirname` (`process.cwd()` is the ambient `cwd` parameter). -/
def safeDirname (cwd file : String) : String :=
  let d := pDirname file
  if d ≠ "" ∧ d ≠ "." then d else cwd

/-- `safeResolve` (single-argument `path.resolve`, anchored at the
process working directory). -/
def safeResolve (cwd p : String) : Option String :=
  if jsTrim p = "" then none else some (pResolve cwd [jsTrim p])

/-- Case-insensitive prefix/suffix tests (the `/i` regex flags). -/
def startsWithCI (s p : String) : Bool := jsStartsWith (jsToLower s) (jsToLower p)

def endsWithCI (s p : String) : Bool := jsEndsWith (jsToLower s) (jsToLower p)

def containsS (s sub : String) : Bool := containsL sub.data s.data

/-- `isJsLikeExt`. -/
def isJsLikeExt (ext : String) : Bool :=
  ext = ".js" || ext = ".mjs" || ext = ".cjs" || ext = ".ts" || ext = ".tsx" || ext = ".jsx"

/-- `isNonLocalRef`. -/
def isNonLocalRef (v : String) : Bool :=
  let s := jsTrim v
  if s = "" then true
  else if startsWithCI s "http://" || startsWithCI s "https://" then true
  else if startsWithCI s "data:" then true
  else if startsWithCI s "mailto:" then true
  else if jsStartsWith s "#" then true
  else false

/-- The extension alternatives of `looksLikeAssetPath`'s suffix regex. -/
def ASSET_SUFFIXES : List String :=
  [".json", ".yaml", ".yml", ".toml", ".ini", ".env", ".csv", ".tsv", ".txt",
   ".md", ".html", ".htm", ".css", ".svg", ".png", ".jpeg", ".jpg", ".gif",
   ".webp", ".ico", ".map"]

/-- The folder alternatives of `looksLikeAssetPath`'s folder regexes. -/
def ASSET_FOLDERS : List String :=
  ["config", "data", "public", "assets", "static", "views", "templates"]

/-- `looksLikeAssetPath`. -/
def looksLikeAssetPath (s : String) : Bool :=
  let v := jsTrim s
  if v = "" then false
  else if startsWithCI v "http://" || startsWithCI v "https://" then false
  else if jsToLower v = ".ds_store" then false
  else if jsStartsWith v "/" && !jsStartsWith v "//" then true
  else if ASSET_SUFFIXES.any (fun e => endsWithCI v e) then true
  else if ASSET_FOLDERS.any (fun f => startsWithCI v (f ++ "/")) then true
  else if (jsStartsWith v "./" || jsStartsWith v "../") &&
      ASSET_FOLDERS.any (fun f => containsS (jsToLower v) (f ++ "/")) then true
  else if ["config", "settings"].any (fun p =>
      ["json", "yaml", "yml", "toml", "ini"].any (fun e =>
        jsToLower v = p ++ "." ++ e)) then true
  else false

/-- First piece of a one-character split (`split(sep)[0]`). -/
def firstSeg (sep : Char) (s : String) : String :=
  match jsSplitCh sep s with
  | x :: _ => x
  | [] => ""

/-- Set-insertion into the insertion-ordered `_fileRefsAbs` model. -/
def addToSet (l : List String) (x : String) : List String :=
  if l.contains x then l else l ++ [x]

/-- The `assetRefs` effect of `addRefFromText`. -/
def arfAsset (ref : String) (asr : List String) : List String :=
  if jsTrim ref = "" then asr
  else if isNonLocalRef (jsTrim ref) then asr
  else
    let s := jsTrim (firstSeg '?' (firstSeg '#' (jsTrim ref)))
    if s = "" then asr
    else if looksLikeAssetPath s then asr ++ [s]
    else asr

/-- The `_fileRefsAbs` effect of `addRefFromText`. -/
def arfFile (cwd baseDir ref : String) (fr : List String) : List String :=
  if jsTrim ref = "" then fr
  else if isNonLocalRef (jsTrim ref) then fr
  else
    let s := jsTrim (firstSeg '?' (firstSeg '#' (jsTrim ref)))
    if s = "" then fr
    else
      match safeResolve cwd (if pIsAbsolute s then s else pResolve cwd [baseDir, s]) with
      | some r => addToSet fr r
      | none => fr

/-- `addRefFromText` (touches only the two reference buckets). -/
def addRefFromText (cwd baseDir ref : String) (out : POut) : POut :=
  { out with
    assetRefs := arfAsset ref out.assetRefs
    fileRefsAbs := arfFile cwd baseDir ref out.fileRefsAbs }

/-- One quoted-string capture of `scanForAssetyStrings`'s `STR_RE`:
content up to the matching same-line closing quote. -/
def qstrTake (q : Char) : List Char → Option (List Char × List Char)
  | [] => none
  | c :: rest =>
    if c = q then some ([], rest)
    else if c = '\n' || c = '\r' then none
    else
      match qstrTake q rest with
      | some (content, r) => some (c :: content, r)
      | none => none

/-- The global `STR_RE` scan (fuel bounds the character cursor). -/
def qstrGo : Nat → List Char → List String
  | 0, _ => []
  | _, [] => []
  | f + 1, c :: rest =>
    if c = '"' || c = '\'' || c = '`' then
      match qstrTake c rest with
      | some (content, r) => (⟨content⟩ : String) :: qstrGo f r
      | none => qstrGo f rest
    else qstrGo f rest

def quotedStrings (s : String) : List String := qstrGo s.data.length s.data

/-- The filter-and-add loop body of `scanForAssetyStrings`. -/
def scanRefs (cwd baseDir : String) : List String → POut → POut
  | [], out => out
  | raw :: rest, out =>
    if raw = "" then scanRefs cwd baseDir rest out
    else if 260 < raw.length then scanRefs cwd baseDir rest out
    else if !looksLikeAssetPath raw then scanRefs cwd baseDir rest out
    else scanRefs cwd baseDir rest (addRefFromText cwd baseDir raw out)

/-- `scanForAssetyStrings`. -/
def scanForAssetyStrings (cwd baseDir src : String) (out : POut) : POut :=
  scanRefs cwd baseDir (quotedStrings src) out

/-- `countNonEmptyLines`. -/
def countNonEmptyLines (code : String) : Nat :=
  ((jsSplitLines code).filter (fun l => 0 < (jsTrim l).length)).length

/-- `\r\n` → `\n` normalisation of `extractHeaderComment`. -/
def normNl : List Char → List Char
  | '\r' :: '\n' :: rest => '\n' :: normNl rest
  | c :: rest => c :: normNl rest
  | [] => []

/-- BOM strip of `extractHeaderComment`. -/
def stripBom : List Char → List Char
  | c :: rest => if c.toNat = 0xFEFF then rest else c :: rest
  | [] => []

/-- Drop up to and including the first newline (`slice(nl + 1)`, the
whole string dropped when there is none). -/
def afterNl : List Char → List Char
  | [] => []
  | '\n' :: rest => rest
  | _ :: rest => afterNl rest

/-- Shebang strip of `extractHeaderComment`. -/
def stripShebang : List Char → List Char
  | '#' :: '!' :: rest => afterNl rest
  | l => l

/-- Find the first `*/`, returning the content before it and the rest
after it (the lazy `[\s\S]*?\*\/` tail of the block-comment regex). -/
def blockEnd : List Char → Option (List Char × List Char)
  | [] => none
  | '*' :: '/' :: rest => some ([], rest)
  | c :: rest =>
    match blockEnd rest with
    | some (content, r) => some (c :: content, r)
    | none => none

/-- `trimEnd` on a character list. -/
def trimEndL (l : List Char) : List Char := (dropWsL l.reverse).reverse

/-- The `^\s*\*\s?` strip of `cleanupBlock` (no-op when no star
follows the leading whitespace). -/
def starStrip (l : List Char) : List Char :=
  match dropWsL l with
  | '*' :: r =>
    match r with
    | c :: r' => if jsIsWs c then r' else c :: r'
    | [] => []
  | _ => l

/-- `cleanupBlock` applied to the content between the comment fences
(the leading `/*` and one optional extra `*`, and the trailing `*/`,
are already removed by the caller). -/
def cleanupBlock (content : List Char) : String :=
  let core := match content with
    | '*' :: r => r
    | r => r
  jsTrim (joinWith "\n" ((splitCh '\n' core).map (fun l => (⟨trimEndL (starStrip l)⟩ : String))))

/-- The `^\/\/\s?` strip of the line-comment collector. -/
def stripSlashes (t : String) : String :=
  match t.data with
  | '/' :: '/' :: r =>
    ⟨match r with
     | c :: r' => if jsIsWs c then r' else c :: r'
     | [] => []⟩
  | l => ⟨l⟩

/-- The leading `//`-line collector of `extractHeaderComment`. -/
def slashCollect (acc : List String) : List String → List String
  | [] => acc.reverse
  | line :: rest =>
    let t := jsTrim line
    if t = "" then
      if acc = [] then slashCollect acc rest else acc.reverse
    else if jsStartsWith t "//" then
      slashCollect (stripSlashes t :: acc) rest
    else acc.reverse

/-- The `//`-branch of `extractHeaderComment`. -/
def slashPart (s : List Char) : String :=
  jsTrim (joinWith "\n" (slashCollect [] ((splitCh '\n' s).map (fun l => (⟨l⟩ : String)))))

/-- `extractHeaderComment`. -/
def extractHeaderComment (code : String) : String :=
  let s := dropWsL (stripShebang (stripBom (normNl code.data)))
  match s with
  | '/' :: '*' :: rest =>
    match blockEnd rest with
    | some (content, _) => cleanupBlock content
    | none => slashPart s
  | _ => slashPart s

/-- JS `\w` (`[A-Za-z0-9_]`). -/
def isWordChar (c : Char) : Bool :=
  ('a' ≤ c && c ≤ 'z') || ('A' ≤ c && c ≤ 'Z') || ('0' ≤ c && c ≤ '9') || c = '_'

/-- Case-insensitive literal match returning the rest (the pattern is
given lowercase). -/
def matchCI : List Char → List Char → Option (List Char)
  | [], l => some l
  | _ :: _, [] => none
  | p :: ps, c :: cs => if c.toLower = p then matchCI ps cs else none

/-- One `.`-class character of the HTML attribute regex (no line
terminators). -/
def isDotChar (c : Char) : Bool :=
  !(c = '\n' || c = '\r' || c = '\u2028' || c = '\u2029')

/-- Lazy same-class capture up to the closing quote (the `(.*?)\1` tail
of `ATTR_RE`). -/
def attrTake (q : Char) : List Char → Option (List Char × List Char)
  | [] => none
  | c :: rest =>
    if c = q then some ([], rest)
    else if !isDotChar c then none
    else
      match attrTake q rest with
      | some (content, r) => some (c :: content, r)
      | none => none

/-- Alternative-by-alternative match of `ATTR_RE` at one position
(after the word-boundary check). -/
def attrAlt (name : List Char) (l : List Char) : Option (List Char × List Char) :=
  match matchCI name l with
  | none => none
  | some r1 =>
    match dropWsL r1 with
    | '=' :: r2 =>
      match dropWsL r2 with
      | c :: r3 =>
        if c = '"' || c = '\'' then attrTake c r3 else none
      | [] => none
    | _ => none

def attrMatchAt (l : List Char) : Option (List Char × List Char) :=
  match attrAlt "src".data l with
  | some r => some r
  | none =>
    match attrAlt "href".data l with
    | some r => some r
    | none =>
      match attrAlt "data-src".data l with
      | some r => some r
      | none => attrAlt "data-href".data l

/-- The global `ATTR_RE` scan (fuel bounds the cursor; `prev` carries
the word-boundary context). -/
def htmlGo : Nat → Option Char → List Char → List String
  | 0, _, _ => []
  | _, _, [] => []
  | f + 1, prev, c :: rest =>
    if (match prev with | none => true | some p => !isWordChar p) then
      match attrMatchAt (c :: rest) with
      | some (content, r) => (⟨content⟩ : String) :: htmlGo f (some '"') r
      | none => htmlGo f (some c) rest
    else htmlGo f (some c) rest

/-- Fold `addRefFromText` over a capture list. -/
def addRefsList (cwd baseDir : String) : List String → POut → POut
  | [], out => out
  | r :: rest, out => addRefsList cwd baseDir rest (addRefFromText cwd baseDir r out)

/-- `parseHtml`. -/
def parseHtml (cwd baseDir src : String) (out : POut) : POut :=
  addRefsList cwd baseDir (htmlGo src.data.length none src.data) out

/-- Greedy `[^"')]+` capture of `URL_RE`. -/
def cssTake : List Char → (List Char × List Char)
  | [] => ([], [])
  | c :: rest =>
    if c = '"' || c = '\'' || c = ')' then ([], c :: rest)
    else
      match cssTake rest with
      | (content, r) => (c :: content, r)

/-- One `URL_RE` match attempt. -/
def cssMatchAt (l : List Char) : Option (List Char × List Char) :=
  match matchCI "url(".data l with
  | none => none
  | some r1 =>
    match dropWsL r1 with
    | c :: r2 =>
      if c = '"' || c = '\'' then
        match cssTake r2 with
        | (content, r3) =>
          if content = [] then none
          else
            match r3 with
            | c2 :: r4 =>
              if c2 = c then
                match dropWsL r4 with
                | ')' :: r5 => some (content, r5)
                | _ => none
              else none
            | [] => none
      else
        match cssTake (c :: r2) with
        | (content, r3) =>
          if content = [] then none
          else
            match r3 with
            | ')' :: r4 => some (content, r4)
            | _ => none
    | [] => none

/-- The global `URL_RE` scan. -/
def cssGo : Nat → List Char → List String
  | 0, _ => []
  | _, [] => []
  | f + 1, c :: rest =>
    match cssMatchAt (c :: rest) with
    | some (content, r) => (⟨content⟩ : String) :: cssGo f r
    | none => cssGo f rest

/-- `parseCss`. -/
def parseCss (cwd baseDir src : String) (out : POut) : POut :=
  addRefsList cwd baseDir (cssGo src.data.length src.data) out

/-- `[^X]*`/`[^X]+` captures of the markdown link regex. -/
def mdTakeTo (stop : Char) : List Char → Option (List Char × List Char)
  | [] => none
  | c :: rest =>
    if c = stop then some ([], rest)
    else
      match mdTakeTo stop rest with
      | some (content, r) => some (c :: content, r)
      | none => none

/-- The bracket-parenthesis body shared by both `MD_LINK_RE`
alternatives. -/
def mdBody (l : List Char) : Option (List Char × List Char) :=
  match mdTakeTo ']' l with
  | none => none
  | some (_, r1) =>
    match r1 with
    | '(' :: r2 =>
      match mdTakeTo ')' r2 with
      | some (content, r3) => if content = [] then none else some (content, r3)
      | none => none
    | _ => none

def mdMatchAt : List Char → Option (List Char × List Char)
  | '!' :: '[' :: rest => mdBody rest
  | '[' :: rest => mdBody rest
  | _ => none

/-- The global `MD_LINK_RE` scan. -/
def mdGo : Nat → List Char → List String
  | 0, _ => []
  | _, [] => []
  | f + 1, c :: rest =>
    match mdMatchAt (c :: rest) with
    | some (content, r) => (⟨content⟩ : String) :: mdGo f r
    | none => mdGo f rest

/-- The `replace(/^<|>$/g, "")` strip of a markdown reference. -/
def stripAngle (l : List Char) : List Char :=
  let a := match l with
    | '<' :: r => r
    | x => x
  match a.reverse with
  | '>' :: r => r.reverse
  | _ => a

def mdRef (s : String) : String := ⟨stripAngle (jsTrim s).data⟩

/-- `parseMarkdown`. -/
def parseMarkdown (cwd baseDir src : String) (out : POut) : POut :=
  addRefsList cwd baseDir ((mdGo src.data.length src.data).map mdRef) out

/-- The `PATH_KEYS` set of `parseJson`. -/
def PATH_KEYS : List String :=
  ["path", "file", "filepath", "filename", "dir", "folder",
   "root", "rootdir", "rootDir",
   "csvPath", "dataPath",
   "publicDir", "staticDir", "assetsDir",
   "template", "templates", "view", "views"]

mutual
/-- The value walk of `parseJson`. -/
def jsonWalk (cwd baseDir : String) : Json → String → POut → POut
  | Json.null, _, out => out
  | Json.bool _, _, out => out
  | Json.num _, _, out => out
  | Json.arr xs, k, out => jsonWalkL cwd baseDir xs k out
  | Json.obj kvs, _, out => jsonWalkO cwd baseDir kvs out
  | Json.str v, k, out =>
    if PATH_KEYS.contains k || PATH_KEYS.contains (jsToLower k) ||
        jsEndsWith (jsToLower k) "path" || jsEndsWith (jsToLower k) "dir" then
      addRefFromText cwd baseDir v out
    else if looksLikeAssetPath v then addRefFromText cwd baseDir v out
    else out

def jsonWalkL (cwd baseDir : String) : JsonList → String → POut → POut
  | JsonList.nil, _, out => out
  | JsonList.cons x xs, k, out => jsonWalkL cwd baseDir xs k (jsonWalk cwd baseDir x k out)

def jsonWalkO (cwd baseDir : String) : JsonObj → POut → POut
  | JsonObj.nil, out => out
  | JsonObj.cons k v kvs, out => jsonWalkO cwd baseDir kvs (jsonWalk cwd baseDir v k out)
end

/-- `parseJson` (`JSON.parse` as the `jsonParse` collaborator; its
throw is `none`). -/
def parseJson (jsonParse : String → Option Json) (cwd baseDir src : String)
    (out : POut) : POut :=
  match jsonParse src with
  | none => out
  | some obj => jsonWalk cwd baseDir obj "" out

/-- `parseJsTs`: only the `@babel/parser` call is inside the
`try`/`catch`; the visitor walk (`@babel/traverse` plus the in-file
visitors) is the `walkAst` collaborator. -/
def parseJsTs (babel : String → String → Except String JsAst)
    (walkAst : JsAst → String → String → POut → POut)
    (cwd src filename baseDir : String) (out : POut) : POut :=
  match babel src filename with
  | Except.error _ => finalize (scanForAssetyStrings cwd baseDir src out)
  | Except.ok ast =>
    finalize (scanForAssetyStrings cwd baseDir src (walkAst ast filename baseDir out))

/-- `parseFile`. -/
def parseFile (babel : String → String → Except String JsAst)
    (walkAst : JsAst → String → String → POut → POut)
    (jsonParse : String → Option Json)
    (cwd code filename : String) : POut :=
  if isJsLikeExt (jsToLower (pExtname filename)) then
    parseJsTs babel walkAst cwd code filename (safeDirname cwd filename)
      (emptyOut (countNonEmptyLines code) (extractHeaderComment code))
  else if jsToLower (pExtname filename) = ".html" ||
      jsToLower (pExtname filename) = ".htm" then
    finalize (scanForAssetyStrings cwd (safeDirname cwd filename) code
      (parseHtml cwd (safeDirname cwd filename) code
        (emptyOut (countNonEmptyLines code) "")))
  else if jsToLower (pExtname filename) = ".css" then
    finalize (scanForAssetyStrings cwd (safeDirname cwd filename) code
      (parseCss cwd (safeDirname cwd filename) code
        (emptyOut (countNonEmptyLines code) "")))
  else if jsToLower (pExtname filename) = ".json" then
    finalize (scanForAssetyStrings cwd (safeDirname cwd filename) code
      (parseJson jsonParse cwd (safeDirname cwd filename) code
        (emptyOut (countNonEmptyLines code) "")))
  else if jsToLower (pExtname filename) = ".md" then
    finalize (scanForAssetyStrings cwd (safeDirname cwd filename) code
      (parseMarkdown cwd (safeDirname cwd filename) code
        (emptyOut (countNonEmptyLines code) "")))
  else
    finalize (scanForAssetyStrings cwd (safeDirname cwd filename) code
      (emptyOut (countNonEmptyLines code) ""))

/-! ## Safe path-construction recognition (`tryResolvePathCall`,
`tryCaptureBaseVar`) -/

/-- `resolveStringPath` (relative strings anchor at `baseDir`). -/
def resolveStringPath (cwd baseDir p : String) : Option String :=
  let v := jsTrim p
  if v = "" then none
  else if isNonLocalRef v then none
  else some (if pIsAbsolute v then v else pResolve cwd [baseDir, v])

/-- String-literal check over the non-base arguments
(`disallow non-literals`). -/
def segsOfLits : List JsAst → Option (List String)
  | [] => some []
  | JsAst.strLit v :: rest => (segsOfLits rest).map (fun l => v :: l)
  | _ => none

/-- `tryResolvePathCall`: a `path.join`/`path.resolve` call whose base
is a captured base variable or a literal `process.cwd()` call is
resolved with `baseDir` as the anchor (the comment in the source:
"Not evaluating cwd(); use baseDir as deterministic anchor"). -/
def tryResolvePathCall (cwd baseDir : String) (baseVars : List String)
    (callNode : JsAst) : Option String :=
  match callNode with
  | JsAst.call callee args =>
    match callee with
    | JsAst.member (JsAst.ident objName) (JsAst.ident fn) =>
      if objName ≠ "path" then none
      else if fn ≠ "join" ∧ fn ≠ "resolve" then none
      else
        match args with
        | [] => none
        | [_] => none
        | base :: rest =>
          match
            (match base with
             | JsAst.ident nm => if baseVars.contains nm then some baseDir else none
             | JsAst.call (JsAst.member (JsAst.ident pnm) (JsAst.ident cnm)) bargs =>
               if pnm = "process" && cnm = "cwd" then
                 match bargs with
                 | [] => some baseDir
                 | _ => none
               else none
             | _ => none) with
          | none => none
          | some b =>
            match segsOfLits rest with
            | none => none
            | some segs => some (pResolve cwd (b :: segs))
    | _ => none
  | _ => none

/-- `tryCaptureBaseVar`: a declarator initialised with `__dirname` or a
literal `process.cwd()` call captures the variable with `baseDir` as its
value. -/
def tryCaptureBaseVar (baseDir : String) (id init : JsAst) : Option (String × String) :=
  match id with
  | JsAst.ident nm =>
    match init with
    | JsAst.ident inm => if inm = "__dirname" then some (nm, baseDir) else none
    | JsAst.call (JsAst.member (JsAst.ident pnm) (JsAst.ident cnm)) bargs =>
      if pnm = "process" && cnm = "cwd" then
        match bargs with
        | [] => some (nm, baseDir)
        | _ => none
      else none
    | _ => none
  | _ => none

/-- A `path.<fn>(process.cwd(), ...literals)` call node. -/
def cwdCallAst (fn : String) (segLits : List String) : JsAst :=
  JsAst.call (JsAst.member (JsAst.ident "path") (JsAst.ident fn))
    (JsAst.call (JsAst.member (JsAst.ident "process") (JsAst.ident "cwd")) [] ::
      segLits.map JsAst.strLit)

/-! ## The watcher lifecycle of `liveChangeFeed` -/

/-- The watcher-relevant state of `liveChangeFeed`: the connected
clients, the module-level `watcher` variable, and the set of watcher
handles that are actually running (`live`); `nextW` supplies fresh
handles.  The module's async functions are serialised by the analysis
flow, so operations are modelled as atomic steps. -/
structure WState where
  clients : List Nat
  watcher : Option Nat
  live : List Nat
  nextW : Nat
deriving Repr, DecidableEq

/-- `stopWatcher`: awaits `watcher.close()` (removing the handle from
the running set) and clears the variable. -/
def stopWatcher (st : WState) : WState :=
  match st.watcher with
  | none => st
  | some w => { st with watcher := none, live := st.live.erase w }

/-- `startWatcher(rootAbs)`: always stops the previous watcher first,
then starts a new one only when a root is given. -/
def startWatcher (hasRoot : Bool) (st : WState) : WState :=
  let st1 := stopWatcher st
  if hasRoot then
    { st1 with
      watcher := some st1.nextW
      live := st1.live ++ [st1.nextW]
      nextW := st1.nextW + 1 }
  else st1

/-- `activateAnalysis`: with no clients the watcher is stopped; with a
root it is restarted; without one it is stopped. -/
def activateAnalysis (hasRoot : Bool) (st : WState) : WState :=
  if st.clients.isEmpty then stopWatcher st
  else if hasRoot then startWatcher true st
  else stopWatcher st

/-- A client connecting to `GET /events`. -/
def addClient (c : Nat) (st : WState) : WState :=
  { st with clients := st.clients ++ [c] }

/-- `dropClient`: remove the client and stop the watcher when nobody is
listening. -/
def dropClient (c : Nat) (st : WState) : WState :=
  if (st.clients.erase c).isEmpty then
    stopWatcher { st with clients := st.clients.erase c }
  else { st with clients := st.clients.erase c }

/-- The public operations of the module. -/
inductive WOp where
  | addClient (c : Nat)
  | dropClient (c : Nat)
  | activateAnalysis (hasRoot : Bool)
deriving Repr, DecidableEq

def wstep (st : WState) : WOp → WState
  | WOp.addClient c => addClient c st
  | WOp.dropClient c => dropClient c st
  | WOp.activateAnalysis h => activateAnalysis h st

def wrun : List WOp → WState → WState
  | [], st => st
  | op :: ops, st => wrun ops (wstep st op)

/-- Module-load state: no clients, no watcher. -/
def winit : WState := ⟨[], none, [], 0⟩

/-- The single-watcher discipline: at most one running watcher, and the
`watcher` variable names exactly the running one. -/
def WatcherInv (st : WState) : Prop :=
  st.live.length ≤ 1 ∧
  (∀ w, st.watcher = some w → st.live = [w]) ∧
  (st.watcher = none → st.live = [])

instance (st : WState) : Decidable (WatcherInv st) := by
  unfold WatcherInv
  infer_instance

/-! ## Concrete inputs used by witnesses and counterexamples -/

/-- Concrete filesystem for the C1 witness: `/etc/passwd.js` exists on
disk but lies outside the project root `/p`. -/
def fsC1 : FS := ⟨[("/etc/passwd.js", "secret")], ["/p", "/etc"], []⟩

/-- Concrete filesystem for the C4 counterexample and witness. -/
def fsC4 : FS := ⟨[("/p/x.js", "")], ["/p"], []⟩

/-- Concrete node list for the C5 witness: a placeholder asset node and
a populated node. -/
def nodesC5 : List NodeRec :=
  [⟨"a.js", "a.js", 0, 0, "", some "asset"⟩, ⟨"b.js", "b.js", 3, 1, "hdr", none⟩]

/-- Incoming node for the C5 witness: the placeholder revisited as a
real source file. -/
def incC5 : NodeRec := ⟨"a.js", "a.js", 7, 2, "header", none⟩

/-- Concrete filesystem for the C2 counterexample: the entry is readable
but the imported file `/p/a.js` is not (EACCES). -/
def fsC2 : FS := ⟨[("/p/e.js", "x"), ("/p/a.js", "y")], ["/p"], ["/p/a.js"]⟩

/-- Parser stub for the C2 counterexample: the entry imports `./a`. -/
def pfC2 : String → String → Parsed := fun _ fileAbs =>
  if fileAbs = "/p/e.js" then ⟨["./a"], 1, 0, "", [], [], [], []⟩
  else ⟨[], 0, 0, "", [], [], [], []⟩

/-- Concrete filesystem for the C6 counterexample: a file whose name
starts with a space. -/
def fsC6 : FS := ⟨[("/p/e.js", ""), ("/p/ x.js", "")], ["/p"], []⟩

/-- Parser stub for the C6 counterexample: the entry imports `./ x`. -/
def pfC6 : String → String → Parsed := fun _ fileAbs =>
  if fileAbs = "/p/e.js" then ⟨["./ x"], 1, 0, "", [], [], [], []⟩
  else ⟨[], 0, 0, "", [], [], [], []⟩

/-- Parser stub with no imports or references. -/
def pfW : String → String → Parsed := fun _ _ => ⟨[], 1, 0, "", [], [], [], []⟩

/-- The graph produced by the witness build over `fsC4`. -/
def GW : Graph :=
  ⟨"x.js", "",
   [⟨"x.js", "x.js", 1, 0, "", none⟩, ⟨".", ".", 0, 0, "", some "root"⟩], []⟩

/-- A one-node traversal result used by the C7 witness. -/
def stC7 : BState := ⟨[], [⟨"x.js", "x.js", 1, 0, "", none⟩], [], []⟩

/-- Detector used by the C6 counterexample: the build succeeded and some
link target matches no node id. -/
def danglingTarget (res : Option (Except String Graph)) : Bool :=
  match res with
  | some (Except.ok G) => G.links.any (fun l => !(G.nodes.any (fun n => n.id = l.target)))
  | _ => false


/-- A JS-like source file whose parse fails (`babelErr`) but whose
text scanning still yields a line count and a header comment. -/
def codeC3 : String := "// my header\nconst x = (;\n\nboom"

/-- A parser collaborator that fails on every input. -/
def babelErr : String → String → Except String JsAst :=
  fun _ _ => Except.error "SyntaxError"

/-- A visitor-walk collaborator that adds nothing. -/
def walkNop : JsAst → String → String → POut → POut := fun _ _ _ out => out

/-- A `JSON.parse` collaborator that always fails. -/
def jsonNop : String → Option Json := fun _ => none

/-! # Theorems -/

/-! ## Path toolkit lemmas -/

theorem str_eq_empty_iff (s : String) : s = "" ↔ s.data = [] := by
  constructor
  · intro h; rw [h]
  · intro h; cases s; simp_all

theorem str_ext {s t : String} (h : s.data = t.data) : s = t := by
  cases s; cases t; simp_all

theorem splitCh_ne_nil (sep : Char) (l : List Char) : splitCh sep l ≠ [] := by
  cases l with
  | nil => simp [splitCh]
  | cons c cs =>
    simp only [splitCh]
    cases h : splitCh sep cs with
    | nil => simp
    | cons g gs =>
      by_cases hc : c = sep
      · simp [hc]
      · simp [hc]

theorem splitCh_cons_sep (sep : Char) (l : List Char) :
    splitCh sep (sep :: l) = [] :: splitCh sep l := by
  simp only [splitCh]
  cases h : splitCh sep l with
  | nil => exact absurd h (splitCh_ne_nil sep l)
  | cons g gs => simp

theorem splitCh_cons_ne {sep c : Char} (hc : c ≠ sep) (l : List Char) :
    splitCh sep (c :: l) =
      (c :: (splitCh sep l).headI) :: (splitCh sep l).tail := by
  simp only [splitCh]
  cases h : splitCh sep l with
  | nil => exact absurd h (splitCh_ne_nil sep l)
  | cons g gs => simp [hc]

theorem splitCh_sepFree {sep : Char} {l : List Char} (h : sep ∉ l) :
    splitCh sep l = [l] := by
  induction l with
  | nil => rfl
  | cons c cs ih =>
    have hc : c ≠ sep := fun he => h (he ▸ List.mem_cons_self c cs)
    have hcs : sep ∉ cs := fun hm => h (List.mem_cons_of_mem _ hm)
    rw [splitCh_cons_ne hc, ih hcs]
    simp

theorem splitCh_append_sepFree {sep : Char} {a l g : List Char} {gs : List (List Char)}
    (ha : sep ∉ a) (hl : splitCh sep l = g :: gs) :
    splitCh sep (a ++ l) = (a ++ g) :: gs := by
  induction a with
  | nil => simpa using hl
  | cons c cs ih =>
    have hc : c ≠ sep := fun he => ha (he ▸ List.mem_cons_self c cs)
    have hcs : sep ∉ cs := fun hm => ha (List.mem_cons_of_mem _ hm)
    rw [List.cons_append, splitCh_cons_ne hc, ih hcs]
    simp

theorem splitCh_append_sep (sep : Char) (l : List Char) :
    splitCh sep (l ++ [sep]) = splitCh sep l ++ [[]] := by
  induction l with
  | nil => simp [splitCh]
  | cons c cs ih =>
    by_cases hc : c = sep
    · subst hc
      rw [List.cons_append, splitCh_cons_sep, splitCh_cons_sep, ih]
      simp
    · rw [List.cons_append, splitCh_cons_ne hc, splitCh_cons_ne hc, ih]
      cases h : splitCh sep cs with
      | nil => exact absurd h (splitCh_ne_nil sep cs)
      | cons g gs => simp [h]

theorem splitCh_pieces_sepFree (sep : Char) (l : List Char) :
    ∀ p ∈ splitCh sep l, sep ∉ p := by
  induction l with
  | nil =>
    intro p hp
    simp [splitCh] at hp
    simp [hp]
  | cons c cs ih =>
    intro p hp
    by_cases hc : c = sep
    · subst hc
      rw [splitCh_cons_sep] at hp
      rcases List.mem_cons.mp hp with h | h
      · simp [h]
      · exact ih p h
    · rw [splitCh_cons_ne hc] at hp
      rcases List.mem_cons.mp hp with h | h
      · subst h
        intro hmem
        rcases List.mem_cons.mp hmem with h' | h'
        · exact hc h'.symm
        · cases hh : splitCh sep cs with
          | nil => exact absurd hh (splitCh_ne_nil sep cs)
          | cons g gs =>
            rw [hh] at h'
            exact ih g (hh ▸ List.mem_cons_self g gs) (by simpa using h')
      · cases hh : splitCh sep cs with
        | nil => exact absurd hh (splitCh_ne_nil sep cs)
        | cons g gs =>
          rw [hh] at h
          exact ih p (hh ▸ List.mem_cons_of_mem g h)

theorem joinWith_data (sep : Char) (n : List String) :
    (joinWith ⟨[sep]⟩ n).data = icalt sep (n.map String.data) := by
  induction n with
  | nil => rfl
  | cons x xs ih =>
    cases xs with
    | nil => rfl
    | cons y ys =>
      show (x ++ ⟨[sep]⟩ ++ joinWith ⟨[sep]⟩ (y :: ys)).data = _
      rw [String.data_append, String.data_append, ih, List.append_assoc]
      rfl

theorem icalt_split {sep : Char} {ps : List (List Char)} (hne : ps ≠ [])
    (hfree : ∀ p ∈ ps, sep ∉ p) :
    splitCh sep (icalt sep ps) = ps := by
  induction ps with
  | nil => exact absurd rfl hne
  | cons x xs ih =>
    cases xs with
    | nil => exact splitCh_sepFree (hfree x (List.mem_cons_self _ _))
    | cons y ys =>
      show splitCh sep (x ++ sep :: icalt sep (y :: ys)) = _
      have hx : sep ∉ x := hfree x (List.mem_cons_self _ _)
      have hrest : ∀ p ∈ y :: ys, sep ∉ p := fun p hp => hfree p (List.mem_cons_of_mem _ hp)
      have hr := ih (by simp) hrest
      rw [splitCh_append_sepFree hx (by rw [splitCh_cons_sep, hr])]
      simp

theorem icalt_append_last (sep : Char) (e : List Char) :
    ∀ (initL : List (List Char)) (lastL : List Char),
      icalt sep (initL ++ [lastL]) ++ e = icalt sep (initL ++ [lastL ++ e]) := by
  intro initL
  induction initL with
  | nil => intro lastL; rfl
  | cons x xs ih =>
    intro lastL
    cases xs with
    | nil => simp [icalt, ih]
    | cons y ys =>
      show (x ++ sep :: icalt sep ((y :: ys) ++ [lastL])) ++ e = _
      rw [List.append_assoc]
      rw [show (sep :: icalt sep ((y :: ys) ++ [lastL])) ++ e =
        sep :: (icalt sep ((y :: ys) ++ [lastL]) ++ e) from rfl]
      rw [ih lastL]
      rfl

theorem normAbsSegs_cons_empty (acc l : List String) :
    normAbsSegs acc ("" :: l) = normAbsSegs acc l := by
  simp [normAbsSegs]

theorem normAbsSegs_append_empty (l : List String) : ∀ acc,
    normAbsSegs acc (l ++ [""]) = normAbsSegs acc l := by
  induction l with
  | nil => intro acc; simp [normAbsSegs]
  | cons s rest ih =>
    intro acc
    rw [List.cons_append]
    unfold normAbsSegs
    split
    · exact ih acc
    · split
      · exact ih _
      · exact ih _

theorem normAbsSegs_mem {l : List String} : ∀ {acc s}, s ∈ normAbsSegs acc l → s ∈ acc ∨ s ∈ l := by
  induction l with
  | nil =>
    intro acc s hs
    unfold normAbsSegs at hs
    exact Or.inl (List.mem_reverse.mp hs)
  | cons x rest ih =>
    intro acc s hs
    unfold normAbsSegs at hs
    split at hs
    · rcases ih hs with h | h
      · exact Or.inl h
      · exact Or.inr (List.mem_cons_of_mem _ h)
    · split at hs
      · rcases ih hs with h | h
        · exact Or.inl (List.mem_of_mem_drop h)
        · exact Or.inr (List.mem_cons_of_mem _ h)
      · rcases ih hs with h | h
        · rcases List.mem_cons.mp h with h' | h'
          · exact Or.inr (h' ▸ List.mem_cons_self _ _)
          · exact Or.inl h'
        · exact Or.inr (List.mem_cons_of_mem _ h)

theorem normAbsSegs_clean {l : List String} : ∀ {acc},
    (∀ s ∈ acc, cleanSeg s) → ∀ s ∈ normAbsSegs acc l, cleanSeg s := by
  induction l with
  | nil =>
    intro acc hacc s hs
    unfold normAbsSegs at hs
    exact hacc s (List.mem_reverse.mp hs)
  | cons x rest ih =>
    intro acc hacc s hs
    unfold normAbsSegs at hs
    split at hs
    · exact ih hacc s hs
    · split at hs
      · exact ih (fun t ht => hacc t (List.mem_of_mem_drop ht)) s hs
      · next h1 h2 =>
        refine ih (fun t ht => ?_) s hs
        rcases List.mem_cons.mp ht with h' | h'
        · subst h'
          simp only [Bool.or_eq_true, decide_eq_true_eq] at h1 h2
          exact ⟨fun he => h1 (Or.inl he), fun he => h1 (Or.inr he), fun he => h2 he⟩
        · exact hacc t h'

theorem normAbsSegs_all_clean {l : List String} (hl : ∀ s ∈ l, cleanSeg s) : ∀ acc,
    normAbsSegs acc l = acc.reverse ++ l := by
  induction l with
  | nil => intro acc; simp [normAbsSegs]
  | cons x rest ih =>
    intro acc
    obtain ⟨h1, h2, h3⟩ := hl x (List.mem_cons_self _ _)
    unfold normAbsSegs
    rw [if_neg (by simp [h1, h2]), if_neg (by simp [h3]),
      ih (fun s hs => hl s (List.mem_cons_of_mem _ hs)) (x :: acc)]
    simp

theorem segsOf_sepFree (s : String) : ∀ t ∈ segsOf s, '/' ∉ t.data := by
  intro t ht
  simp only [segsOf, jsSplitCh, List.mem_map] at ht
  obtain ⟨p, hp, rfl⟩ := ht
  exact splitCh_pieces_sepFree '/' s.data p hp

theorem isPrefix_singleton {a : Char} {l : List Char} :
    [a].isPrefixOf l = true ↔ ∃ t, l = a :: t := by
  cases l with
  | nil => simp [List.isPrefixOf]
  | cons b t =>
    simp only [List.isPrefixOf, Bool.and_eq_true, beq_iff_eq, List.cons.injEq]
    constructor
    · intro h'
      exact ⟨t, h'.1.symm ▸ rfl, rfl⟩
    · rintro ⟨t', h1, h2⟩
      simp [h1]

theorem absolute_data {s : String} (h : pIsAbsolute s = true) : ∃ t, s.data = '/' :: t := by
  unfold pIsAbsolute jsStartsWith at h
  rw [show ("/" : String).data = ['/'] from rfl] at h
  exact isPrefix_singleton.mp h

theorem pIsAbsolute_slash_append (t : String) : pIsAbsolute ("/" ++ t) = true := by
  simp only [pIsAbsolute, jsStartsWith, String.data_append, isPrefix_singleton]
  exact ⟨t.data, rfl⟩

theorem pIsAbsolute_append {a : String} (b : String) (h : pIsAbsolute a = true) :
    pIsAbsolute (a ++ b) = true := by
  obtain ⟨t, ht⟩ := absolute_data h
  simp only [pIsAbsolute, jsStartsWith, String.data_append, ht, isPrefix_singleton]
  exact ⟨t ++ b.data, rfl⟩

theorem abs_ne_empty {s : String} (h : pIsAbsolute s = true) : s ≠ "" := by
  obtain ⟨t, ht⟩ := absolute_data h
  intro he
  rw [he] at ht
  exact absurd ht (by simp [show ("" : String).data = [] from rfl])

theorem joinWith_cons_ne_empty {x : String} (xs : List String) (hx : x ≠ "") :
    joinWith "/" (x :: xs) ≠ "" := by
  intro he
  rw [str_eq_empty_iff] at he
  cases xs with
  | nil => exact hx (str_eq_empty_iff x |>.mpr he)
  | cons y ys =>
    rw [show joinWith "/" (x :: y :: ys) = x ++ "/" ++ joinWith "/" (y :: ys) from rfl,
      String.data_append, String.data_append] at he
    rcases List.append_eq_nil.mp he with ⟨h1, _⟩
    rcases List.append_eq_nil.mp h1 with ⟨h2, _⟩
    exact hx (str_eq_empty_iff x |>.mpr h2)

theorem icalt_last_ne {sep : Char} : ∀ ps : List (List Char), ps ≠ [] →
    (∀ p ∈ ps, p ≠ [] ∧ sep ∉ p) →
    ∃ c t, (icalt sep ps).reverse = c :: t ∧ c ≠ sep := by
  intro ps
  induction ps with
  | nil => intro h; exact absurd rfl h
  | cons x xs ih =>
    intro _ hps
    cases xs with
    | nil =>
      obtain ⟨hxne, hxfree⟩ := hps x (List.mem_cons_self _ _)
      cases hx : x.reverse with
      | nil => exact absurd (List.reverse_eq_nil_iff.mp hx) hxne
      | cons c t =>
        refine ⟨c, t, by simpa [icalt] using hx, fun he => hxfree ?_⟩
        rw [← he]
        have hcmem : c ∈ x.reverse := hx ▸ List.mem_cons_self _ _
        exact List.mem_reverse.mp hcmem
    | cons y ys =>
      obtain ⟨c, t, hct, hcne⟩ := ih (by simp)
        (fun p hp => hps p (List.mem_cons_of_mem _ hp))
      refine ⟨c, t ++ sep :: x.reverse, ?_, hcne⟩
      show ((x ++ sep :: icalt sep (y :: ys)).reverse = _)
      rw [List.reverse_append, List.reverse_cons, List.append_assoc, hct]
      simp

theorem jw_data_slash (n : List String) :
    (joinWith "/" n).data = icalt '/' (n.map String.data) :=
  joinWith_data '/' n

theorem map_mk_data (n : List String) :
    (n.map String.data).map (fun l => (⟨l⟩ : String)) = n := by
  induction n with
  | nil => rfl
  | cons x xs ih =>
    simp only [List.map_cons]
    rw [show ((⟨x.data⟩ : String)) = x from rfl, ih]

theorem segsOf_render {n : List String} (hne : n ≠ [])
    (hclean : ∀ s ∈ n, s ≠ "") (hfree : ∀ s ∈ n, '/' ∉ s.data) :
    segsOf ("/" ++ joinWith "/" n) = "" :: n := by
  have hps : ∀ p ∈ n.map String.data, '/' ∉ p := by
    intro p hp
    obtain ⟨s, hs, rfl⟩ := List.mem_map.mp hp
    exact hfree s hs
  have hsplit : splitCh '/' (("/" ++ joinWith "/" n).data) = [] :: n.map String.data := by
    rw [String.data_append, show ("/" : String).data = ['/'] from rfl]
    rw [show (['/'] ++ (joinWith "/" n).data) = '/' :: (joinWith "/" n).data from rfl]
    rw [splitCh_cons_sep, jw_data_slash, icalt_split (by simpa using hne) hps]
  simp only [segsOf, jsSplitCh, hsplit, List.map_cons]
  rw [show ((⟨[]⟩ : String)) = "" from rfl]
  congr 1
  exact map_mk_data n

theorem segsOf_render_trail {n : List String} (hne : n ≠ [])
    (hclean : ∀ s ∈ n, s ≠ "") (hfree : ∀ s ∈ n, '/' ∉ s.data) :
    segsOf ("/" ++ joinWith "/" n ++ "/") = ("" :: n) ++ [""] := by
  have hps : ∀ p ∈ n.map String.data, '/' ∉ p := by
    intro p hp
    obtain ⟨s, hs, rfl⟩ := List.mem_map.mp hp
    exact hfree s hs
  have hsplit : splitCh '/' (("/" ++ joinWith "/" n ++ "/").data) =
      ([] :: n.map String.data) ++ [[]] := by
    rw [String.data_append, String.data_append, show ("/" : String).data = ['/'] from rfl]
    rw [show ((['/'] ++ (joinWith "/" n).data) ++ ['/']) =
      (('/' :: (joinWith "/" n).data) ++ ['/']) from rfl]
    rw [splitCh_append_sep, splitCh_cons_sep, jw_data_slash,
      icalt_split (by simpa using hne) hps]
  simp only [segsOf, jsSplitCh, hsplit, List.map_append, List.map_cons]
  rw [show ((⟨[]⟩ : String)) = "" from rfl]
  simp [map_mk_data n]

theorem cleanSeg_ne_empty {s : String} (h : cleanSeg s) : s ≠ "" := h.1

theorem cleanSeg_of_long {s : String} (h : 3 ≤ s.data.length) : cleanSeg s := by
  refine ⟨?_, ?_, ?_⟩ <;> intro he <;> subst he <;> simp_all

/-- The rendered absolute path of a clean, slash-free, nonempty segment
list is a `pNormalize` fixed point without a trailing slash. -/
theorem render_no_trail {n : List String} (hne : n ≠ [])
    (hclean : ∀ s ∈ n, cleanSeg s) (hfree : ∀ s ∈ n, '/' ∉ s.data) :
    jsEndsWith ("/" ++ joinWith "/" n) "/" = false := by
  obtain ⟨c, t, hct, hcne⟩ := @icalt_last_ne '/' (n.map String.data)
    (by simpa using hne)
    (by
      intro p hp
      obtain ⟨s, hs, rfl⟩ := List.mem_map.mp hp
      exact ⟨fun he => (hclean s hs).1 (str_eq_empty_iff s |>.mpr he), hfree s hs⟩)
  have hrev : ("/" ++ joinWith "/" n).data.reverse = c :: (t ++ ['/']) := by
    rw [String.data_append, show ("/" : String).data = ['/'] from rfl, List.reverse_append,
      jw_data_slash, hct]
    simp
  unfold jsEndsWith
  rw [show ("/" : String).data.reverse = ['/'] from rfl, hrev]
  cases hpre : ['/'].isPrefixOf (c :: (t ++ ['/'])) with
  | false => rfl
  | true =>
    obtain ⟨t', ht'⟩ := isPrefix_singleton.mp hpre
    have hc : c = '/' := by injection ht'
    exact absurd hc hcne

theorem render_fixed {n : List String} (hne : n ≠ [])
    (hclean : ∀ s ∈ n, cleanSeg s) (hfree : ∀ s ∈ n, '/' ∉ s.data) :
    pNormalize ("/" ++ joinWith "/" n) = "/" ++ joinWith "/" n := by
  obtain ⟨x, xs, rfl⟩ : ∃ x xs, n = x :: xs := by
    cases n with
    | nil => exact absurd rfl hne
    | cons x xs => exact ⟨x, xs, rfl⟩
  have hjw : joinWith "/" (x :: xs) ≠ "" :=
    joinWith_cons_ne_empty xs (hclean x (List.mem_cons_self _ _)).1
  have habs : pIsAbsolute ("/" ++ joinWith "/" (x :: xs)) = true := pIsAbsolute_slash_append _
  have hsegs := segsOf_render hne (fun s hs => (hclean s hs).1) hfree
  unfold pNormalize
  rw [if_neg (abs_ne_empty habs)]
  simp only [habs, if_true, hsegs, normAbsSegs_cons_empty,
    normAbsSegs_all_clean hclean, List.reverse_nil, List.nil_append,
    render_no_trail hne hclean hfree]
  simp [hjw]

theorem render_trail_fixed {n : List String} (hne : n ≠ [])
    (hclean : ∀ s ∈ n, cleanSeg s) (hfree : ∀ s ∈ n, '/' ∉ s.data) :
    pNormalize ("/" ++ joinWith "/" n ++ "/") = "/" ++ joinWith "/" n ++ "/" := by
  obtain ⟨x, xs, rfl⟩ : ∃ x xs, n = x :: xs := by
    cases n with
    | nil => exact absurd rfl hne
    | cons x xs => exact ⟨x, xs, rfl⟩
  have hjw : joinWith "/" (x :: xs) ≠ "" :=
    joinWith_cons_ne_empty xs (hclean x (List.mem_cons_self _ _)).1
  have habs : pIsAbsolute ("/" ++ joinWith "/" (x :: xs) ++ "/") = true := by
    rw [show ("/" ++ joinWith "/" (x :: xs) ++ "/") =
      "/" ++ (joinWith "/" (x :: xs) ++ "/") from by rw [String.append_assoc]]
    exact pIsAbsolute_slash_append _
  have hsegs := segsOf_render_trail hne (fun s hs => (hclean s hs).1) hfree
  have htrail : jsEndsWith ("/" ++ joinWith "/" (x :: xs) ++ "/") "/" = true := by
    unfold jsEndsWith
    rw [String.data_append, List.reverse_append,
      show ("/" : String).data = ['/'] from rfl]
    simp [List.isPrefixOf]
  unfold pNormalize
  rw [if_neg (abs_ne_empty habs)]
  simp only [habs, if_true, hsegs, normAbsSegs_append_empty, normAbsSegs_cons_empty,
    normAbsSegs_all_clean hclean, List.reverse_nil, List.nil_append, htrail]
  simp [hjw]

/-- Shape of a `pResolve` output: it renders a clean, slash-free
segment list. -/
theorem pResolve_shape (cwd : String) (parts : List String) :
    ∃ n : List String, (∀ s ∈ n, cleanSeg s) ∧ (∀ s ∈ n, '/' ∉ s.data) ∧
      pResolve cwd parts =
        (if n = [] then "/" else "/" ++ joinWith "/" n) := by
  refine ⟨normAbsSegs []
    ((parts.foldl (fun acc p => if pIsAbsolute p then [p] else acc ++ [p]) [cwd]).flatMap segsOf),
    ?_, ?_, rfl⟩
  · exact normAbsSegs_clean (by simp)
  · intro s hs
    rcases normAbsSegs_mem hs with h | h
    · simp at h
    · obtain ⟨part, _, hmem⟩ := List.mem_flatMap.mp h
      exact segsOf_sepFree part s hmem

theorem slash_fixed : pNormalize "/" = "/" := by decide

theorem pResolve_fixed (cwd : String) (parts : List String) :
    pNormalize (pResolve cwd parts) = pResolve cwd parts := by
  obtain ⟨n, hclean, hfree, hshape⟩ := pResolve_shape cwd parts
  rw [hshape]
  by_cases hn : n = []
  · simp [hn, slash_fixed]
  · rw [if_neg hn]
    exact render_fixed hn hclean hfree

theorem pResolve_abs (cwd : String) (parts : List String) :
    pIsAbsolute (pResolve cwd parts) = true := by
  obtain ⟨n, _, _, hshape⟩ := pResolve_shape cwd parts
  rw [hshape]
  by_cases hn : n = []
  · simp [hn]; decide
  · rw [if_neg hn]; exact pIsAbsolute_slash_append _

/-- The absolute branch of `pNormalize`, with the lets spelled out. -/
theorem pNormalize_abs_eq {s : String} (habs : pIsAbsolute s = true) :
    pNormalize s =
      (if joinWith "/" (normAbsSegs [] (segsOf s)) = "" then "/"
       else "/" ++ joinWith "/" (normAbsSegs [] (segsOf s)) ++
         (if jsEndsWith s "/" then "/" else "")) := by
  unfold pNormalize
  rw [if_neg (abs_ne_empty habs)]
  simp [habs]

theorem pNormalize_abs_out {s : String} (habs : pIsAbsolute s = true) :
    pIsAbsolute (pNormalize s) = true := by
  rw [pNormalize_abs_eq habs]
  by_cases hb : joinWith "/" (normAbsSegs [] (segsOf s)) = ""
  · simp [hb]; decide
  · rw [if_neg hb]
    rw [show ("/" ++ joinWith "/" (normAbsSegs [] (segsOf s)) ++
      (if jsEndsWith s "/" then "/" else "")) =
      "/" ++ (joinWith "/" (normAbsSegs [] (segsOf s)) ++
        (if jsEndsWith s "/" then "/" else "")) from by rw [String.append_assoc]]
    exact pIsAbsolute_slash_append _

theorem pNormalize_idem_abs {s : String} (habs : pIsAbsolute s = true) :
    pNormalize (pNormalize s) = pNormalize s := by
  rw [pNormalize_abs_eq habs]
  have hclean : ∀ x ∈ normAbsSegs [] (segsOf s), cleanSeg x :=
    normAbsSegs_clean (by simp)
  have hfree : ∀ x ∈ normAbsSegs [] (segsOf s), '/' ∉ x.data := by
    intro x hx
    rcases normAbsSegs_mem hx with h | h
    · simp at h
    · exact segsOf_sepFree s x h
  by_cases hb : joinWith "/" (normAbsSegs [] (segsOf s)) = ""
  · simp [hb, slash_fixed]
  · have hne : normAbsSegs [] (segsOf s) ≠ [] := by
      intro h0; rw [h0] at hb; exact hb rfl
    rw [if_neg hb]
    by_cases htr : jsEndsWith s "/" = true
    · simp only [htr, if_true]
      exact render_trail_fixed hne hclean hfree
    · rw [eq_false_of_ne_true htr, if_neg (by simp), String.append_empty]
      exact render_fixed hne hclean hfree

theorem render_append_ext {n : List String} (hclean : ∀ s ∈ n, cleanSeg s)
    (hfree : ∀ s ∈ n, '/' ∉ s.data) {ext : String}
    (hext3 : 3 ≤ ext.data.length) (hextfree : '/' ∉ ext.data) :
    pIsAbsolute ((if n = [] then "/" else "/" ++ joinWith "/" n) ++ ext) = true ∧
    pNormalize ((if n = [] then "/" else "/" ++ joinWith "/" n) ++ ext) =
      (if n = [] then "/" else "/" ++ joinWith "/" n) ++ ext := by
  by_cases hn : n = []
  · subst hn
    rw [if_pos rfl]
    refine ⟨pIsAbsolute_slash_append ext, ?_⟩
    rw [show (("/" : String) ++ ext) = "/" ++ joinWith "/" [ext] from rfl]
    refine render_fixed (by simp) ?_ ?_
    · intro s hs
      simp at hs
      subst hs
      exact cleanSeg_of_long hext3
    · intro s hs
      simp at hs
      subst hs
      exact hextfree
  · rw [if_neg hn]
    obtain ⟨initL, lastL, rfl⟩ : ∃ i l, n = i ++ [l] :=
      ⟨n.dropLast, n.getLast hn, (List.dropLast_append_getLast hn).symm⟩
    have hjw : joinWith "/" (initL ++ [lastL]) ++ ext =
        joinWith "/" (initL ++ [lastL ++ ext]) := by
      apply str_ext
      rw [String.data_append, jw_data_slash, jw_data_slash, List.map_append, List.map_append]
      simp only [List.map_cons, List.map_nil]
      rw [icalt_append_last '/' ext.data (initL.map String.data) lastL.data]
      rw [show (lastL ++ ext).data = lastL.data ++ ext.data from String.data_append _ _]
    have hassoc : ("/" ++ joinWith "/" (initL ++ [lastL])) ++ ext =
        "/" ++ joinWith "/" (initL ++ [lastL ++ ext]) := by
      rw [String.append_assoc, hjw]
    have hclean' : ∀ s ∈ initL ++ [lastL ++ ext], cleanSeg s := by
      intro s hs
      rcases List.mem_append.mp hs with h | h
      · exact hclean s (List.mem_append_left _ h)
      · simp at h
        subst h
        apply cleanSeg_of_long
        rw [String.data_append, List.length_append]
        omega
    have hfree' : ∀ s ∈ initL ++ [lastL ++ ext], '/' ∉ s.data := by
      intro s hs
      rcases List.mem_append.mp hs with h | h
      · exact hfree s (List.mem_append_left _ h)
      · simp at h
        subst h
        rw [String.data_append]
        intro hmem
        rcases List.mem_append.mp hmem with h' | h'
        · exact hfree lastL (List.mem_append_right _ (by simp)) h'
        · exact hextfree h'
    refine ⟨pIsAbsolute_append ext (pIsAbsolute_slash_append _), ?_⟩
    rw [hassoc]
    exact render_fixed (by simp) hclean' hfree'

theorem pJoin_abs_fixed {a : String} (habs : pIsAbsolute a = true) (parts : List String) :
    pIsAbsolute (pJoin (a :: parts)) = true ∧
      pNormalize (pJoin (a :: parts)) = pJoin (a :: parts) := by
  have hane : a ≠ "" := abs_ne_empty habs
  have hfilter : (a :: parts).filter (fun p => p ≠ "") =
      a :: parts.filter (fun p => p ≠ "") := by
    rw [List.filter_cons_of_pos]
    simp [hane]
  have hj : pIsAbsolute (joinWith "/" ((a :: parts).filter (fun p => p ≠ ""))) = true := by
    rw [hfilter]
    cases hr : parts.filter (fun p => p ≠ "") with
    | nil => exact habs
    | cons b bs =>
      rw [show joinWith "/" (a :: b :: bs) = a ++ "/" ++ joinWith "/" (b :: bs) from rfl,
        String.append_assoc]
      exact pIsAbsolute_append _ habs
  have hjne : joinWith "/" ((a :: parts).filter (fun p => p ≠ "")) ≠ "" :=
    abs_ne_empty hj
  constructor
  · unfold pJoin
    simp only [if_neg hjne]
    exact pNormalize_abs_out hj
  · unfold pJoin
    simp only [if_neg hjne]
    exact pNormalize_idem_abs hj

/-! ## Filesystem and resolver support lemmas -/

theorem statSync_file_isFile {fs : FS} {p : String}
    (h : fs.statSync p = some StatKind.file) : fs.isFile p = true := by
  unfold FS.statSync at h
  by_cases hf : fs.isFile p = true
  · exact hf
  · rw [if_neg hf] at h
    by_cases hd : fs.isDir p = true
    · rw [if_pos hd] at h
      exact absurd h (by simp)
    · rw [if_neg hd] at h
      exact absurd h (by simp)

theorem statSync_dir_isDir {fs : FS} {p : String}
    (h : fs.statSync p = some StatKind.dir) : fs.isDir p = true := by
  unfold FS.statSync at h
  by_cases hf : fs.isFile p = true
  · rw [if_pos hf] at h
    exact absurd h (by simp)
  · rw [if_neg hf] at h
    by_cases hd : fs.isDir p = true
    · exact hd
    · rw [if_neg hd] at h
      exact absurd h (by simp)

theorem existsFile_isFile {fs : FS} {p : String}
    (h : existsFile fs p = true) : fs.isFile p = true := by
  unfold existsFile at h
  rw [Bool.and_eq_true] at h
  cases hs : fs.statSync p with
  | none => rw [hs] at h; exact absurd h.2 (by simp)
  | some k =>
    cases k with
    | file => exact statSync_file_isFile hs
    | dir => rw [hs] at h; exact absurd h.2 (by simp)

theorem existsDir_isDir {fs : FS} {p : String}
    (h : existsDir fs p = true) : fs.isDir p = true := by
  unfold existsDir at h
  rw [Bool.and_eq_true] at h
  cases hs : fs.statSync p with
  | none => rw [hs] at h; exact absurd h.2 (by simp)
  | some k =>
    cases k with
    | dir => exact statSync_dir_isDir hs
    | file => rw [hs] at h; exact absurd h.2 (by simp)

theorem readFileSync_ok {fs : FS} {p : String} (hun : fs.unreadable = [])
    (hf : fs.isFile p = true) : ∃ c, fs.readFileSync p = Except.ok c := by
  unfold FS.readFileSync
  rw [hun]
  simp only [List.any_nil, Bool.false_eq_true, if_false]
  unfold FS.isFile at hf
  have hsome : (fs.files.find? (fun e => decide (e.1 = pNormalize p))).isSome := by
    rw [List.find?_isSome]
    obtain ⟨e, he, hpe⟩ := List.any_eq_true.mp hf
    exact ⟨e, he, hpe⟩
  cases hfind : fs.files.find? (fun e => decide (e.1 = pNormalize p)) with
  | none => rw [hfind] at hsome; exact absurd hsome (by simp)
  | some e => exact ⟨e.2, rfl⟩

theorem rwByExt_exists {fs : FS} {base c : String} (h : rwByExt fs base = some c) :
    existsFile fs c = true := by
  unfold rwByExt at h
  split at h
  · exact List.find?_some h
  · exact absurd h (by simp)

theorem rwByIndex_exists {fs : FS} {base c : String} (h : rwByIndex fs base = some c) :
    existsFile fs c = true := by
  unfold rwByIndex at h
  split at h
  · exact List.find?_some h
  · exact absurd h (by simp)

/-- A hit of the extension-append loop is among the appended candidates,
and the base then has no extension. -/
theorem rwByExt_hit {fs : FS} {base c : String} (h : rwByExt fs base = some c) :
    pExtname base = "" ∧ c ∈ ALL_EXTENSIONS.map (fun ext => base ++ ext) := by
  unfold rwByExt at h
  by_cases hx : pExtname base = ""
  · rw [if_pos hx] at h
    exact ⟨hx, List.mem_of_find?_eq_some h⟩
  · rw [if_neg hx] at h
    exact absurd h (by simp)

/-- A hit of the index loop is among the index candidates, and the base
is then an existing directory. -/
theorem rwByIndex_hit {fs : FS} {base c : String} (h : rwByIndex fs base = some c) :
    existsDir fs base = true ∧ c ∈ ALL_EXTENSIONS.map (fun ext => pJoin [base, "index" ++ ext]) := by
  unfold rwByIndex at h
  by_cases hd : existsDir fs base = true
  · rw [if_pos hd] at h
    exact ⟨hd, List.mem_of_find?_eq_some h⟩
  · rw [if_neg hd] at h
    exact absurd h (by simp)

theorem all_ext_good : ∀ ext ∈ ALL_EXTENSIONS, 3 ≤ ext.data.length ∧ '/' ∉ ext.data := by
  decide

/-- Every hit of `resolveWithExtensions` on a `pResolve`-shaped base is
absolute, normalisation-fixed, and an existing file. -/
theorem resolveWith_fixed {fs : FS} {cwd : String} {parts : List String} {hit : String}
    (h : resolveWithExtensions fs (pResolve cwd parts) = some hit) :
    pIsAbsolute hit = true ∧ pNormalize hit = hit ∧ fs.isFile hit = true := by
  unfold resolveWithExtensions at h
  split at h
  · next hcond =>
    injection h with h
    subst h
    rw [Bool.and_eq_true] at hcond
    exact ⟨pResolve_abs cwd parts, pResolve_fixed cwd parts,
      existsFile_isFile hcond.2⟩
  · cases hby : rwByExt fs (pResolve cwd parts) with
    | some c =>
      rw [hby] at h
      injection h with h
      subst h
      obtain ⟨hx, hmem⟩ := rwByExt_hit hby
      obtain ⟨ext, hextmem, hc⟩ := List.mem_map.mp hmem
      obtain ⟨n, hclean, hfree, hshape⟩ := pResolve_shape cwd parts
      obtain ⟨hext3, hextfree⟩ := all_ext_good ext hextmem
      have := render_append_ext hclean hfree hext3 hextfree
      rw [← hshape] at this
      rw [hc] at this
      exact ⟨this.1, this.2, existsFile_isFile (rwByExt_exists hby)⟩
    | none =>
      rw [hby] at h
      obtain ⟨hd, hmem⟩ := rwByIndex_hit h
      obtain ⟨ext, hextmem, hc⟩ := List.mem_map.mp hmem
      have := pJoin_abs_fixed (pResolve_abs cwd parts) ["index" ++ ext]
      rw [hc] at this
      exact ⟨this.1, this.2, existsFile_isFile (rwByIndex_exists h)⟩

theorem tryPublicRoots_hit {fs : FS} {cwd rootAbs relWeb : String} :
    ∀ {roots : List String} {p : String},
      tryPublicRoots fs cwd rootAbs relWeb roots = some p →
      pIsAbsolute p = true ∧ pNormalize p = p ∧ fs.isFile p = true := by
  intro roots
  induction roots with
  | nil => intro p h; exact absurd h (by simp [tryPublicRoots])
  | cons pr rest ih =>
    intro p h
    simp only [tryPublicRoots] at h
    cases hrw : resolveWithExtensions fs (pResolve cwd [pr, relWeb]) with
    | none =>
      simp only [hrw] at h
      exact ih h
    | some hit =>
      simp only [hrw] at h
      by_cases hin : isInsideRoot cwd rootAbs hit = true
      · rw [if_pos hin] at h
        injection h with h
        subst h
        exact resolveWith_fixed hrw
      · rw [if_neg hin] at h
        exact ih h

/-- Every hit of `resolveImports` is absolute, normalisation-fixed, and
an existing file of the tree. -/
theorem resolveImports_hit {fs : FS} {cwd fromAbs spec projectRoot p : String}
    (h : resolveImports fs cwd fromAbs spec projectRoot = some p) :
    pIsAbsolute p = true ∧ pNormalize p = p ∧ fs.isFile p = true := by
  unfold resolveImports at h
  by_cases h0 : spec = ""
  · rw [if_pos h0] at h
    exact absurd h (by simp)
  · rw [if_neg h0] at h
    simp only at h
    by_cases hc : stripQueryAndHash (jsTrim spec) = ""
    · rw [if_pos hc] at h
      exact absurd h (by simp)
    · rw [if_neg hc] at h
      by_cases hext : (!jsStartsWith (stripQueryAndHash (jsTrim spec)) "." &&
          !jsStartsWith (stripQueryAndHash (jsTrim spec)) "/") = true
      · rw [if_pos hext] at h
        exact absurd h (by simp)
      · rw [if_neg hext] at h
        by_cases hdot : jsStartsWith (stripQueryAndHash (jsTrim spec)) "." = true
        · rw [if_pos hdot] at h
          cases hrw : resolveWithExtensions fs
              (pResolve cwd [pDirname (pResolve cwd [fromAbs]), stripQueryAndHash (jsTrim spec)]) with
          | none =>
            simp only [hrw] at h
            exact absurd h (by simp)
          | some hit =>
            simp only [hrw] at h
            by_cases hin : isInsideRoot cwd (pResolve cwd [projectRoot]) hit = true
            · rw [if_pos hin] at h
              injection h with h
              subst h
              exact resolveWith_fixed hrw
            · rw [if_neg hin] at h
              exact absurd h (by simp)
        · rw [if_neg hdot] at h
          by_cases hsl : jsStartsWith (stripQueryAndHash (jsTrim spec)) "/" = true
          · rw [if_pos hsl] at h
            exact tryPublicRoots_hit h
          · rw [if_neg hsl] at h
            exact absurd h (by simp)

/-- Transport of the tree well-formedness hypothesis to any
normalisation-fixed path that the tree recognises as a file. -/
theorem goodId_of_isFile {fs : FS} {cwd projectRoot p : String} (hH : HFS fs cwd projectRoot)
    (hfix : pNormalize p = p) (hf : fs.isFile p = true) :
    GoodId (toProjectRelativeId cwd projectRoot p) := by
  unfold FS.isFile at hf
  obtain ⟨e, he, hpe⟩ := List.any_eq_true.mp hf
  have hkey : e.1 = p := by
    have := of_decide_eq_true hpe
    rw [this, hfix]
  have := hH e.1 (List.mem_append_left _ (List.mem_map_of_mem _ he))
  rw [hkey] at this
  exact this.2.2

/-- Transport of the tree well-formedness hypothesis to any
normalisation-fixed path that the tree recognises as a directory. -/
theorem goodId_of_isDir {fs : FS} {cwd projectRoot p : String} (hH : HFS fs cwd projectRoot)
    (hfix : pNormalize p = p) (hd : fs.isDir p = true) :
    GoodId (toProjectRelativeId cwd projectRoot p) := by
  unfold FS.isDir at hd
  obtain ⟨k, hk, hpk⟩ := List.any_eq_true.mp hd
  have hkey : k = p := by
    have := of_decide_eq_true hpk
    rw [this, hfix]
  have := hH k (List.mem_append_right _ hk)
  rw [hkey] at this
  exact this.2.2

theorem pResolve_resolve (cwd : String) (parts : List String) :
    pResolve cwd [pResolve cwd parts] = pResolve cwd parts := by
  obtain ⟨n, hclean, hfree, hshape⟩ := pResolve_shape cwd parts
  rw [hshape]
  by_cases hn : n = []
  · subst hn
    rw [if_pos rfl]
    rfl
  · rw [if_neg hn]
    have habs : pIsAbsolute ("/" ++ joinWith "/" n) = true := pIsAbsolute_slash_append _
    unfold pResolve
    simp only [List.foldl, habs, if_true, List.flatMap_cons, List.flatMap_nil, List.append_nil]
    rw [segsOf_render hn (fun s hs => (hclean s hs).1) hfree,
      normAbsSegs_cons_empty, normAbsSegs_all_clean hclean []]
    simp [hn]

/-! ## Field preservation through the reference scanners -/

theorem addRefFromText_core (cwd baseDir r : String) (out : POut) :
    (addRefFromText cwd baseDir r out).imports = out.imports ∧
    (addRefFromText cwd baseDir r out).lines = out.lines ∧
    (addRefFromText cwd baseDir r out).headerComment = out.headerComment :=
  ⟨rfl, rfl, rfl⟩

theorem scanRefs_core (cwd baseDir : String) (rs : List String) : ∀ out : POut,
    (scanRefs cwd baseDir rs out).imports = out.imports ∧
    (scanRefs cwd baseDir rs out).lines = out.lines ∧
    (scanRefs cwd baseDir rs out).headerComment = out.headerComment := by
  induction rs with
  | nil => exact fun out => ⟨rfl, rfl, rfl⟩
  | cons raw rest ih =>
    intro out
    unfold scanRefs
    split
    · exact ih out
    · split
      · exact ih out
      · split
        · exact ih out
        · obtain ⟨h1, h2, h3⟩ := ih (addRefFromText cwd baseDir raw out)
          exact ⟨h1.trans rfl, h2.trans rfl, h3.trans rfl⟩

theorem parseJsTs_err (babel : String → String → Except String JsAst)
    (walkAst : JsAst → String → String → POut → POut)
    (cwd src filename baseDir : String) (out : POut) (e : String)
    (he : babel src filename = Except.error e) :
    parseJsTs babel walkAst cwd src filename baseDir out =
      finalize (scanForAssetyStrings cwd baseDir src out) := by
  unfold parseJsTs
  rw [he]

theorem countNonEmptyLines_eq (code : String) :
    countNonEmptyLines code = (jsSplitLines code).countP (fun l => jsTrim l ≠ "") := by
  unfold countNonEmptyLines
  rw [List.countP_eq_length_filter]
  congr 1
  apply List.filter_congr
  intro x _
  rcases Nat.eq_zero_or_pos (jsTrim x).length with h | h
  · have hx : jsTrim x = "" := (str_eq_empty_iff _).mpr (List.eq_nil_of_length_eq_zero h)
    rw [hx]
    decide
  · have hne : jsTrim x ≠ "" := by
      intro he
      rw [he] at h
      exact Nat.lt_irrefl 0 h
    rw [decide_eq_true h, decide_eq_true hne]

/-! ## Watcher lifecycle lemmas -/

theorem stopWatcher_state {st : WState} (hinv : WatcherInv st) :
    (stopWatcher st).watcher = none ∧ (stopWatcher st).live = [] := by
  obtain ⟨_, h2, h3⟩ := hinv
  unfold stopWatcher
  cases hw : st.watcher with
  | none => exact ⟨hw, h3 hw⟩
  | some w =>
    refine ⟨rfl, ?_⟩
    show st.live.erase w = []
    rw [h2 w hw]
    simp

theorem WatcherInv_clients {st : WState} (cl : List Nat) (hinv : WatcherInv st) :
    WatcherInv { st with clients := cl } := hinv

theorem WatcherInv_stop {st : WState} (hinv : WatcherInv st) :
    WatcherInv (stopWatcher st) := by
  obtain ⟨hw, hl⟩ := stopWatcher_state hinv
  refine ⟨?_, ?_, fun _ => hl⟩
  · rw [hl]
    exact Nat.zero_le 1
  · intro w hww
    rw [hw] at hww
    exact absurd hww (by simp)

theorem WatcherInv_start {st : WState} (hinv : WatcherInv st) (h : Bool) :
    WatcherInv (startWatcher h st) := by
  obtain ⟨hw, hl⟩ := stopWatcher_state hinv
  cases h with
  | false =>
    have hs : startWatcher false st = stopWatcher st := rfl
    rw [hs]
    exact WatcherInv_stop hinv
  | true =>
    have hs : startWatcher true st =
        { stopWatcher st with
          watcher := some (stopWatcher st).nextW
          live := (stopWatcher st).live ++ [(stopWatcher st).nextW]
          nextW := (stopWatcher st).nextW + 1 } := rfl
    rw [hs]
    refine ⟨?_, ?_, ?_⟩
    · show ((stopWatcher st).live ++ [(stopWatcher st).nextW]).length ≤ 1
      rw [hl]
      exact Nat.le_refl 1
    · intro w hww
      have hww2 : (stopWatcher st).nextW = w := by
        injection hww
      show (stopWatcher st).live ++ [(stopWatcher st).nextW] = [w]
      rw [hl, hww2]
      rfl
    · intro hnone
      exact absurd hnone (by simp)

theorem WatcherInv_step {st : WState} (hinv : WatcherInv st) (op : WOp) :
    WatcherInv (wstep st op) := by
  cases op with
  | addClient c => exact hinv
  | dropClient c =>
    show WatcherInv (dropClient c st)
    unfold dropClient
    split
    · exact WatcherInv_stop (WatcherInv_clients (st.clients.erase c) hinv)
    · exact WatcherInv_clients (st.clients.erase c) hinv
  | activateAnalysis h =>
    show WatcherInv (activateAnalysis h st)
    unfold activateAnalysis
    split
    · exact WatcherInv_stop hinv
    · split
      · exact WatcherInv_start hinv true
      · exact WatcherInv_stop hinv

theorem wrun_inv (ops : List WOp) : ∀ st : WState, WatcherInv st → WatcherInv (wrun ops st) := by
  induction ops with
  | nil => exact fun _ h => h
  | cons op ops ih =>
    intro st h
    exact ih (wstep st op) (WatcherInv_step h op)

/-! ## Path-base injectivity toolkit -/

theorem clean_not_abs {s : String} (hne : s ≠ "") (hfree : '/' ∉ s.data) :
    pIsAbsolute s = false := by
  cases hd : s.data with
  | nil => exact absurd ((str_eq_empty_iff s).mpr hd) hne
  | cons c cs =>
    have hc : c ≠ '/' := by
      intro he
      apply hfree
      rw [hd, he]
      exact List.mem_cons_self _ _
    show (("/" : String).data.isPrefixOf s.data) = false
    rw [hd]
    show (('/' == c) && List.isPrefixOf [] cs) = false
    rw [beq_eq_false_iff_ne.mpr (Ne.symm hc)]
    rfl

theorem effective_rel (segs : List String) : ∀ acc : List String,
    (∀ s ∈ segs, pIsAbsolute s = false) →
    segs.foldl (fun acc p => if pIsAbsolute p then [p] else acc ++ [p]) acc = acc ++ segs := by
  induction segs with
  | nil =>
    intro acc _
    simp
  | cons x xs ih =>
    intro acc h
    rw [List.foldl_cons, if_neg (by simp [h x (List.mem_cons_self _ _)]),
      ih (acc ++ [x]) (fun s hs => h s (List.mem_cons_of_mem _ hs)), List.append_assoc]
    rfl

theorem flatMap_single : ∀ segs : List String,
    (∀ s ∈ segs, s ≠ "" ∧ '/' ∉ s.data) → segs.flatMap segsOf = segs := by
  intro segs
  induction segs with
  | nil =>
    intro _
    rfl
  | cons x xs ih =>
    intro h
    obtain ⟨hne, hfree⟩ := h x (List.mem_cons_self _ _)
    have hx : segsOf x = [x] := by
      unfold segsOf jsSplitCh
      rw [splitCh_sepFree hfree]
      rfl
    rw [List.flatMap_cons, hx, ih (fun s hs => h s (List.mem_cons_of_mem _ hs))]
    rfl

theorem normAbsSegs_append {segs : List String} (hsegs : ∀ s ∈ segs, cleanSeg s) :
    ∀ l acc : List String, normAbsSegs acc (l ++ segs) = normAbsSegs acc l ++ segs := by
  intro l
  induction l with
  | nil =>
    intro acc
    rw [List.nil_append, normAbsSegs_all_clean hsegs]
    rfl
  | cons x xs ih =>
    intro acc
    rw [List.cons_append]
    show (if x = "" || x = "." then normAbsSegs acc (xs ++ segs)
          else if x = ".." then normAbsSegs (acc.drop 1) (xs ++ segs)
          else normAbsSegs (x :: acc) (xs ++ segs)) =
        (if x = "" || x = "." then normAbsSegs acc xs
          else if x = ".." then normAbsSegs (acc.drop 1) xs
          else normAbsSegs (x :: acc) xs) ++ segs
    split
    · exact ih acc
    · split
      · exact ih (acc.drop 1)
      · exact ih (x :: acc)

theorem pResolve_render (cwd : String) (parts : List String) :
    pResolve cwd parts =
      (if normAbsSegs []
          ((parts.foldl (fun acc p => if pIsAbsolute p then [p] else acc ++ [p])
            [cwd]).flatMap segsOf) = [] then "/"
       else "/" ++ joinWith "/" (normAbsSegs []
          ((parts.foldl (fun acc p => if pIsAbsolute p then [p] else acc ++ [p])
            [cwd]).flatMap segsOf))) := rfl

theorem pResolve_cons_abs {b : String} (habs : pIsAbsolute b = true)
    {segs : List String} (hsegs : ∀ s ∈ segs, cleanSeg s ∧ '/' ∉ s.data)
    (cwd : String) :
    pResolve cwd (b :: segs) =
      (if normAbsSegs [] (segsOf b) ++ segs = [] then "/"
       else "/" ++ joinWith "/" (normAbsSegs [] (segsOf b) ++ segs)) := by
  have h1 : (b :: segs).foldl (fun acc p => if pIsAbsolute p then [p] else acc ++ [p]) [cwd]
      = b :: segs := by
    rw [List.foldl_cons, if_pos habs,
      effective_rel segs [b] (fun s hs => clean_not_abs (hsegs s hs).1.1 (hsegs s hs).2)]
    rfl
  have h2 : (b :: segs).flatMap segsOf = segsOf b ++ segs := by
    rw [List.flatMap_cons,
      flatMap_single segs (fun s hs => ⟨(hsegs s hs).1.1, (hsegs s hs).2⟩)]
  rw [pResolve_render, h1, h2, normAbsSegs_append (fun s hs => (hsegs s hs).1) (segsOf b) []]

theorem pResolve_nil_base (b : String)
    {segs : List String} (hsegs : ∀ s ∈ segs, cleanSeg s ∧ '/' ∉ s.data) :
    pResolve b segs =
      (if normAbsSegs [] (segsOf b) ++ segs = [] then "/"
       else "/" ++ joinWith "/" (normAbsSegs [] (segsOf b) ++ segs)) := by
  have h1 : segs.foldl (fun acc p => if pIsAbsolute p then [p] else acc ++ [p]) [b]
      = b :: segs := by
    rw [effective_rel segs [b] (fun s hs => clean_not_abs (hsegs s hs).1.1 (hsegs s hs).2)]
    rfl
  have h2 : (b :: segs).flatMap segsOf = segsOf b ++ segs := by
    rw [List.flatMap_cons,
      flatMap_single segs (fun s hs => ⟨(hsegs s hs).1.1, (hsegs s hs).2⟩)]
  rw [pResolve_render, h1, h2, normAbsSegs_append (fun s hs => (hsegs s hs).1) (segsOf b) []]

theorem pResolve_one_abs {b : String} (habs : pIsAbsolute b = true) (cwd : String) :
    pResolve cwd [b] =
      (if normAbsSegs [] (segsOf b) = [] then "/"
       else "/" ++ joinWith "/" (normAbsSegs [] (segsOf b))) := by
  have h1 : ([b] : List String).foldl
      (fun acc p => if pIsAbsolute p then [p] else acc ++ [p]) [cwd] = [b] := by
    rw [List.foldl_cons, if_pos habs]
    rfl
  have h2 : ([b] : List String).flatMap segsOf = segsOf b := by
    rw [List.flatMap_cons, List.flatMap_nil, List.append_nil]
  rw [pResolve_render, h1, h2]

theorem render_inj {m1 m2 : List String} (h1ne : m1 ≠ []) (h2ne : m2 ≠ [])
    (h1c : ∀ s ∈ m1, s ≠ "") (h1f : ∀ s ∈ m1, '/' ∉ s.data)
    (h2c : ∀ s ∈ m2, s ≠ "") (h2f : ∀ s ∈ m2, '/' ∉ s.data)
    (h : "/" ++ joinWith "/" m1 = "/" ++ joinWith "/" m2) : m1 = m2 := by
  have hs := congrArg segsOf h
  rw [segsOf_render h1ne h1c h1f, segsOf_render h2ne h2c h2f] at hs
  injection hs with h1 h2

theorem pResolve_base_ne (cwd : String) {b1 b2 : String}
    (habs1 : pIsAbsolute b1 = true) (habs2 : pIsAbsolute b2 = true)
    (hfix1 : pResolve cwd [b1] = b1) (hfix2 : pResolve cwd [b2] = b2)
    (hdiff : b1 ≠ b2) {segs : List String} (hne : segs ≠ [])
    (hsegs : ∀ s ∈ segs, cleanSeg s ∧ '/' ∉ s.data) :
    pResolve cwd (b1 :: segs) ≠ pResolve b2 segs := by
  intro heq
  rw [pResolve_cons_abs habs1 hsegs cwd, pResolve_nil_base b2 hsegs] at heq
  have hm1 : normAbsSegs [] (segsOf b1) ++ segs ≠ [] :=
    fun hh => hne (List.append_eq_nil.mp hh).2
  have hm2 : normAbsSegs [] (segsOf b2) ++ segs ≠ [] :=
    fun hh => hne (List.append_eq_nil.mp hh).2
  rw [if_neg hm1, if_neg hm2] at heq
  have hcl1 : ∀ s ∈ normAbsSegs [] (segsOf b1) ++ segs, s ≠ "" := by
    intro s hs
    rcases List.mem_append.mp hs with hs | hs
    · exact (normAbsSegs_clean (fun t ht => absurd ht (List.not_mem_nil t)) s hs).1
    · exact (hsegs s hs).1.1
  have hfr1 : ∀ s ∈ normAbsSegs [] (segsOf b1) ++ segs, '/' ∉ s.data := by
    intro s hs
    rcases List.mem_append.mp hs with hs | hs
    · rcases normAbsSegs_mem hs with h | h
      · exact absurd h (List.not_mem_nil s)
      · exact segsOf_sepFree b1 s h
    · exact (hsegs s hs).2
  have hcl2 : ∀ s ∈ normAbsSegs [] (segsOf b2) ++ segs, s ≠ "" := by
    intro s hs
    rcases List.mem_append.mp hs with hs | hs
    · exact (normAbsSegs_clean (fun t ht => absurd ht (List.not_mem_nil t)) s hs).1
    · exact (hsegs s hs).1.1
  have hfr2 : ∀ s ∈ normAbsSegs [] (segsOf b2) ++ segs, '/' ∉ s.data := by
    intro s hs
    rcases List.mem_append.mp hs with hs | hs
    · rcases normAbsSegs_mem hs with h | h
      · exact absurd h (List.not_mem_nil s)
      · exact segsOf_sepFree b2 s h
    · exact (hsegs s hs).2
  have hNN := render_inj hm1 hm2 hcl1 hfr1 hcl2 hfr2 heq
  have hN : normAbsSegs [] (segsOf b1) = normAbsSegs [] (segsOf b2) := by
    have hrev := congrArg List.reverse hNN
    rw [List.reverse_append, List.reverse_append] at hrev
    exact List.reverse_injective (List.append_cancel_left hrev)
  apply hdiff
  rw [← hfix1, ← hfix2, pResolve_one_abs habs1 cwd, pResolve_one_abs habs2 cwd, hN]

theorem segsOfLits_map : ∀ l : List String, segsOfLits (l.map JsAst.strLit) = some l := by
  intro l
  induction l with
  | nil => rfl
  | cons x xs ih =>
    rw [List.map_cons]
    show (segsOfLits (xs.map JsAst.strLit)).map (fun r => x :: r) = some (x :: xs)
    rw [ih]
    rfl

theorem tryResolvePathCall_cwd_aux (cwd baseDir : String) (baseVars : List String)
    (fn : String) (hfn : fn = "join" ∨ fn = "resolve") (a : JsAst) (rest : List JsAst) :
    tryResolvePathCall cwd baseDir baseVars (JsAst.call
      (JsAst.member (JsAst.ident "path") (JsAst.ident fn))
      (JsAst.call (JsAst.member (JsAst.ident "process") (JsAst.ident "cwd")) [] ::
        a :: rest)) =
      (match segsOfLits (a :: rest) with
       | none => none
       | some segs2 => some (pResolve cwd (baseDir :: segs2))) := by
  rcases hfn with rfl | rfl <;> rfl

theorem tryResolvePathCall_cwd (cwd baseDir : String) (baseVars : List String)
    {fn : String} (hfn : fn = "join" ∨ fn = "resolve")
    {segs : List String} (hne : segs ≠ []) :
    tryResolvePathCall cwd baseDir baseVars (cwdCallAst fn segs) =
      some (pResolve cwd (baseDir :: segs)) := by
  cases segs with
  | nil => exact absurd rfl hne
  | cons s ss =>
    have h := tryResolvePathCall_cwd_aux cwd baseDir baseVars fn hfn
      (JsAst.strLit s) (ss.map JsAst.strLit)
    rw [show (JsAst.strLit s :: ss.map JsAst.strLit) = ((s :: ss).map JsAst.strLit) from
      (List.map_cons _ _ _).symm, segsOfLits_map] at h
    exact h

theorem toAbsFromRelMaybe_fixed {cwd pr r a : String}
    (h : toAbsFromRelMaybe cwd pr r = some a) :
    pIsAbsolute a = true ∧ pNormalize a = a := by
  unfold toAbsFromRelMaybe at h
  by_cases h0 : jsTrim r = ""
  · rw [if_pos h0] at h
    exact absurd h (by simp)
  · rw [if_neg h0] at h
    by_cases habs : pIsAbsolute (jsTrim r) = true
    · rw [if_pos habs] at h
      injection h with h
      subst h
      exact ⟨pNormalize_abs_out habs, pNormalize_idem_abs habs⟩
    · rw [if_neg habs] at h
      injection h with h
      subst h
      exact ⟨pResolve_abs _ _, pResolve_fixed _ _⟩

/-! ## `ensureNode`/`ensureLink` bookkeeping lemmas -/

theorem mergeNode_id (n x : NodeRec) : (mergeNode n x).id = n.id := rfl

theorem normalizeNode_id (i : String) (x : NodeRec) : (normalizeNode i x).id = i := rfl

theorem ensureNode_mono (nodes : List NodeRec) (x : NodeRec) :
    ∀ n ∈ nodes, ∃ n' ∈ (ensureNode nodes x).1, n'.id = n.id := by
  intro n hn
  unfold ensureNode
  by_cases h0 : jsTrim x.id = ""
  · rw [if_pos h0]
    exact ⟨n, hn, rfl⟩
  · rw [if_neg h0]
    by_cases hhas : nodes.any (fun m => m.id = jsTrim x.id) = true
    · simp only [hhas, if_true]
      refine ⟨if n.id = jsTrim x.id then mergeNode n x else n, List.mem_map_of_mem _ hn, ?_⟩
      by_cases hid : n.id = jsTrim x.id
      · simp [hid, mergeNode_id]
      · simp [hid]
    · simp only [hhas, Bool.false_eq_true, if_false]
      exact ⟨n, List.mem_append_left _ hn, rfl⟩

theorem ensureNode_new (nodes : List NodeRec) (x : NodeRec) :
    ∀ n' ∈ (ensureNode nodes x).1, (∃ n ∈ nodes, n'.id = n.id) ∨
      (n'.id = jsTrim x.id ∧ jsTrim x.id ≠ "") := by
  intro n' hn'
  unfold ensureNode at hn'
  by_cases h0 : jsTrim x.id = ""
  · rw [if_pos h0] at hn'
    exact Or.inl ⟨n', hn', rfl⟩
  · rw [if_neg h0] at hn'
    by_cases hhas : nodes.any (fun m => m.id = jsTrim x.id) = true
    · simp only [hhas, if_true] at hn'
      obtain ⟨n, hn, heq⟩ := List.mem_map.mp hn'
      left
      refine ⟨n, hn, ?_⟩
      by_cases hid : n.id = jsTrim x.id
      · rw [← heq]
        simp [hid, mergeNode_id]
      · rw [← heq]
        simp [hid]
    · simp only [hhas, Bool.false_eq_true, if_false] at hn'
      rcases List.mem_append.mp hn' with h | h
      · exact Or.inl ⟨n', h, rfl⟩
      · right
        have : n' = normalizeNode (jsTrim x.id) x := by simpa using h
        rw [this, normalizeNode_id]
        exact ⟨rfl, h0⟩

theorem ensureNode_present (nodes : List NodeRec) (x : NodeRec) (h0 : jsTrim x.id ≠ "") :
    ∃ n' ∈ (ensureNode nodes x).1, n'.id = jsTrim x.id := by
  unfold ensureNode
  rw [if_neg h0]
  by_cases hhas : nodes.any (fun m => m.id = jsTrim x.id) = true
  · simp only [hhas, if_true]
    obtain ⟨n, hn, hpn⟩ := List.any_eq_true.mp hhas
    have hid : n.id = jsTrim x.id := of_decide_eq_true hpn
    refine ⟨if n.id = jsTrim x.id then mergeNode n x else n, List.mem_map_of_mem _ hn, ?_⟩
    simp [hid, mergeNode_id]
  · simp only [hhas, Bool.false_eq_true, if_false]
    exact ⟨normalizeNode (jsTrim x.id) x, List.mem_append_right _ (by simp), normalizeNode_id _ _⟩

theorem ensureLink_mono (links : List LinkRec) (s t ty : String) :
    ∀ l ∈ links, l ∈ (ensureLink links s t ty).1 := by
  intro l hl
  unfold ensureLink
  by_cases h1 : (s = "" || t = "") = true
  · simp only [h1, if_true]
    exact hl
  · simp only [h1, Bool.false_eq_true, if_false]
    by_cases h2 : links.any (fun l' => linkKey l'.source l'.type l'.target =
        linkKey s (if ty = "" then "use" else ty) t) = true
    · simp only [h2, if_true]
      exact hl
    · simp only [h2, Bool.false_eq_true, if_false]
      exact List.mem_append_left _ hl

theorem ensureLink_new (links : List LinkRec) (s t ty : String) :
    ∀ l ∈ (ensureLink links s t ty).1, l ∈ links ∨
      (l.source = s ∧ l.target = t ∧ s ≠ "" ∧ t ≠ "") := by
  intro l hl
  unfold ensureLink at hl
  by_cases h1 : (s = "" || t = "") = true
  · simp only [h1, if_true] at hl
    exact Or.inl hl
  · simp only [h1, Bool.false_eq_true, if_false] at hl
    by_cases h2 : links.any (fun l' => linkKey l'.source l'.type l'.target =
        linkKey s (if ty = "" then "use" else ty) t) = true
    · simp only [h2, if_true] at hl
      exact Or.inl hl
    · simp only [h2, Bool.false_eq_true, if_false] at hl
      rcases List.mem_append.mp hl with h | h
      · exact Or.inl h
      · right
        have : l = ⟨s, t, if ty = "" then "use" else ty⟩ := by simpa using h
        subst this
        simp only [Bool.or_eq_true, decide_eq_true_eq] at h1
        exact ⟨rfl, rfl, fun he => h1 (Or.inl he), fun he => h1 (Or.inr he)⟩

/-! ## `FamStep` algebra -/

theorem FamStep_refl (fs : FS) (cwd pr rid : String) (st : BState) :
    FamStep fs cwd pr rid st st := by
  intro _
  exact ⟨rfl, fun q hq => hq, fun q hq => Or.inl hq, fun n hn => ⟨n, hn, rfl⟩,
    fun n' hn' => Or.inl ⟨n', hn', rfl⟩, fun l hl => Or.inl hl⟩

theorem FamStep_comp {fs : FS} {cwd pr rid : String} {st st' st'' : BState}
    (h1 : FamStep fs cwd pr rid st st') (h2 : FamStep fs cwd pr rid st' st'') :
    FamStep fs cwd pr rid st st'' := by
  intro hrid
  obtain ⟨v1, qm1, qn1, nm1, nn1, ln1⟩ := h1 hrid
  have hrid' : rid = "" ∨ ∃ n ∈ st'.nodes, n.id = rid := by
    rcases hrid with h | ⟨n, hn, hid⟩
    · exact Or.inl h
    · obtain ⟨n', hn', hid'⟩ := nm1 n hn
      exact Or.inr ⟨n', hn', hid'.trans hid⟩
  obtain ⟨v2, qm2, qn2, nm2, nn2, ln2⟩ := h2 hrid'
  refine ⟨v2.trans v1, fun q hq => qm2 q (qm1 q hq), ?_, ?_, ?_, ?_⟩
  · intro q hq
    rcases qn2 q hq with h | h
    · exact qn1 q h
    · exact Or.inr h
  · intro n hn
    obtain ⟨n', hn', hid'⟩ := nm1 n hn
    obtain ⟨n'', hn'', hid''⟩ := nm2 n' hn'
    exact ⟨n'', hn'', hid''.trans hid'⟩
  · intro n'' hn''
    rcases nn2 n'' hn'' with ⟨n', hn', hid'⟩ | h
    · rcases nn1 n' hn' with ⟨n, hn, hid⟩ | h
      · exact Or.inl ⟨n, hn, hid'.trans hid⟩
      · exact Or.inr (hid' ▸ h)
    · exact Or.inr h
  · intro l hl
    rcases ln2 l hl with h | h
    · rcases ln1 l h with h' | ⟨⟨ns, hns, hids⟩, ⟨nt, hnt, hidt⟩⟩
      · exact Or.inl h'
      · obtain ⟨ns', hns', hids'⟩ := nm2 ns hns
        obtain ⟨nt', hnt', hidt'⟩ := nm2 nt hnt
        exact Or.inr ⟨⟨ns', hns', hids'.trans hids⟩, ⟨nt', hnt', hidt'.trans hidt⟩⟩
    · exact Or.inr h

theorem FamStep_ensureNode {fs : FS} {cwd pr rid : String} {st : BState} {x : NodeRec}
    (hg : GoodId x.id) :
    FamStep fs cwd pr rid st { st with nodes := (ensureNode st.nodes x).1 } := by
  intro _
  refine ⟨rfl, fun q hq => hq, fun q hq => Or.inl hq, ensureNode_mono st.nodes x, ?_,
    fun l hl => Or.inl hl⟩
  intro n' hn'
  rcases ensureNode_new st.nodes x n' hn' with h | ⟨hid, hne⟩
  · exact Or.inl h
  · right
    rw [hg.1] at hid hne
    rw [hid]
    exact ⟨hne, hg⟩

theorem FamStep_ensureLink {fs : FS} {cwd pr rid : String} {st : BState} {s t ty : String}
    (hs : s = "" ∨ ∃ n ∈ st.nodes, n.id = s) (ht : t = "" ∨ ∃ n ∈ st.nodes, n.id = t) :
    FamStep fs cwd pr rid st { st with links := (ensureLink st.links s t ty).1 } := by
  intro _
  refine ⟨rfl, fun q hq => hq, fun q hq => Or.inl hq, fun n hn => ⟨n, hn, rfl⟩,
    fun n' hn' => Or.inl ⟨n', hn', rfl⟩, ?_⟩
  intro l hl
  rcases ensureLink_new st.links s t ty l hl with h | ⟨h1, h2, h3, h4⟩
  · exact Or.inl h
  · right
    constructor
    · rcases hs with h | ⟨n, hn, hid⟩
      · exact absurd (h1 ▸ h) h3
      · exact ⟨n, hn, hid.trans h1.symm⟩
    · rcases ht with h | ⟨n, hn, hid⟩
      · exact absurd (h2 ▸ h) h4
      · exact ⟨n, hn, hid.trans h2.symm⟩

theorem FamStep_push {fs : FS} {cwd pr rid : String} (st : BState) {c : String}
    (hc : fs.isFile c = true) (hg : GoodId (idOf cwd pr c)) :
    FamStep fs cwd pr rid st { st with queue := st.queue ++ [c] } := by
  intro _
  refine ⟨rfl, fun q hq => List.mem_append_left _ hq, ?_, fun n hn => ⟨n, hn, rfl⟩,
    fun n' hn' => Or.inl ⟨n', hn', rfl⟩, fun l hl => Or.inl hl⟩
  intro q hq
  rcases List.mem_append.mp hq with h | h
  · exact Or.inl h
  · have : q = c := by simpa using h
    subst this
    exact Or.inr ⟨hc, hg⟩

theorem FamStep_change_rid {fs : FS} {cwd pr rid rid2 : String} {st st' : BState}
    (h : FamStep fs cwd pr rid2 st st')
    (h2 : rid2 = "" ∨ ∃ n ∈ st.nodes, n.id = rid2) : FamStep fs cwd pr rid st st' :=
  fun _ => h h2

theorem FamStep_ensureLink_rid {fs : FS} {cwd pr rid : String} {st : BState} {t ty : String}
    (ht : t = "" ∨ ∃ n ∈ st.nodes, n.id = t) :
    FamStep fs cwd pr rid st { st with links := (ensureLink st.links rid t ty).1 } := by
  intro hrid
  exact FamStep_ensureLink hrid ht hrid

theorem idOf_resolvedRoot (cwd projectRoot p : String) :
    toProjectRelativeId cwd (pResolve cwd [projectRoot]) p =
      toProjectRelativeId cwd projectRoot p := by
  unfold toProjectRelativeId pRelative
  rw [pResolve_resolve]

/-- The node-then-include-link step that every branch of the expansion
family performs for a discovered child. -/
theorem FamStep_addChild {fs : FS} {cwd projectRoot : String} (rid : String)
    (st : BState) (x : NodeRec) (hgood : GoodId x.id) (ty : String) :
    FamStep fs cwd projectRoot rid st
      { { st with nodes := (ensureNode st.nodes x).1 } with
        links := (ensureLink ({ st with nodes := (ensureNode st.nodes x).1 }).links
          rid x.id ty).1 } ∧
    (x.id = "" ∨ ∃ n ∈ (ensureNode st.nodes x).1, n.id = x.id) := by
  have ht : x.id = "" ∨ ∃ n ∈ (ensureNode st.nodes x).1, n.id = x.id := by
    by_cases hcid : x.id = ""
    · exact Or.inl hcid
    · right
      have hne : jsTrim x.id ≠ "" := by rw [hgood.1]; exact hcid
      obtain ⟨n, hn, hid⟩ := ensureNode_present st.nodes x hne
      exact ⟨n, hn, by rw [hid, hgood.1]⟩
  exact ⟨FamStep_comp (FamStep_ensureNode hgood) (FamStep_ensureLink_rid ht), ht⟩

/-- One-step unfolding of `expandDirectoryBounded` at positive fuel. -/
theorem expandDirectoryBounded_succ (g : Nat) (fs : FS) (pf : String → String → Parsed)
    (cwd pr refDirAbs refDirId : String) (depth : Nat) (st : BState) :
    expandDirectoryBounded (g + 1) fs pf cwd pr refDirAbs refDirId depth st =
      (if MAX_DIR_DEPTH ≤ depth then st
       else expandEntries g fs pf cwd pr refDirAbs refDirId depth
         (fs.readdirSync refDirAbs) 0 st) := rfl

/-- One-step unfolding of `expandEntries` at positive fuel. -/
theorem expandEntries_succ (g : Nat) (fs : FS) (pf : String → String → Parsed)
    (cwd pr refDirAbs refDirId : String) (depth : Nat) (entries : List String)
    (count : Nat) (st : BState) :
    expandEntries (g + 1) fs pf cwd pr refDirAbs refDirId depth entries count st =
      (match entries with
       | [] => st
       | name :: rest =>
         if MAX_DIR_ENTRIES ≤ count then st
         else if name = "" then
           expandEntries g fs pf cwd pr refDirAbs refDirId depth rest count st
         else if SKIP_NAMES.contains name then
           expandEntries g fs pf cwd pr refDirAbs refDirId depth rest count st
         else if jsStartsWith name "." then
           expandEntries g fs pf cwd pr refDirAbs refDirId depth rest count st
         else
           match fs.statSync (pJoin [refDirAbs, name]) with
           | none =>
             expandEntries g fs pf cwd pr refDirAbs refDirId depth rest count st
           | some StatKind.dir =>
             expandEntries g fs pf cwd pr refDirAbs refDirId depth rest (count + 1)
               (expandDirectoryBounded g fs pf cwd pr (pJoin [refDirAbs, name])
                 (toProjectRelativeId cwd pr (pJoin [refDirAbs, name])) (depth + 1)
                 { st with
                   nodes := (ensureNode st.nodes
                     ⟨toProjectRelativeId cwd pr (pJoin [refDirAbs, name]),
                      toProjectRelativeId cwd pr (pJoin [refDirAbs, name]),
                      0, 0, "", some "dir"⟩).1,
                   links := (ensureLink st.links refDirId
                     (toProjectRelativeId cwd pr (pJoin [refDirAbs, name])) "include").1 })
           | some StatKind.file =>
             if !(name = "Dockerfile" || name = "Makefile" || name = "LICENSE") &&
                 jsToLower (pExtname name) ≠ "" &&
                 !ASSET_EXT_ALLOW.contains (jsToLower (pExtname name)) then
               expandEntries g fs pf cwd pr refDirAbs refDirId depth rest count st
             else
               if isScriptFile (pJoin [refDirAbs, name]) &&
                   !st.visited.contains (pJoin [refDirAbs, name]) then
                 expandEntries g fs pf cwd pr refDirAbs refDirId depth rest (count + 1)
                   { st with
                     nodes := (ensureNode st.nodes
                       ⟨toProjectRelativeId cwd pr (pJoin [refDirAbs, name]),
                        toProjectRelativeId cwd pr (pJoin [refDirAbs, name]), 0, 0, "",
                        some (if isScriptFile (pJoin [refDirAbs, name])
                              then "file" else "asset")⟩).1,
                     links := (ensureLink st.links refDirId
                       (toProjectRelativeId cwd pr (pJoin [refDirAbs, name])) "include").1,
                     queue := st.queue ++ [pJoin [refDirAbs, name]] }
               else if PARSEABLE_TEXT_EXT.contains (jsToLower (pExtname name)) then
                 expandEntries g fs pf cwd pr refDirAbs refDirId depth rest (count + 1)
                   (tryParseReferencedTextFile g fs pf cwd pr (pJoin [refDirAbs, name])
                     (toProjectRelativeId cwd pr (pJoin [refDirAbs, name]))
                     { st with
                       nodes := (ensureNode st.nodes
                         ⟨toProjectRelativeId cwd pr (pJoin [refDirAbs, name]),
                          toProjectRelativeId cwd pr (pJoin [refDirAbs, name]), 0, 0, "",
                          some (if isScriptFile (pJoin [refDirAbs, name])
                                then "file" else "asset")⟩).1,
                       links := (ensureLink st.links refDirId
                         (toProjectRelativeId cwd pr (pJoin [refDirAbs, name]))
                         "include").1 })
               else
                 expandEntries g fs pf cwd pr refDirAbs refDirId depth rest (count + 1)
                   { st with
                     nodes := (ensureNode st.nodes
                       ⟨toProjectRelativeId cwd pr (pJoin [refDirAbs, name]),
                        toProjectRelativeId cwd pr (pJoin [refDirAbs, name]), 0, 0, "",
                        some (if isScriptFile (pJoin [refDirAbs, name])
                              then "file" else "asset")⟩).1,
                     links := (ensureLink st.links refDirId
                       (toProjectRelativeId cwd pr (pJoin [refDirAbs, name]))
                       "include").1 }) := rfl

/-- One-step unfolding of `tryParseReferencedTextFile` at positive fuel. -/
theorem tryParseReferencedTextFile_succ (g : Nat) (fs : FS) (pf : String → String → Parsed)
    (cwd pr fileAbs parentId : String) (st : BState) :
    tryParseReferencedTextFile (g + 1) fs pf cwd pr fileAbs parentId st =
      (match fs.readFileSync fileAbs with
       | Except.error _ => st
       | Except.ok text =>
         tpRefs g fs pf cwd pr parentId
           ((pf text fileAbs).fileRefsAbs ++ (pf text fileAbs).fileRefsRel ++
            (pf text fileAbs).assetRefsAbs ++ (pf text fileAbs).assetRefsRel) st) := rfl

/-- One-step unfolding of `tpRefs` at positive fuel. -/
theorem tpRefs_succ (g : Nat) (fs : FS) (pf : String → String → Parsed)
    (cwd pr parentId : String) (refs : List String) (st : BState) :
    tpRefs (g + 1) fs pf cwd pr parentId refs st =
      (match refs with
       | [] => st
       | ref :: rest =>
         match toAbsFromRelMaybe cwd pr ref with
         | none => tpRefs g fs pf cwd pr parentId rest st
         | some refAbs =>
           if !isInsideRoot cwd pr refAbs then
             tpRefs g fs pf cwd pr parentId rest st
           else if !fs.existsSync refAbs then
             tpRefs g fs pf cwd pr parentId rest st
           else
             match fs.statSync refAbs with
             | none => tpRefs g fs pf cwd pr parentId rest st
             | some StatKind.dir =>
               tpRefs g fs pf cwd pr parentId rest
                 (expandDirectoryBounded g fs pf cwd pr refAbs
                   (toProjectRelativeId cwd pr refAbs) 0
                   { st with
                     nodes := (ensureNode st.nodes
                       ⟨toProjectRelativeId cwd pr refAbs,
                        toProjectRelativeId cwd pr refAbs, 0, 0, "", some "dir"⟩).1,
                     links := (ensureLink st.links parentId
                       (toProjectRelativeId cwd pr refAbs) "include").1 })
             | some StatKind.file =>
               tpRefs g fs pf cwd pr parentId rest
                 (if isScriptFile refAbs && !st.visited.contains refAbs then
                   { st with
                     nodes := (ensureNode st.nodes
                       ⟨toProjectRelativeId cwd pr refAbs,
                        toProjectRelativeId cwd pr refAbs, 0, 0, "",
                        some (if isScriptFile refAbs then "file" else "asset")⟩).1,
                     links := (ensureLink st.links parentId
                       (toProjectRelativeId cwd pr refAbs) "include").1,
                     queue := st.queue ++ [refAbs] }
                  else
                   { st with
                     nodes := (ensureNode st.nodes
                       ⟨toProjectRelativeId cwd pr refAbs,
                        toProjectRelativeId cwd pr refAbs, 0, 0, "",
                        some (if isScriptFile refAbs then "file" else "asset")⟩).1,
                     links := (ensureLink st.links parentId
                       (toProjectRelativeId cwd pr refAbs) "include").1 })) := rfl

/-- Zero-fuel values of the directory-expansion family. -/
theorem expandDirectoryBounded_zero (fs : FS) (pf : String → String → Parsed)
    (cwd pr refDirAbs refDirId : String) (depth : Nat) (st : BState) :
    expandDirectoryBounded 0 fs pf cwd pr refDirAbs refDirId depth st = st := rfl

theorem expandEntries_zero (fs : FS) (pf : String → String → Parsed)
    (cwd pr refDirAbs refDirId : String) (depth : Nat) (entries : List String)
    (count : Nat) (st : BState) :
    expandEntries 0 fs pf cwd pr refDirAbs refDirId depth entries count st = st := rfl

theorem tryParseReferencedTextFile_zero (fs : FS) (pf : String → String → Parsed)
    (cwd pr fileAbs parentId : String) (st : BState) :
    tryParseReferencedTextFile 0 fs pf cwd pr fileAbs parentId st = st := rfl

theorem tpRefs_zero (fs : FS) (pf : String → String → Parsed)
    (cwd pr parentId : String) (refs : List String) (st : BState) :
    tpRefs 0 fs pf cwd pr parentId refs st = st := rfl

theorem idOf_eq (cwd pr p : String) : idOf cwd pr p = toProjectRelativeId cwd pr p := rfl

section FamilyInduction

attribute [local irreducible] pJoin pResolve pNormalize pIsAbsolute pExtname
  toProjectRelativeId jsStartsWith jsToLower jsTrim toAbsFromRelMaybe isInsideRoot
  isScriptFile idOf GoodId SKIP_NAMES ASSET_EXT_ALLOW PARSEABLE_TEXT_EXT
  MAX_DIR_DEPTH MAX_DIR_ENTRIES FS.statSync FS.readdirSync FS.readFileSync
  FS.existsSync FS.isFile FS.isDir ensureNode ensureLink
  expandDirectoryBounded expandEntries tryParseReferencedTextFile tpRefs FamStep

/-- The four functions of the directory-expansion family all realise
`FamStep` (one mutual induction on the fuel). -/
theorem family_famStep (fs : FS) (pf : String → String → Parsed)
    (cwd projectRoot pr : String)
    (hH : HFS fs cwd projectRoot) (hpr : pr = pResolve cwd [projectRoot]) :
    ∀ gas : Nat,
      (∀ refDirAbs refDirId depth st, pIsAbsolute refDirAbs = true →
        FamStep fs cwd projectRoot refDirId st
          (expandDirectoryBounded gas fs pf cwd pr
            refDirAbs refDirId depth st)) ∧
      (∀ refDirAbs refDirId depth entries count st, pIsAbsolute refDirAbs = true →
        FamStep fs cwd projectRoot refDirId st
          (expandEntries gas fs pf cwd pr
            refDirAbs refDirId depth entries count st)) ∧
      (∀ fileAbs parentId st,
        FamStep fs cwd projectRoot parentId st
          (tryParseReferencedTextFile gas fs pf cwd pr
            fileAbs parentId st)) ∧
      (∀ parentId refs st,
        FamStep fs cwd projectRoot parentId st
          (tpRefs gas fs pf cwd pr parentId refs st)) := by
  intro gas
  induction gas with
  | zero =>
    refine ⟨?_, ?_, ?_, ?_⟩
    · intro a b c st h
      rw [expandDirectoryBounded_zero]
      exact FamStep_refl _ _ _ _ st
    · intro a b c d e st h
      rw [expandEntries_zero]
      exact FamStep_refl _ _ _ _ st
    · intro a b st
      rw [tryParseReferencedTextFile_zero]
      exact FamStep_refl _ _ _ _ st
    · intro a b st
      rw [tpRefs_zero]
      exact FamStep_refl _ _ _ _ st
  | succ g ih =>
    obtain ⟨ihE, ihEE, ihT, ihR⟩ := ih
    refine ⟨?_, ?_, ?_, ?_⟩
    · intro refDirAbs refDirId depth st habs
      rw [expandDirectoryBounded_succ]
      split
      · exact FamStep_refl _ _ _ _ st
      · exact ihEE refDirAbs refDirId depth (fs.readdirSync refDirAbs) 0 st habs
    · intro refDirAbs refDirId depth entries count st habs
      rw [expandEntries_succ]
      split
      · exact FamStep_refl _ _ _ _ st
      · next name rest =>
        split
        · exact FamStep_refl _ _ _ _ st
        · split
          · exact ihEE refDirAbs refDirId depth rest count st habs
          · split
            · exact ihEE refDirAbs refDirId depth rest count st habs
            · split
              · exact ihEE refDirAbs refDirId depth rest count st habs
              · set childAbs := pJoin [refDirAbs, name] with hcA
                set childId := toProjectRelativeId cwd pr childAbs with hcI
                have hjoin := pJoin_abs_fixed habs [name]
                rw [← hcA] at hjoin
                split
                · exact ihEE refDirAbs refDirId depth rest count st habs
                · next heq =>
                  have hgood : GoodId childId := by
                    rw [hcI, hpr, idOf_resolvedRoot]
                    exact goodId_of_isDir hH hjoin.2 (statSync_dir_isDir heq)
                  obtain ⟨hstep, ht⟩ := FamStep_addChild refDirId st
                    ⟨childId, childId, 0, 0, "", some "dir"⟩ hgood "include"
                  have h1 : FamStep fs cwd projectRoot refDirId
                      ⟨st.visited,
                       (ensureNode st.nodes ⟨childId, childId, 0, 0, "", some "dir"⟩).1,
                       (ensureLink st.links refDirId childId "include").1, st.queue⟩
                      (expandDirectoryBounded g fs pf cwd pr
                        childAbs childId (depth + 1)
                        ⟨st.visited,
                         (ensureNode st.nodes ⟨childId, childId, 0, 0, "", some "dir"⟩).1,
                         (ensureLink st.links refDirId childId "include").1, st.queue⟩) :=
                    FamStep_change_rid (ihE childAbs childId (depth + 1) _ hjoin.1) ht
                  exact FamStep_comp hstep (FamStep_comp h1
                    (ihEE refDirAbs refDirId depth rest (count + 1) _ habs))
                · next heq =>
                  split
                  · exact ihEE refDirAbs refDirId depth rest count st habs
                  · have hisfile := statSync_file_isFile heq
                    have hgood : GoodId childId := by
                      rw [hcI, hpr, idOf_resolvedRoot]
                      exact goodId_of_isFile hH hjoin.2 hisfile
                    obtain ⟨hstep, ht⟩ := FamStep_addChild refDirId st
                      ⟨childId, childId, 0, 0, "",
                       some (if isScriptFile childAbs then "file" else "asset")⟩ hgood "include"
                    have hgq : GoodId (idOf cwd projectRoot childAbs) := by
                      rw [idOf_eq, ← idOf_resolvedRoot cwd projectRoot, ← hpr, ← hcI]
                      exact hgood
                    split
                    · exact FamStep_comp hstep (FamStep_comp
                        (FamStep_push
                          ⟨st.visited,
                           (ensureNode st.nodes ⟨childId, childId, 0, 0, "",
                             some (if isScriptFile childAbs then "file" else "asset")⟩).1,
                           (ensureLink st.links refDirId childId "include").1, st.queue⟩
                          hisfile hgq)
                        (ihEE refDirAbs refDirId depth rest (count + 1) _ habs))
                    · split
                      · have h1 : FamStep fs cwd projectRoot refDirId
                            ⟨st.visited,
                             (ensureNode st.nodes ⟨childId, childId, 0, 0, "",
                               some (if isScriptFile childAbs then "file" else "asset")⟩).1,
                             (ensureLink st.links refDirId childId "include").1, st.queue⟩
                            (tryParseReferencedTextFile g fs pf cwd
                              pr childAbs childId
                              ⟨st.visited,
                               (ensureNode st.nodes ⟨childId, childId, 0, 0, "",
                                 some (if isScriptFile childAbs then "file" else "asset")⟩).1,
                               (ensureLink st.links refDirId childId "include").1, st.queue⟩) :=
                          FamStep_change_rid (ihT childAbs childId _) ht
                        exact FamStep_comp hstep (FamStep_comp h1
                          (ihEE refDirAbs refDirId depth rest (count + 1) _ habs))
                      · exact FamStep_comp hstep
                          (ihEE refDirAbs refDirId depth rest (count + 1) _ habs)
    · intro fileAbs parentId st
      rw [tryParseReferencedTextFile_succ]
      split
      · exact FamStep_refl _ _ _ _ st
      · exact ihR parentId _ st
    · intro parentId refs st
      rw [tpRefs_succ]
      split
      · exact FamStep_refl _ _ _ _ st
      · next ref rest =>
        split
        · exact ihR parentId rest st
        · next refAbs heqa =>
          have htarm := toAbsFromRelMaybe_fixed heqa
          split
          · exact ihR parentId rest st
          · split
            · exact ihR parentId rest st
            · set refId := toProjectRelativeId cwd pr refAbs with hrI
              split
              · exact ihR parentId rest st
              · next heq =>
                have hgood : GoodId refId := by
                  rw [hrI, hpr, idOf_resolvedRoot]
                  exact goodId_of_isDir hH htarm.2 (statSync_dir_isDir heq)
                obtain ⟨hstep, ht⟩ := FamStep_addChild parentId st
                  ⟨refId, refId, 0, 0, "", some "dir"⟩ hgood "include"
                have h1 : FamStep fs cwd projectRoot parentId
                    ⟨st.visited,
                     (ensureNode st.nodes ⟨refId, refId, 0, 0, "", some "dir"⟩).1,
                     (ensureLink st.links parentId refId "include").1, st.queue⟩
                    (expandDirectoryBounded g fs pf cwd pr
                      refAbs refId 0
                      ⟨st.visited,
                       (ensureNode st.nodes ⟨refId, refId, 0, 0, "", some "dir"⟩).1,
                       (ensureLink st.links parentId refId "include").1, st.queue⟩) :=
                  FamStep_change_rid (ihE refAbs refId 0 _ htarm.1) ht
                exact FamStep_comp hstep (FamStep_comp h1 (ihR parentId rest _))
              · next heq =>
                have hisfile := statSync_file_isFile heq
                have hgood : GoodId refId := by
                  rw [hrI, hpr, idOf_resolvedRoot]
                  exact goodId_of_isFile hH htarm.2 hisfile
                obtain ⟨hstep, ht⟩ := FamStep_addChild parentId st
                  ⟨refId, refId, 0, 0, "",
                   some (if isScriptFile refAbs then "file" else "asset")⟩ hgood "include"
                have hgq : GoodId (idOf cwd projectRoot refAbs) := by
                  rw [idOf_eq, ← idOf_resolvedRoot cwd projectRoot, ← hpr, ← hrI]
                  exact hgood
                split
                · exact FamStep_comp hstep (FamStep_comp
                    (FamStep_push
                      ⟨st.visited,
                       (ensureNode st.nodes ⟨refId, refId, 0, 0, "",
                         some (if isScriptFile refAbs then "file" else "asset")⟩).1,
                       (ensureLink st.links parentId refId "include").1, st.queue⟩
                      hisfile hgq)
                    (ihR parentId rest _))
                · exact FamStep_comp hstep (ihR parentId rest _)

end FamilyInduction

/-! ## Main-loop unfolding lemmas and support -/

theorem processRefs_nil (gas : Nat) (fs : FS) (pf : String → String → Parsed)
    (cwd pr nodeId : String) (st : BState) :
    processRefs gas fs pf cwd pr nodeId [] st = st := rfl

theorem processRefs_cons (gas : Nat) (fs : FS) (pf : String → String → Parsed)
    (cwd pr nodeId ref : String) (rest : List String) (st : BState) :
    processRefs gas fs pf cwd pr nodeId (ref :: rest) st =
      (match toAbsFromRelMaybe cwd pr ref with
       | none => processRefs gas fs pf cwd pr nodeId rest st
       | some refAbs =>
         if !isInsideRoot cwd pr refAbs then
           processRefs gas fs pf cwd pr nodeId rest st
         else if !fs.existsSync refAbs then
           processRefs gas fs pf cwd pr nodeId rest st
         else
           match fs.statSync refAbs with
           | none => processRefs gas fs pf cwd pr nodeId rest st
           | some StatKind.dir =>
             processRefs gas fs pf cwd pr nodeId rest
               (expandDirectoryBounded gas fs pf cwd pr refAbs
                 (toProjectRelativeId cwd pr refAbs) 0
                 { st with
                   nodes := (ensureNode st.nodes
                     ⟨toProjectRelativeId cwd pr refAbs,
                      toProjectRelativeId cwd pr refAbs, 0, 0, "", some "dir"⟩).1,
                   links := (ensureLink st.links nodeId
                     (toProjectRelativeId cwd pr refAbs) "include").1 })
           | some StatKind.file =>
             processRefs gas fs pf cwd pr nodeId rest
               (if isScriptFile refAbs && !st.visited.contains refAbs then
                 { st with
                   nodes := (ensureNode st.nodes
                     ⟨toProjectRelativeId cwd pr refAbs,
                      toProjectRelativeId cwd pr refAbs, 0, 0, "",
                      some (if isScriptFile refAbs then "file" else "asset")⟩).1,
                   links := (ensureLink st.links nodeId
                     (toProjectRelativeId cwd pr refAbs) "include").1,
                   queue := st.queue ++ [refAbs] }
                else
                 { st with
                   nodes := (ensureNode st.nodes
                     ⟨toProjectRelativeId cwd pr refAbs,
                      toProjectRelativeId cwd pr refAbs, 0, 0, "",
                      some (if isScriptFile refAbs then "file" else "asset")⟩).1,
                   links := (ensureLink st.links nodeId
                     (toProjectRelativeId cwd pr refAbs) "include").1 })) := rfl

theorem processImports_nil (fs : FS) (cwd projectRoot nodeId fromAbs : String) (st : BState) :
    processImports fs cwd projectRoot nodeId fromAbs [] st = st := rfl

theorem processImports_cons (fs : FS) (cwd projectRoot nodeId fromAbs spec : String)
    (rest : List String) (st : BState) :
    processImports fs cwd projectRoot nodeId fromAbs (spec :: rest) st =
      (match resolveImports fs cwd fromAbs spec projectRoot with
       | none => processImports fs cwd projectRoot nodeId fromAbs rest st
       | some resolvedAbs =>
         processImports fs cwd projectRoot nodeId fromAbs rest
           (if !st.visited.contains resolvedAbs then
             { st with
               links := (ensureLink st.links nodeId
                 (toProjectRelativeId cwd projectRoot resolvedAbs) "use").1,
               queue := st.queue ++ [resolvedAbs] }
            else
             { st with
               links := (ensureLink st.links nodeId
                 (toProjectRelativeId cwd projectRoot resolvedAbs) "use").1 })) := rfl

theorem buildLoop_zero (fs : FS) (pf : String → String → Parsed)
    (cwd projectRoot : String) (st : BState) :
    buildLoop 0 fs pf cwd projectRoot st = none := rfl

theorem buildLoop_succ (g : Nat) (fs : FS) (pf : String → String → Parsed)
    (cwd projectRoot : String) (st : BState) :
    buildLoop (g + 1) fs pf cwd projectRoot st =
      (match st.queue with
       | [] => some (Except.ok st)
       | abs :: qrest =>
         if abs = "" then
           buildLoop g fs pf cwd projectRoot { st with queue := qrest }
         else if st.visited.contains abs then
           buildLoop g fs pf cwd projectRoot { st with queue := qrest }
         else
           match fs.readFileSync abs with
           | Except.error e => some (Except.error e)
           | Except.ok code =>
             buildLoop g fs pf cwd projectRoot
               (processImports fs cwd projectRoot (toProjectRelativeId cwd projectRoot abs) abs
                 (pf code abs).imports
                 (processRefs g fs pf cwd (pResolve cwd [projectRoot])
                   (toProjectRelativeId cwd projectRoot abs)
                   ((pf code abs).fileRefsAbs ++ (pf code abs).fileRefsRel ++
                    (pf code abs).assetRefsAbs ++ (pf code abs).assetRefsRel)
                   { st with
                     visited := st.visited ++ [abs],
                     nodes := (ensureNode st.nodes
                       ⟨toProjectRelativeId cwd projectRoot abs,
                        toProjectRelativeId cwd projectRoot abs,
                        (pf code abs).lines, (pf code abs).complexity,
                        (pf code abs).headerComment, none⟩).1,
                     queue := qrest }))) := rfl

/-- Eliminator of `FamStep`, for use while `FamStep` is opaque. -/
theorem FamStep_elim {fs : FS} {cwd projectRoot rid : String} {st st' : BState}
    (h : FamStep fs cwd projectRoot rid st st')
    (hrid : rid = "" ∨ ∃ n ∈ st.nodes, n.id = rid) :
    st'.visited = st.visited ∧
    (∀ q ∈ st.queue, q ∈ st'.queue) ∧
    (∀ q ∈ st'.queue, q ∈ st.queue ∨
      (fs.isFile q = true ∧ GoodId (idOf cwd projectRoot q))) ∧
    (∀ n ∈ st.nodes, ∃ n' ∈ st'.nodes, n'.id = n.id) ∧
    (∀ n' ∈ st'.nodes, (∃ n ∈ st.nodes, n'.id = n.id) ∨ (n'.id ≠ "" ∧ GoodId n'.id)) ∧
    (∀ l ∈ st'.links, l ∈ st.links ∨
      ((∃ n ∈ st'.nodes, n.id = l.source) ∧ (∃ n ∈ st'.nodes, n.id = l.target))) := h hrid

/-- Under a well-formed tree the empty string is not a file (all
recorded keys are absolute). -/
theorem isFile_empty {fs : FS} {cwd projectRoot : String} (hH : HFS fs cwd projectRoot) :
    fs.isFile "" = false := by
  cases h : fs.isFile "" with
  | false => rfl
  | true =>
    exfalso
    unfold FS.isFile at h
    obtain ⟨e, he, hpe⟩ := List.any_eq_true.mp h
    have hkey : e.1 = pNormalize "" := of_decide_eq_true hpe
    have habs := (hH e.1 (List.mem_append_left _ (List.mem_map_of_mem _ he))).1
    rw [hkey] at habs
    exact absurd habs (by decide)

/-- `jsTrim` is the identity on a good id (definition unfold). -/
theorem goodId_trim {i : String} (h : GoodId i) : jsTrim i = i := h.1

/-- A good id is not the synthetic root id. -/
theorem goodId_ne_dot {i : String} (h : GoodId i) : i ≠ "." := h.2

section BuildLoopInduction

attribute [local irreducible] pJoin pResolve pNormalize pIsAbsolute pExtname
  toProjectRelativeId jsStartsWith jsToLower jsTrim toAbsFromRelMaybe isInsideRoot
  isScriptFile idOf GoodId SKIP_NAMES ASSET_EXT_ALLOW PARSEABLE_TEXT_EXT
  MAX_DIR_DEPTH MAX_DIR_ENTRIES FS.statSync FS.readdirSync FS.readFileSync
  FS.existsSync FS.isFile FS.isDir ensureNode ensureLink resolveImports
  expandDirectoryBounded expandEntries tryParseReferencedTextFile tpRefs FamStep
  processRefs processImports buildLoop HFS

/-- `processRefs` realises the same step relation as the
directory-expansion family. -/
theorem processRefs_famStep (fs : FS) (pf : String → String → Parsed)
    (cwd projectRoot pr : String)
    (hH : HFS fs cwd projectRoot) (hpr : pr = pResolve cwd [projectRoot]) (gas : Nat)
    (nodeId : String) :
    ∀ (refs : List String) (st : BState),
      FamStep fs cwd projectRoot nodeId st (processRefs gas fs pf cwd pr nodeId refs st) := by
  intro refs
  induction refs with
  | nil =>
    intro st
    rw [processRefs_nil]
    exact FamStep_refl _ _ _ _ st
  | cons ref rest ih =>
    intro st
    rw [processRefs_cons]
    split
    · exact ih st
    · next refAbs heqa =>
      have htarm := toAbsFromRelMaybe_fixed heqa
      split
      · exact ih st
      · split
        · exact ih st
        · set refId := toProjectRelativeId cwd pr refAbs with hrI
          split
          · exact ih st
          · next heq =>
            have hgood : GoodId refId := by
              rw [hrI, hpr, idOf_resolvedRoot]
              exact goodId_of_isDir hH htarm.2 (statSync_dir_isDir heq)
            obtain ⟨hstep, ht⟩ := FamStep_addChild nodeId st
              ⟨refId, refId, 0, 0, "", some "dir"⟩ hgood "include"
            have h1 : FamStep fs cwd projectRoot nodeId
                ⟨st.visited,
                 (ensureNode st.nodes ⟨refId, refId, 0, 0, "", some "dir"⟩).1,
                 (ensureLink st.links nodeId refId "include").1, st.queue⟩
                (expandDirectoryBounded gas fs pf cwd pr refAbs refId 0
                  ⟨st.visited,
                   (ensureNode st.nodes ⟨refId, refId, 0, 0, "", some "dir"⟩).1,
                   (ensureLink st.links nodeId refId "include").1, st.queue⟩) :=
              FamStep_change_rid
                ((family_famStep fs pf cwd projectRoot pr hH hpr gas).1 refAbs refId 0 _
                  htarm.1) ht
            exact FamStep_comp hstep (FamStep_comp h1 (ih _))
          · next heq =>
            have hisfile := statSync_file_isFile heq
            have hgood : GoodId refId := by
              rw [hrI, hpr, idOf_resolvedRoot]
              exact goodId_of_isFile hH htarm.2 hisfile
            obtain ⟨hstep, ht⟩ := FamStep_addChild nodeId st
              ⟨refId, refId, 0, 0, "",
               some (if isScriptFile refAbs then "file" else "asset")⟩ hgood "include"
            have hgq : GoodId (idOf cwd projectRoot refAbs) := by
              rw [idOf_eq, ← idOf_resolvedRoot cwd projectRoot, ← hpr, ← hrI]
              exact hgood
            split
            · exact FamStep_comp hstep (FamStep_comp
                (FamStep_push
                  ⟨st.visited,
                   (ensureNode st.nodes ⟨refId, refId, 0, 0, "",
                     some (if isScriptFile refAbs then "file" else "asset")⟩).1,
                   (ensureLink st.links nodeId refId "include").1, st.queue⟩
                  hisfile hgq)
                (ih _))
            · exact FamStep_comp hstep (ih _)

theorem ImpPost_refl (fs : FS) (cwd projectRoot nodeId : String) (st : BState) :
    ImpPost fs cwd projectRoot nodeId st st :=
  ⟨rfl, rfl, fun _ h => h, fun q hq => Or.inl hq, fun l hl => Or.inl hl⟩

theorem ImpPost_trans {fs : FS} {cwd projectRoot nodeId : String} {st st1 st2 : BState}
    (h1 : ImpPost fs cwd projectRoot nodeId st st1)
    (h2 : ImpPost fs cwd projectRoot nodeId st1 st2) :
    ImpPost fs cwd projectRoot nodeId st st2 := by
  obtain ⟨v1, n1, qm1, qn1, l1⟩ := h1
  obtain ⟨v2, n2, qm2, qn2, l2⟩ := h2
  refine ⟨v2.trans v1, n2.trans n1, fun q hq => qm2 q (qm1 q hq), ?_, ?_⟩
  · intro q hq
    rcases qn2 q hq with h | h
    · exact qn1 q h
    · exact Or.inr h
  · intro l hl
    rcases l2 l hl with h | ⟨hs, hsne, htne, r, hrf, hrg, hrt, hrq⟩
    · rcases l1 l h with h' | ⟨hs, hsne, htne, r, hrf, hrg, hrt, hrq⟩
      · exact Or.inl h'
      · refine Or.inr ⟨hs, hsne, htne, r, hrf, hrg, hrt, ?_⟩
        rcases hrq with h' | h'
        · exact Or.inl (qm2 r h')
        · exact Or.inr h'
    · refine Or.inr ⟨hs, hsne, htne, r, hrf, hrg, hrt, ?_⟩
      rcases hrq with h' | h'
      · exact Or.inl h'
      · rw [v1] at h'
        exact Or.inr h'

/-- One `processImports` call satisfies `ImpPost`. -/
theorem processImports_step (fs : FS) (cwd projectRoot : String)
    (hH : HFS fs cwd projectRoot) (nodeId fromAbs : String) :
    ∀ (specs : List String) (st : BState),
      ImpPost fs cwd projectRoot nodeId st
        (processImports fs cwd projectRoot nodeId fromAbs specs st) := by
  intro specs
  induction specs with
  | nil =>
    intro st
    rw [processImports_nil]
    exact ImpPost_refl fs cwd projectRoot nodeId st
  | cons spec rest ih =>
    intro st
    rw [processImports_cons]
    split
    · exact ih st
    · next resolvedAbs heqr =>
      have hit := resolveImports_hit heqr
      have hgr : GoodId (idOf cwd projectRoot resolvedAbs) := by
        rw [idOf_eq]
        exact goodId_of_isFile hH hit.2.1 hit.2.2
      refine ImpPost_trans ?_ (ih _)
      split
      · refine ⟨rfl, rfl, fun q hq => List.mem_append_left _ hq, ?_, ?_⟩
        · intro q hq
          rcases List.mem_append.mp hq with h | h
          · exact Or.inl h
          · have hq' : q = resolvedAbs := by simpa using h
            subst hq'
            exact Or.inr ⟨hit.2.2, hgr⟩
        · intro l hl
          rcases ensureLink_new st.links nodeId
              (toProjectRelativeId cwd projectRoot resolvedAbs) "use" l hl with
            h | ⟨hs, ht, hsne, htne⟩
          · exact Or.inl h
          · refine Or.inr ⟨hs, ?_, ?_, resolvedAbs, hit.2.2, hgr, ?_, Or.inl ?_⟩
            · rw [hs]; exact hsne
            · rw [ht]; exact htne
            · rw [ht, idOf_eq]
            · exact List.mem_append_right _ (by simp)
      · next hvis =>
        refine ⟨rfl, rfl, fun q hq => hq, fun q hq => Or.inl hq, ?_⟩
        intro l hl
        rcases ensureLink_new st.links nodeId
            (toProjectRelativeId cwd projectRoot resolvedAbs) "use" l hl with
          h | ⟨hs, ht, hsne, htne⟩
        · exact Or.inl h
        · refine Or.inr ⟨hs, ?_, ?_, resolvedAbs, hit.2.2, hgr, ?_, Or.inr ?_⟩
          · rw [hs]; exact hsne
          · rw [ht]; exact htne
          · rw [ht, idOf_eq]
          · simpa using hvis

end BuildLoopInduction

theorem contains_mem {a : String} {l : List String} : l.contains a = true ↔ a ∈ l := by
  induction l with
  | nil => simp
  | cons x xs ih => simp [List.contains_cons, ih]

section MainLoopInduction

attribute [local irreducible] pJoin pResolve pNormalize pIsAbsolute pExtname
  toProjectRelativeId jsStartsWith jsToLower jsTrim toAbsFromRelMaybe isInsideRoot
  isScriptFile idOf GoodId SKIP_NAMES ASSET_EXT_ALLOW PARSEABLE_TEXT_EXT
  MAX_DIR_DEPTH MAX_DIR_ENTRIES FS.statSync FS.readdirSync FS.readFileSync
  FS.existsSync FS.isFile FS.isDir ensureNode ensureLink resolveImports
  expandDirectoryBounded expandEntries tryParseReferencedTextFile tpRefs FamStep
  processRefs processImports buildLoop HFS

/-- The breadth-first loop keeps the traversal invariants: starting from
a state whose queue, links, visited set and nodes are disciplined, it
cannot surface a read error on a fully readable tree with a real entry
file, and on success it ends with an empty queue, node-backed links and
disciplined node ids. -/
theorem buildLoop_inv (fs : FS) (pf : String → String → Parsed)
    (cwd projectRoot entryAbs : String)
    (hH : HFS fs cwd projectRoot)
    (hge : GoodId (idOf cwd projectRoot entryAbs)) (hne : entryAbs ≠ "") :
    ∀ (gas : Nat) (st : BState),
      QueueOK fs cwd projectRoot entryAbs st → LinksOK cwd projectRoot st →
      VisitedOK cwd projectRoot st → NodesOK st → LinkNZ st →
      LoopGoal fs cwd projectRoot entryAbs (buildLoop gas fs pf cwd projectRoot st) := by
  intro gas
  induction gas with
  | zero =>
    intro st _ _ _ _ _
    rw [buildLoop_zero]
    exact ⟨fun _ _ e h => Option.noConfusion h, fun st' h => Option.noConfusion h⟩
  | succ g ih =>
    intro st hQ hL hV hN hZ
    rw [buildLoop_succ]
    split
    · next hq =>
      refine ⟨fun _ _ e h => ?_, fun st' h => ?_⟩
      · exact Except.noConfusion (Option.some.inj h)
      · obtain rfl := Except.ok.inj (Option.some.inj h)
        exact ⟨hq, hL, hN⟩
    · next abs qrest hq =>
      have habs : abs ∈ st.queue := by
        rw [hq]
        exact List.mem_cons_self _ _
      have habs' := hQ abs habs
      split
      · next h0 =>
        exfalso
        rcases habs' with h | h
        · rw [h0] at h
          exact hne h.symm
        · have hf := h.1
          rw [h0, isFile_empty hH] at hf
          exact Bool.noConfusion hf
      · next h0 =>
        split
        · next hvis =>
          have hgabs : GoodId (idOf cwd projectRoot abs) := by
            rcases habs' with h2 | h2
            · rw [h2]; exact hge
            · exact h2.2
          have hL1 : LinksOK cwd projectRoot { st with queue := qrest } := by
            intro l hl
            obtain ⟨hsrc, htgt⟩ := hL l hl
            refine ⟨hsrc, ?_⟩
            rcases htgt with h | ⟨q, hqm, hqid⟩
            · exact Or.inl h
            · rw [hq] at hqm
              rcases List.mem_cons.mp hqm with h' | h'
              · subst h'
                have hmem : q ∈ st.visited := contains_mem.mp hvis
                rcases hV q hmem with h2 | ⟨n, hn, hid⟩
                · exfalso
                  rw [goodId_trim hgabs] at h2
                  exact (hZ l hl).2 (hqid.symm.trans h2)
                · exact Or.inl ⟨n, hn, by rw [hid, goodId_trim hgabs, hqid]⟩
              · exact Or.inr ⟨q, h', hqid⟩
          refine ih { st with queue := qrest } ?_ hL1 hV hN hZ
          intro q hq'
          exact hQ q (by rw [hq]; exact List.mem_cons_of_mem _ hq')
        · next hvis =>
          split
          · next e0 heq =>
            refine ⟨fun hun hfe e h => ?_, fun st' h => Except.noConfusion (Option.some.inj h)⟩
            have hfile : fs.isFile abs = true := by
              rcases habs' with h2 | h2
              · rw [h2]; exact hfe
              · exact h2.1
            obtain ⟨c, hc⟩ := readFileSync_ok hun hfile
            rw [heq] at hc
            exact Except.noConfusion hc
          · next code heq =>
            set nodeId := toProjectRelativeId cwd projectRoot abs with hnI
            set xabs : NodeRec :=
              ⟨nodeId, nodeId, (pf code abs).lines, (pf code abs).complexity,
               (pf code abs).headerComment, none⟩ with hxA
            set st3 : BState :=
              { st with
                visited := st.visited ++ [abs],
                nodes := (ensureNode st.nodes xabs).1,
                queue := qrest } with h3
            set st4 := processRefs g fs pf cwd (pResolve cwd [projectRoot]) nodeId
              ((pf code abs).fileRefsAbs ++ (pf code abs).fileRefsRel ++
               (pf code abs).assetRefsAbs ++ (pf code abs).assetRefsRel) st3 with h4
            set st5 := processImports fs cwd projectRoot nodeId abs
              (pf code abs).imports st4 with h5
            have hgabs : GoodId (idOf cwd projectRoot abs) := by
              rcases habs' with h2 | h2
              · rw [h2]; exact hge
              · exact h2.2
            have hgoodN : GoodId nodeId := by
              rw [hnI, ← idOf_eq]
              exact hgabs
            have hxid : xabs.id = nodeId := rfl
            have hrid : nodeId = "" ∨ ∃ n ∈ st3.nodes, n.id = nodeId := by
              by_cases hid0 : nodeId = ""
              · exact Or.inl hid0
              · right
                have htr : jsTrim xabs.id ≠ "" := by
                  rw [hxid, goodId_trim hgoodN]
                  exact hid0
                obtain ⟨n, hn, hid⟩ := ensureNode_present st.nodes xabs htr
                refine ⟨n, hn, ?_⟩
                rw [hid, hxid, goodId_trim hgoodN]
            have hQ3 : QueueOK fs cwd projectRoot entryAbs st3 := by
              intro q hq'
              exact hQ q (by rw [hq]; exact List.mem_cons_of_mem _ hq')
            have hN3 : NodesOK st3 := by
              intro n hn
              rcases ensureNode_new st.nodes xabs n hn with ⟨m, hm, hid⟩ | ⟨hid, hne0⟩
              · rw [hid]
                exact hN m hm
              · rw [hid, hxid, goodId_trim hgoodN]
                refine ⟨?_, goodId_ne_dot hgoodN⟩
                rw [hxid, goodId_trim hgoodN] at hne0
                exact hne0
            have hV3 : VisitedOK cwd projectRoot st3 := by
              intro v hv
              rcases List.mem_append.mp hv with h | h
              · rcases hV v h with h2 | ⟨n, hn, hid⟩
                · exact Or.inl h2
                · obtain ⟨n', hn', hid'⟩ := ensureNode_mono st.nodes xabs n hn
                  exact Or.inr ⟨n', hn', hid'.trans hid⟩
              · have hv' : v = abs := by simpa using h
                subst hv'
                by_cases hid0 : nodeId = ""
                · left
                  rw [goodId_trim hgabs, idOf_eq, ← hnI]
                  exact hid0
                · right
                  have htr : jsTrim xabs.id ≠ "" := by
                    rw [hxid, goodId_trim hgoodN]
                    exact hid0
                  obtain ⟨n, hn, hid⟩ := ensureNode_present st.nodes xabs htr
                  refine ⟨n, hn, ?_⟩
                  rw [hid, hxid, goodId_trim hgoodN, hnI, ← idOf_eq, goodId_trim hgabs]
            have hZ3 : LinkNZ st3 := fun l hl => hZ l hl
            have hL3 : LinksOK cwd projectRoot st3 := by
              intro l hl
              obtain ⟨⟨n, hn, hid⟩, htgt⟩ := hL l hl
              obtain ⟨n', hn', hid'⟩ := ensureNode_mono st.nodes xabs n hn
              refine ⟨⟨n', hn', hid'.trans hid⟩, ?_⟩
              rcases htgt with ⟨n2, hn2, hid2⟩ | ⟨q, hqm, hqid⟩
              · obtain ⟨n2', hn2', hid2'⟩ := ensureNode_mono st.nodes xabs n2 hn2
                exact Or.inl ⟨n2', hn2', hid2'.trans hid2⟩
              · rw [hq] at hqm
                rcases List.mem_cons.mp hqm with h' | h'
                · subst h'
                  have hne0 : nodeId ≠ "" := by
                    intro hid0
                    refine (hZ l hl).2 ?_
                    rw [← hqid, idOf_eq, ← hnI]
                    exact hid0
                  have htr : jsTrim xabs.id ≠ "" := by
                    rw [hxid, goodId_trim hgoodN]
                    exact hne0
                  obtain ⟨n2, hn2, hid2⟩ := ensureNode_present st.nodes xabs htr
                  refine Or.inl ⟨n2, hn2, ?_⟩
                  rw [hid2, hxid, goodId_trim hgoodN, hnI, ← idOf_eq, hqid]
                · exact Or.inr ⟨q, h', hqid⟩
            have hF := processRefs_famStep fs pf cwd projectRoot
              (pResolve cwd [projectRoot]) hH rfl g nodeId
              ((pf code abs).fileRefsAbs ++ (pf code abs).fileRefsRel ++
               (pf code abs).assetRefsAbs ++ (pf code abs).assetRefsRel) st3
            obtain ⟨hv4, hqm4, hqn4, hnm4, hnn4, hl4⟩ := FamStep_elim hF hrid
            have hQ4 : QueueOK fs cwd projectRoot entryAbs st4 := by
              intro q hq'
              rcases hqn4 q hq' with h | h
              · exact hQ3 q h
              · exact Or.inr h
            have hN4 : NodesOK st4 := by
              intro n hn
              rcases hnn4 n hn with ⟨m, hm, hid⟩ | ⟨hne0, hgd⟩
              · rw [hid]
                exact hN3 m hm
              · exact ⟨hne0, goodId_ne_dot hgd⟩
            have hV4 : VisitedOK cwd projectRoot st4 := by
              intro v hv
              rw [hv4] at hv
              rcases hV3 v hv with h2 | ⟨n, hn, hid⟩
              · exact Or.inl h2
              · obtain ⟨n', hn', hid'⟩ := hnm4 n hn
                exact Or.inr ⟨n', hn', hid'.trans hid⟩
            have hL4 : LinksOK cwd projectRoot st4 := by
              intro l hl
              rcases hl4 l hl with h | ⟨hsrc, htgt⟩
              · obtain ⟨⟨n, hn, hid⟩, htgt⟩ := hL3 l h
                obtain ⟨n', hn', hid'⟩ := hnm4 n hn
                refine ⟨⟨n', hn', hid'.trans hid⟩, ?_⟩
                rcases htgt with ⟨n2, hn2, hid2⟩ | ⟨q, hqm, hqid⟩
                · obtain ⟨n2', hn2', hid2'⟩ := hnm4 n2 hn2
                  exact Or.inl ⟨n2', hn2', hid2'.trans hid2⟩
                · exact Or.inr ⟨q, hqm4 q hqm, hqid⟩
              · exact ⟨hsrc, Or.inl htgt⟩
            have hZ4 : LinkNZ st4 := by
              intro l hl
              rcases hl4 l hl with h | ⟨⟨n1, hn1, hid1⟩, n2, hn2, hid2⟩
              · exact hZ3 l h
              · exact ⟨by rw [← hid1]; exact (hN4 n1 hn1).1,
                  by rw [← hid2]; exact (hN4 n2 hn2).1⟩
            have hrid4 : nodeId = "" ∨ ∃ n ∈ st4.nodes, n.id = nodeId := by
              rcases hrid with h | ⟨n, hn, hid⟩
              · exact Or.inl h
              · obtain ⟨n', hn', hid'⟩ := hnm4 n hn
                exact Or.inr ⟨n', hn', hid'.trans hid⟩
            obtain ⟨hv5, hn5, hqm5, hqn5, hl5⟩ :=
              processImports_step fs cwd projectRoot hH nodeId abs (pf code abs).imports st4
            have hQ5 : QueueOK fs cwd projectRoot entryAbs st5 := by
              intro q hq'
              rcases hqn5 q hq' with h | h
              · exact hQ4 q h
              · exact Or.inr h
            have hN5 : NodesOK st5 := by
              intro n hn
              rw [hn5] at hn
              exact hN4 n hn
            have hV5 : VisitedOK cwd projectRoot st5 := by
              intro v hv
              rw [hv5] at hv
              rcases hV4 v hv with h2 | ⟨n, hn, hid⟩
              · exact Or.inl h2
              · exact Or.inr ⟨n, by rw [hn5]; exact hn, hid⟩
            have hZ5 : LinkNZ st5 := by
              intro l hl
              rcases hl5 l hl with h | ⟨_, hsne, htne, _⟩
              · exact hZ4 l h
              · exact ⟨hsne, htne⟩
            have hL5 : LinksOK cwd projectRoot st5 := by
              intro l hl
              rcases hl5 l hl with h | ⟨hsrc, hsne, htne, r, hrf, hrg, hrt, hrq⟩
              · obtain ⟨⟨n, hn, hid⟩, htgt⟩ := hL4 l h
                refine ⟨⟨n, by rw [hn5]; exact hn, hid⟩, ?_⟩
                rcases htgt with ⟨n2, hn2, hid2⟩ | ⟨q, hqm, hqid⟩
                · exact Or.inl ⟨n2, by rw [hn5]; exact hn2, hid2⟩
                · exact Or.inr ⟨q, hqm5 q hqm, hqid⟩
              · constructor
                · rcases hrid4 with hid0 | ⟨n, hn, hid⟩
                  · exact absurd (hsrc.trans hid0) hsne
                  · exact ⟨n, by rw [hn5]; exact hn, by rw [hid, hsrc]⟩
                · rcases hrq with hrq | hrv
                  · exact Or.inr ⟨r, hrq, hrt.symm⟩
                  · have hrv3 : r ∈ st3.visited := by
                      rw [← hv4]
                      exact contains_mem.mp hrv
                    have hrv' : r ∈ st.visited ++ [abs] := hrv3
                    rcases List.mem_append.mp hrv' with h | h
                    · rcases hV r h with h2 | ⟨n, hn, hid⟩
                      · exfalso
                        rw [goodId_trim hrg] at h2
                        exact htne (hrt.trans h2)
                      · obtain ⟨n3, hn3, hid3⟩ := ensureNode_mono st.nodes xabs n hn
                        obtain ⟨n4, hn4, hid4⟩ := hnm4 n3 hn3
                        refine Or.inl ⟨n4, by rw [hn5]; exact hn4, ?_⟩
                        rw [hid4, hid3, hid, goodId_trim hrg, ← hrt]
                    · have hr' : r = abs := by simpa using h
                      subst hr'
                      have htid : l.target = nodeId := by
                        rw [hrt, idOf_eq, ← hnI]
                      rcases hrid4 with hid0 | ⟨n, hn, hid⟩
                      · exact absurd (htid.trans hid0) htne
                      · exact Or.inl ⟨n, by rw [hn5]; exact hn, by rw [hid, htid]⟩
            exact ih st5 hQ5 hL5 hV5 hN5 hZ5

end MainLoopInduction

/-! ## Skeleton-pass support lemmas -/

theorem ensureNode_length (nodes : List NodeRec) (x : NodeRec) :
    nodes.length ≤ (ensureNode nodes x).1.length := by
  by_cases h0 : jsTrim x.id = ""
  · simp [ensureNode, h0]
  · by_cases hhas : nodes.any (fun n => n.id = jsTrim x.id) = true
    · simp [ensureNode, h0, hhas]
    · simp [ensureNode, h0, hhas]

theorem mergeNode_kind {n : NodeRec} (x : NodeRec) (hk : kindStr n.kind ≠ "") :
    (mergeNode n x).kind = n.kind := by
  unfold mergeNode
  simp [hk]

theorem ensureNode_keep_kind (nodes : List NodeRec) (x : NodeRec) {n : NodeRec}
    (hn : n ∈ nodes) (hk : kindStr n.kind ≠ "") :
    ∃ n' ∈ (ensureNode nodes x).1, n'.id = n.id ∧ n'.kind = n.kind := by
  unfold ensureNode
  by_cases h0 : jsTrim x.id = ""
  · rw [if_pos h0]
    exact ⟨n, hn, rfl, rfl⟩
  · rw [if_neg h0]
    by_cases hhas : nodes.any (fun m => m.id = jsTrim x.id) = true
    · simp only [hhas, if_true]
      refine ⟨if n.id = jsTrim x.id then mergeNode n x else n, List.mem_map_of_mem _ hn, ?_⟩
      by_cases hid : n.id = jsTrim x.id
      · simp [hid, mergeNode_id, mergeNode_kind x hk]
      · simp [hid]
    · simp only [hhas, Bool.false_eq_true, if_false]
      exact ⟨n, List.mem_append_left _ hn, rfl, rfl⟩

theorem ensureNode_fresh (nodes : List NodeRec) (x : NodeRec)
    (hno : nodes.any (fun m => m.id = jsTrim x.id) = false) (h0 : jsTrim x.id ≠ "") :
    (ensureNode nodes x).1 = nodes ++ [normalizeNode (jsTrim x.id) x] := by
  unfold ensureNode
  rw [if_neg h0]
  simp [hno]

theorem SkelMeta_refl (st : BState) : SkelMeta st st :=
  ⟨Nat.le.refl, fun n hn _ => ⟨n, hn, rfl, rfl⟩⟩

theorem SkelMeta_trans {st st1 st2 : BState} (h1 : SkelMeta st st1) (h2 : SkelMeta st1 st2) :
    SkelMeta st st2 := by
  refine ⟨Nat.le_trans h1.1 h2.1, ?_⟩
  intro n hn hk
  obtain ⟨n', hn', hid, hkd⟩ := h1.2 n hn hk
  obtain ⟨n'', hn'', hid', hkd'⟩ := h2.2 n' hn' (by rw [hkd]; exact hk)
  exact ⟨n'', hn'', hid'.trans hid, hkd'.trans hkd⟩

theorem SkelMeta_ensure (st : BState) (x : NodeRec) (st' : BState)
    (hn : st'.nodes = (ensureNode st.nodes x).1) : SkelMeta st st' := by
  constructor
  · rw [hn]
    exact ensureNode_length st.nodes x
  · intro n hnn hk
    rw [hn]
    exact ensureNode_keep_kind st.nodes x hnn hk

theorem kindStr_root_ne : kindStr (some "root") ≠ "" := by decide

theorem jsTrim_dot : jsTrim "." = "." := by decide

theorem dot_ne_empty : ("." : String) ≠ "" := by decide

theorem rootNode_id : (normalizeNode "." ⟨".", ".", 0, 0, "", some "root"⟩).id = "." := rfl

theorem rootNode_kind :
    (normalizeNode "." ⟨".", ".", 0, 0, "", some "root"⟩).kind = some "root" := by
  decide

theorem linksNB_of_ok {cwd projectRoot : String} {st : BState}
    (hL : LinksOK cwd projectRoot st) (hq : st.queue = []) : LinksNB st := by
  intro l hl
  obtain ⟨hsrc, htgt⟩ := hL l hl
  refine ⟨hsrc, ?_⟩
  rcases htgt with h | ⟨q, hqm, _⟩
  · exact h
  · rw [hq] at hqm
    exact absurd hqm (List.not_mem_nil q)

/-! ## Skeleton unfolding lemmas -/

theorem skeletonFiles_nil (fs : FS) (cwd pr dirId dirAbs : String) (k : Nat) (st : BState) :
    skeletonFiles fs cwd pr dirId dirAbs [] k st = st := rfl

theorem skeletonFiles_cons (fs : FS) (cwd pr dirId dirAbs name : String)
    (rest : List String) (k : Nat) (st : BState) :
    skeletonFiles fs cwd pr dirId dirAbs (name :: rest) k st =
      (if MAX_SKELETON_FILES_PER_DIR ≤ k then st
       else if name = "" then skeletonFiles fs cwd pr dirId dirAbs rest k st
       else if SKIP_NAMES.contains name then
         skeletonFiles fs cwd pr dirId dirAbs rest k st
       else if jsStartsWith name "." then
         skeletonFiles fs cwd pr dirId dirAbs rest k st
       else
         match fs.statSync (pJoin [dirAbs, name]) with
         | some StatKind.file =>
           if !(name = "Dockerfile" || name = "Makefile" || name = "LICENSE") &&
               jsToLower (pExtname name) ≠ "" &&
               !ASSET_EXT_ALLOW.contains (jsToLower (pExtname name)) then
             skeletonFiles fs cwd pr dirId dirAbs rest k st
           else
             skeletonFiles fs cwd pr dirId dirAbs rest (k + 1)
               { st with
                 nodes := (ensureNode st.nodes
                   ⟨toProjectRelativeId cwd pr (pJoin [dirAbs, name]),
                    toProjectRelativeId cwd pr (pJoin [dirAbs, name]), 0, 0, "",
                    some (if isScriptFile (pJoin [dirAbs, name]) then "file" else "asset")⟩).1,
                 links := (ensureLink st.links dirId
                   (toProjectRelativeId cwd pr (pJoin [dirAbs, name])) "include").1 }
         | some StatKind.dir => skeletonFiles fs cwd pr dirId dirAbs rest k st
         | none => skeletonFiles fs cwd pr dirId dirAbs rest k st) := rfl

theorem skeletonDirs_nil (fs : FS) (cwd pr : String) (k : Nat) (st : BState) :
    skeletonDirs fs cwd pr [] k st = st := rfl

theorem skeletonDirs_cons (fs : FS) (cwd pr dirName : String)
    (rest : List String) (k : Nat) (st : BState) :
    skeletonDirs fs cwd pr (dirName :: rest) k st =
      (if MAX_SKELETON_DIRS ≤ k then st
       else if dirName = "" || SKIP_NAMES.contains dirName then
         skeletonDirs fs cwd pr rest k st
       else
         match fs.statSync (pJoin [pr, dirName]) with
         | some StatKind.dir =>
           skeletonDirs fs cwd pr rest (k + 1)
             (skeletonFiles fs cwd pr
               (toProjectRelativeId cwd pr (pJoin [pr, dirName]))
               (pJoin [pr, dirName])
               (fs.readdirSync (pJoin [pr, dirName])) 0
               { st with
                 nodes := (ensureNode st.nodes
                   ⟨toProjectRelativeId cwd pr (pJoin [pr, dirName]),
                    toProjectRelativeId cwd pr (pJoin [pr, dirName]),
                    0, 0, "", some "dir"⟩).1,
                 links := (ensureLink st.links "."
                   (toProjectRelativeId cwd pr (pJoin [pr, dirName])) "include").1 })
         | some StatKind.file => skeletonDirs fs cwd pr rest k st
         | none => skeletonDirs fs cwd pr rest k st) := rfl

theorem skeletonTop_nil (fs : FS) (cwd pr : String) (st : BState) :
    skeletonTop fs cwd pr [] st = st := rfl

theorem skeletonTop_cons (fs : FS) (cwd pr name : String)
    (rest : List String) (st : BState) :
    skeletonTop fs cwd pr (name :: rest) st =
      (if name = "" then skeletonTop fs cwd pr rest st
       else
         match fs.statSync (pJoin [pr, name]) with
         | some StatKind.file =>
           skeletonTop fs cwd pr rest
             { st with
               nodes := (ensureNode st.nodes
                 ⟨toProjectRelativeId cwd pr (pJoin [pr, name]),
                  toProjectRelativeId cwd pr (pJoin [pr, name]),
                  0, 0, "", some "asset"⟩).1,
               links := (ensureLink st.links "."
                 (toProjectRelativeId cwd pr (pJoin [pr, name])) "include").1 }
         | some StatKind.dir => skeletonTop fs cwd pr rest st
         | none => skeletonTop fs cwd pr rest st) := rfl

theorem discoverProjectSkeleton_eq (fs : FS) (cwd pr : String) (st : BState) :
    discoverProjectSkeleton fs cwd pr st =
      skeletonTop fs cwd pr topFiles
        (skeletonDirs fs cwd pr preferredDirs 0
          { st with nodes := (ensureNode st.nodes ⟨".", ".", 0, 0, "", some "root"⟩).1 }) := rfl

section SkeletonInduction

attribute [local irreducible] pJoin pResolve pNormalize pIsAbsolute pExtname
  toProjectRelativeId jsStartsWith jsToLower jsTrim toAbsFromRelMaybe isInsideRoot
  isScriptFile idOf GoodId SKIP_NAMES ASSET_EXT_ALLOW PARSEABLE_TEXT_EXT
  MAX_DIR_DEPTH MAX_DIR_ENTRIES MAX_SKELETON_DIRS MAX_SKELETON_FILES_PER_DIR
  FS.statSync FS.readdirSync FS.readFileSync
  FS.existsSync FS.isFile FS.isDir ensureNode ensureLink resolveImports
  expandDirectoryBounded expandEntries tryParseReferencedTextFile tpRefs FamStep
  processRefs processImports buildLoop HFS preferredDirs topFiles
  skeletonFiles skeletonDirs skeletonTop discoverProjectSkeleton
  mergeNode normalizeNode kindStr

/-- `skeletonFiles` realises the family step relation for the directory
node it attaches files to. -/
theorem skeletonFiles_famStep (fs : FS) (cwd projectRoot pr : String)
    (hH : HFS fs cwd projectRoot) (hpr : pr = pResolve cwd [projectRoot])
    (dirId dirAbs : String) (habs : pIsAbsolute dirAbs = true) :
    ∀ (names : List String) (k : Nat) (st : BState),
      FamStep fs cwd projectRoot dirId st (skeletonFiles fs cwd pr dirId dirAbs names k st) := by
  intro names
  induction names with
  | nil =>
    intro k st
    rw [skeletonFiles_nil]
    exact FamStep_refl _ _ _ _ st
  | cons name rest ih =>
    intro k st
    rw [skeletonFiles_cons]
    split
    · exact FamStep_refl _ _ _ _ st
    · split
      · exact ih _ st
      · split
        · exact ih _ st
        · split
          · exact ih _ st
          · set childAbs := pJoin [dirAbs, name] with hcA
            set childId := toProjectRelativeId cwd pr childAbs with hcI
            have hjoin := pJoin_abs_fixed habs [name]
            rw [← hcA] at hjoin
            split
            · next heq =>
              split
              · exact ih _ st
              · have hisfile := statSync_file_isFile heq
                have hgood : GoodId childId := by
                  rw [hcI, hpr, idOf_resolvedRoot]
                  exact goodId_of_isFile hH hjoin.2 hisfile
                obtain ⟨hstep, ht⟩ := FamStep_addChild dirId st
                  ⟨childId, childId, 0, 0, "",
                   some (if isScriptFile childAbs then "file" else "asset")⟩ hgood "include"
                exact FamStep_comp hstep (ih _ _)
            · exact ih _ st
            · exact ih _ st

/-- `skeletonDirs` realises the family step relation for the synthetic
root id. -/
theorem skeletonDirs_famStep (fs : FS) (cwd projectRoot pr : String)
    (hH : HFS fs cwd projectRoot) (hpr : pr = pResolve cwd [projectRoot]) :
    ∀ (names : List String) (k : Nat) (st : BState),
      FamStep fs cwd projectRoot "." st (skeletonDirs fs cwd pr names k st) := by
  have habs_pr : pIsAbsolute pr = true := by
    rw [hpr]
    exact pResolve_abs _ _
  intro names
  induction names with
  | nil =>
    intro k st
    rw [skeletonDirs_nil]
    exact FamStep_refl _ _ _ _ st
  | cons dirName rest ih =>
    intro k st
    rw [skeletonDirs_cons]
    split
    · exact FamStep_refl _ _ _ _ st
    · split
      · exact ih _ st
      · set dirAbs := pJoin [pr, dirName] with hdA
        set dirId := toProjectRelativeId cwd pr dirAbs with hdI
        have hjoin := pJoin_abs_fixed habs_pr [dirName]
        rw [← hdA] at hjoin
        split
        · next heq =>
          have hgood : GoodId dirId := by
            rw [hdI, hpr, idOf_resolvedRoot]
            exact goodId_of_isDir hH hjoin.2 (statSync_dir_isDir heq)
          obtain ⟨hstep, ht⟩ := FamStep_addChild "." st
            ⟨dirId, dirId, 0, 0, "", some "dir"⟩ hgood "include"
          have h1 : FamStep fs cwd projectRoot "."
              ⟨st.visited,
               (ensureNode st.nodes ⟨dirId, dirId, 0, 0, "", some "dir"⟩).1,
               (ensureLink st.links "." dirId "include").1, st.queue⟩
              (skeletonFiles fs cwd pr dirId dirAbs (fs.readdirSync dirAbs) 0
                ⟨st.visited,
                 (ensureNode st.nodes ⟨dirId, dirId, 0, 0, "", some "dir"⟩).1,
                 (ensureLink st.links "." dirId "include").1, st.queue⟩) :=
            FamStep_change_rid
              (skeletonFiles_famStep fs cwd projectRoot pr hH hpr dirId dirAbs hjoin.1
                (fs.readdirSync dirAbs) 0 _) ht
          exact FamStep_comp hstep (FamStep_comp h1 (ih _ _))
        · exact ih _ st
        · exact ih _ st

/-- `skeletonTop` realises the family step relation for the synthetic
root id. -/
theorem skeletonTop_famStep (fs : FS) (cwd projectRoot pr : String)
    (hH : HFS fs cwd projectRoot) (hpr : pr = pResolve cwd [projectRoot]) :
    ∀ (names : List String) (st : BState),
      FamStep fs cwd projectRoot "." st (skeletonTop fs cwd pr names st) := by
  have habs_pr : pIsAbsolute pr = true := by
    rw [hpr]
    exact pResolve_abs _ _
  intro names
  induction names with
  | nil =>
    intro st
    rw [skeletonTop_nil]
    exact FamStep_refl _ _ _ _ st
  | cons name rest ih =>
    intro st
    rw [skeletonTop_cons]
    split
    · exact ih st
    · set topAbs := pJoin [pr, name] with htA
      set topId := toProjectRelativeId cwd pr topAbs with htI
      have hjoin := pJoin_abs_fixed habs_pr [name]
      rw [← htA] at hjoin
      split
      · next heq =>
        have hgood : GoodId topId := by
          rw [htI, hpr, idOf_resolvedRoot]
          exact goodId_of_isFile hH hjoin.2 (statSync_file_isFile heq)
        obtain ⟨hstep, ht⟩ := FamStep_addChild "." st
          ⟨topId, topId, 0, 0, "", some "asset"⟩ hgood "include"
        exact FamStep_comp hstep (ih _)
      · exact ih st
      · exact ih st

/-- Skeleton bookkeeping: `skeletonFiles` keeps the node count and any
kinded node. -/
theorem skeletonFiles_meta (fs : FS) (cwd pr dirId dirAbs : String) :
    ∀ (names : List String) (k : Nat) (st : BState),
      SkelMeta st (skeletonFiles fs cwd pr dirId dirAbs names k st) := by
  intro names
  induction names with
  | nil =>
    intro k st
    rw [skeletonFiles_nil]
    exact SkelMeta_refl st
  | cons name rest ih =>
    intro k st
    rw [skeletonFiles_cons]
    split
    · exact SkelMeta_refl st
    · split
      · exact ih _ st
      · split
        · exact ih _ st
        · split
          · exact ih _ st
          · split
            · split
              · exact ih _ st
              · exact SkelMeta_trans (SkelMeta_ensure st _ _ rfl) (ih _ _)
            · exact ih _ st
            · exact ih _ st

/-- Skeleton bookkeeping: `skeletonDirs` keeps the node count and any
kinded node. -/
theorem skeletonDirs_meta (fs : FS) (cwd pr : String) :
    ∀ (names : List String) (k : Nat) (st : BState),
      SkelMeta st (skeletonDirs fs cwd pr names k st) := by
  intro names
  induction names with
  | nil =>
    intro k st
    rw [skeletonDirs_nil]
    exact SkelMeta_refl st
  | cons dirName rest ih =>
    intro k st
    rw [skeletonDirs_cons]
    split
    · exact SkelMeta_refl st
    · split
      · exact ih _ st
      · split
        · exact SkelMeta_trans (SkelMeta_ensure st _ _ rfl)
            (SkelMeta_trans (skeletonFiles_meta fs cwd pr _ _ _ _ _) (ih _ _))
        · exact ih _ st
        · exact ih _ st

/-- Skeleton bookkeeping: `skeletonTop` keeps the node count and any
kinded node. -/
theorem skeletonTop_meta (fs : FS) (cwd pr : String) :
    ∀ (names : List String) (st : BState),
      SkelMeta st (skeletonTop fs cwd pr names st) := by
  intro names
  induction names with
  | nil =>
    intro st
    rw [skeletonTop_nil]
    exact SkelMeta_refl st
  | cons name rest ih =>
    intro st
    rw [skeletonTop_cons]
    split
    · exact ih st
    · split
      · exact SkelMeta_trans (SkelMeta_ensure st _ _ rfl) (ih _)
      · exact ih st
      · exact ih st

/-- The skeleton pass on a dot-free, link-disciplined state: link
endpoints stay node-backed, a root node of kind `"root"` appears, and
the node count strictly grows. -/
theorem discoverProjectSkeleton_props (fs : FS) (cwd projectRoot pr : String)
    (hH : HFS fs cwd projectRoot) (hpr : pr = pResolve cwd [projectRoot]) (st : BState)
    (hnodot : ∀ n ∈ st.nodes, n.id ≠ ".") (hnb : LinksNB st) :
    LinksNB (discoverProjectSkeleton fs cwd pr st) ∧
    (∃ n ∈ (discoverProjectSkeleton fs cwd pr st).nodes,
      n.id = "." ∧ n.kind = some "root") ∧
    st.nodes.length + 1 ≤ (discoverProjectSkeleton fs cwd pr st).nodes.length := by
  rw [discoverProjectSkeleton_eq]
  have hany : st.nodes.any (fun m => m.id = jsTrim ".") = false := by
    cases hA : st.nodes.any (fun m => m.id = jsTrim ".") with
    | false => rfl
    | true =>
      exfalso
      obtain ⟨n, hn, hpn⟩ := List.any_eq_true.mp hA
      have hid : n.id = jsTrim "." := of_decide_eq_true hpn
      rw [jsTrim_dot] at hid
      exact hnodot n hn hid
  have h0dot : jsTrim "." ≠ "" := by
    rw [jsTrim_dot]
    exact dot_ne_empty
  have hfresh : (ensureNode st.nodes ⟨".", ".", 0, 0, "", some "root"⟩).1 =
      st.nodes ++ [normalizeNode (jsTrim ".") ⟨".", ".", 0, 0, "", some "root"⟩] :=
    ensureNode_fresh st.nodes ⟨".", ".", 0, 0, "", some "root"⟩ hany h0dot
  rw [jsTrim_dot] at hfresh
  have hdot0 : ∃ n ∈ (ensureNode st.nodes ⟨".", ".", 0, 0, "", some "root"⟩).1,
      n.id = "." ∧ n.kind = some "root" := by
    rw [hfresh]
    exact ⟨normalizeNode "." ⟨".", ".", 0, 0, "", some "root"⟩,
      List.mem_append_right _ (List.mem_singleton.mpr rfl), rootNode_id, rootNode_kind⟩
  have hrid0 : ("." : String) = "" ∨
      ∃ n ∈ ({ st with
        nodes := (ensureNode st.nodes ⟨".", ".", 0, 0, "", some "root"⟩).1 } : BState).nodes,
        n.id = "." := by
    right
    obtain ⟨n, hn, hid, _⟩ := hdot0
    exact ⟨n, hn, hid⟩
  obtain ⟨_, _, _, hnm1, _, hl1⟩ := FamStep_elim
    (skeletonDirs_famStep fs cwd projectRoot pr hH hpr preferredDirs 0
      { st with nodes := (ensureNode st.nodes ⟨".", ".", 0, 0, "", some "root"⟩).1 }) hrid0
  have hmeta1 := skeletonDirs_meta fs cwd pr preferredDirs 0
    { st with nodes := (ensureNode st.nodes ⟨".", ".", 0, 0, "", some "root"⟩).1 }
  have hdot1 : ∃ n ∈ (skeletonDirs fs cwd pr preferredDirs 0
      { st with
        nodes := (ensureNode st.nodes ⟨".", ".", 0, 0, "", some "root"⟩).1 }).nodes,
      n.id = "." ∧ n.kind = some "root" := by
    obtain ⟨n, hn, hid, hkd⟩ := hdot0
    obtain ⟨n', hn', hid', hkd'⟩ := hmeta1.2 n hn (by rw [hkd]; exact kindStr_root_ne)
    exact ⟨n', hn', hid'.trans hid, hkd'.trans hkd⟩
  have hrid1 : ("." : String) = "" ∨
      ∃ n ∈ (skeletonDirs fs cwd pr preferredDirs 0
        { st with
          nodes := (ensureNode st.nodes ⟨".", ".", 0, 0, "", some "root"⟩).1 }).nodes,
        n.id = "." := by
    right
    obtain ⟨n, hn, hid, _⟩ := hdot1
    exact ⟨n, hn, hid⟩
  obtain ⟨_, _, _, hnm2, _, hl2⟩ := FamStep_elim
    (skeletonTop_famStep fs cwd projectRoot pr hH hpr topFiles
      (skeletonDirs fs cwd pr preferredDirs 0
        { st with
          nodes := (ensureNode st.nodes ⟨".", ".", 0, 0, "", some "root"⟩).1 })) hrid1
  have hmeta2 := skeletonTop_meta fs cwd pr topFiles
    (skeletonDirs fs cwd pr preferredDirs 0
      { st with nodes := (ensureNode st.nodes ⟨".", ".", 0, 0, "", some "root"⟩).1 })
  refine ⟨?_, ?_, ?_⟩
  · intro l hl
    rcases hl2 l hl with h | hns
    · rcases hl1 l h with h' | ⟨⟨n1, hn1, hid1⟩, n2, hn2, hid2⟩
      · obtain ⟨⟨n1, hn1, hid1⟩, n2, hn2, hid2⟩ := hnb l h'
        have hn1' : n1 ∈ ({ st with
            nodes := (ensureNode st.nodes ⟨".", ".", 0, 0, "", some "root"⟩).1 } : BState).nodes := by
          rw [hfresh]
          exact List.mem_append_left _ hn1
        have hn2' : n2 ∈ ({ st with
            nodes := (ensureNode st.nodes ⟨".", ".", 0, 0, "", some "root"⟩).1 } : BState).nodes := by
          rw [hfresh]
          exact List.mem_append_left _ hn2
        obtain ⟨m1, hm1, hmid1⟩ := hnm1 n1 hn1'
        obtain ⟨m1', hm1', hmid1'⟩ := hnm2 m1 hm1
        obtain ⟨m2, hm2, hmid2⟩ := hnm1 n2 hn2'
        obtain ⟨m2', hm2', hmid2'⟩ := hnm2 m2 hm2
        exact ⟨⟨m1', hm1', (hmid1'.trans hmid1).trans hid1⟩,
          m2', hm2', (hmid2'.trans hmid2).trans hid2⟩
      · obtain ⟨m1, hm1, hmid1⟩ := hnm2 n1 hn1
        obtain ⟨m2, hm2, hmid2⟩ := hnm2 n2 hn2
        exact ⟨⟨m1, hm1, hmid1.trans hid1⟩, m2, hm2, hmid2.trans hid2⟩
    · exact hns
  · obtain ⟨n, hn, hid, hkd⟩ := hdot1
    obtain ⟨n', hn', hid', hkd'⟩ := hmeta2.2 n hn (by rw [hkd]; exact kindStr_root_ne)
    exact ⟨n', hn', hid'.trans hid, hkd'.trans hkd⟩
  · have hlen0 : st.nodes.length + 1 =
        (ensureNode st.nodes ⟨".", ".", 0, 0, "", some "root"⟩).1.length := by
      rw [hfresh]
      simp
    rw [hlen0]
    exact Nat.le_trans hmeta1.1 hmeta2.1

end SkeletonInduction

/-! ## Build-level support lemmas -/

/-- First step of the loop from the initial one-element queue. -/
theorem buildLoop_start (g : Nat) (fs : FS) (pf : String → String → Parsed)
    (cwd projectRoot entryAbs : String) :
    buildLoop (g + 1) fs pf cwd projectRoot ⟨[], [], [], [entryAbs]⟩ =
      (if entryAbs = "" then buildLoop g fs pf cwd projectRoot ⟨[], [], [], []⟩
       else
         match fs.readFileSync entryAbs with
         | Except.error e => some (Except.error e)
         | Except.ok code =>
           buildLoop g fs pf cwd projectRoot
             (processImports fs cwd projectRoot (toProjectRelativeId cwd projectRoot entryAbs)
               entryAbs (pf code entryAbs).imports
               (processRefs g fs pf cwd (pResolve cwd [projectRoot])
                 (toProjectRelativeId cwd projectRoot entryAbs)
                 ((pf code entryAbs).fileRefsAbs ++ (pf code entryAbs).fileRefsRel ++
                  (pf code entryAbs).assetRefsAbs ++ (pf code entryAbs).assetRefsRel)
                 ⟨[entryAbs],
                  (ensureNode []
                    ⟨toProjectRelativeId cwd projectRoot entryAbs,
                     toProjectRelativeId cwd projectRoot entryAbs,
                     (pf code entryAbs).lines, (pf code entryAbs).complexity,
                     (pf code entryAbs).headerComment, none⟩).1, [], []⟩))) := rfl

/-- The skeleton gate preserves node-backed link endpoints. -/
theorem buildFinish_nb (fs : FS) (cwd projectRoot : String)
    (hH : HFS fs cwd projectRoot) (st : BState)
    (hnb : LinksNB st) (hnodot : ∀ n ∈ st.nodes, n.id ≠ ".") :
    LinksNB (buildFinish fs cwd projectRoot st) := by
  unfold buildFinish
  split
  · exact (discoverProjectSkeleton_props fs cwd projectRoot (pResolve cwd [projectRoot])
      hH rfl st hnodot hnb).1
  · exact hnb






/-- A successful `resolveWithExtensions` hit is one of the candidates it
considers. -/
theorem rw_hit_mem_candidates {fs : FS} {base hit : String}
    (h : resolveWithExtensions fs base = some hit) : hit ∈ rwCandidates fs base := by
  unfold resolveWithExtensions at h
  unfold rwCandidates
  by_cases h1 : (pExtname base ≠ "" && existsFile fs base) = true
  · rw [if_pos h1] at h
    injection h with h
    subst h
    have hx : pExtname base ≠ "" := by
      rw [Bool.and_eq_true] at h1
      exact of_decide_eq_true h1.1
    rw [if_pos hx]
    exact List.mem_append_left _ (List.mem_singleton.mpr rfl)
  · rw [if_neg h1] at h
    cases hby : rwByExt fs base with
    | some c =>
      rw [hby] at h
      injection h with h
      subst h
      obtain ⟨hx, hmem⟩ := rwByExt_hit hby
      rw [if_neg (by simp [hx])]
      exact List.mem_append_left _ hmem
    | none =>
      rw [hby] at h
      obtain ⟨hd, hmem⟩ := rwByIndex_hit h
      refine List.mem_append_right _ ?_
      rw [if_pos hd]
      exact hmem

/-- If every candidate under every public root lies outside the root,
the root-absolute loop fails. -/
theorem tryPublicRoots_none (fs : FS) (cwd rootAbs relWeb : String) (roots : List String)
    (h : ∀ pr ∈ roots, ∀ c ∈ rwCandidates fs (pResolve cwd [pr, relWeb]),
      isInsideRoot cwd rootAbs c = false) :
    tryPublicRoots fs cwd rootAbs relWeb roots = none := by
  induction roots with
  | nil => rfl
  | cons pr rest ih =>
    have hrest : ∀ pr' ∈ rest, ∀ c ∈ rwCandidates fs (pResolve cwd [pr', relWeb]),
        isInsideRoot cwd rootAbs c = false := fun pr' hpr' => h pr' (List.mem_cons_of_mem _ hpr')
    simp only [tryPublicRoots]
    cases hrw : resolveWithExtensions fs (pResolve cwd [pr, relWeb]) with
    | none =>
      simp only [hrw]
      exact ih hrest
    | some hit =>
      have hout := h pr (List.mem_cons_self _ _) hit (rw_hit_mem_candidates hrw)
      simp only [hrw, hout, Bool.false_eq_true, if_false]
      exact ih hrest

/-- C1.  If every candidate path the resolver considers lies outside
`projectRoot`, then `resolveImports` returns `null`, even when a
candidate exists on disk. -/
theorem resolveImports_no_escape (fs : FS) (cwd fromAbs spec projectRoot : String)
    (h : ∀ c ∈ resolverCandidates fs cwd fromAbs spec projectRoot,
      isInsideRoot cwd (pResolve cwd [projectRoot]) c = false) :
    resolveImports fs cwd fromAbs spec projectRoot = none := by
  unfold resolveImports
  unfold resolverCandidates at h
  by_cases h0 : spec = ""
  · simp [h0]
  · simp only [if_neg h0] at h ⊢
    by_cases hc : stripQueryAndHash (jsTrim spec) = ""
    · simp [hc]
    · simp only [if_neg hc] at h ⊢
      by_cases hext : (!jsStartsWith (stripQueryAndHash (jsTrim spec)) "." &&
          !jsStartsWith (stripQueryAndHash (jsTrim spec)) "/") = true
      · simp [hext]
      · simp only [hext, Bool.false_eq_true, if_false] at h ⊢
        by_cases hdot : jsStartsWith (stripQueryAndHash (jsTrim spec)) "." = true
        · simp only [hdot, if_true] at h ⊢
          cases hrw : resolveWithExtensions fs
              (pResolve cwd [pDirname (pResolve cwd [fromAbs]), stripQueryAndHash (jsTrim spec)]) with
          | none => simp [hrw]
          | some hit =>
            have hout := h hit (rw_hit_mem_candidates hrw)
            simp [hrw, hout]
        · simp only [hdot, Bool.false_eq_true, if_false] at h ⊢
          by_cases hsl : jsStartsWith (stripQueryAndHash (jsTrim spec)) "/" = true
          · simp only [hsl, if_true] at h ⊢
            apply tryPublicRoots_none
            intro pr hpr c hcand
            exact h c (List.mem_flatMap.mpr ⟨pr, hpr, hcand⟩)
          · simp [hsl]

/-- C1 witness: a relative specifier escaping the root is rejected even
though its unique candidate exists on disk. -/
theorem resolveImports_no_escape_witness :
    (∀ c ∈ resolverCandidates fsC1 "/w" "/p/a.js" "../../etc/passwd.js" "/p",
      isInsideRoot "/w" (pResolve "/w" ["/p"]) c = false) ∧
    existsFile fsC1 "/etc/passwd.js" = true ∧
    resolveImports fsC1 "/w" "/p/a.js" "../../etc/passwd.js" "/p" = none :=
  ⟨by decide, by decide,
   resolveImports_no_escape fsC1 "/w" "/p/a.js" "../../etc/passwd.js" "/p" (by decide)⟩

/-- C4 counterexample: the specifier `" ./x"` (leading whitespace)
starts with neither a dot nor a slash, yet `resolveImports` trims it and
resolves it instead of returning `null`. -/
theorem resolveImports_whitespace_specifier_resolves :
    jsStartsWith " ./x" "." = false ∧ jsStartsWith " ./x" "/" = false ∧
    resolveImports fsC4 "/w" "/p/f.js" " ./x" "/p" = some "/p/x.js" := by
  refine ⟨by decide, by decide, ?_⟩
  decide

/-- C4 (amended).  If the specifier, after trimming and stripping any
query/hash suffix, starts with neither a dot nor a slash, then
`resolveImports` returns `null` on every filesystem (no resolution is
attempted). -/
theorem resolveImports_external_rejected (fs : FS) (cwd fromAbs spec projectRoot : String)
    (h1 : jsStartsWith (stripQueryAndHash (jsTrim spec)) "." = false)
    (h2 : jsStartsWith (stripQueryAndHash (jsTrim spec)) "/" = false) :
    resolveImports fs cwd fromAbs spec projectRoot = none := by
  unfold resolveImports
  by_cases h0 : spec = ""
  · simp [h0]
  · simp only [if_neg h0]
    by_cases hc : stripQueryAndHash (jsTrim spec) = ""
    · simp [hc]
    · simp [hc, h1, h2]

/-- C4 witness: a bare package name and a Node builtin are rejected. -/
theorem resolveImports_external_rejected_witness :
    resolveImports fsC4 "/w" "/p/f.js" "express" "/p" = none ∧
    resolveImports fsC4 "/w" "/p/f.js" "node:fs" "/p" = none :=
  ⟨resolveImports_external_rejected fsC4 "/w" "/p/f.js" "express" "/p"
      (by decide) (by decide),
   resolveImports_external_rejected fsC4 "/w" "/p/f.js" "node:fs" "/p"
      (by decide) (by decide)⟩

/-! ## C5: node upgrade without duplication or downgrade -/

/-- C5.  When `ensureNode` is called with an id already present
(after trimming), no node is added or removed, untouched ids keep their
nodes, and the matching node is merged in place: zero `lines` may be
raised by a positive incoming value, while populated `lines`,
`complexity`, `headerComment`, `kind` and `file` keep their values; the
id itself never changes. -/
theorem ensureNode_upgrade_no_downgrade (nodes : List NodeRec) (n inc : NodeRec)
    (hmem : n ∈ nodes) (hid : n.id = jsTrim inc.id) (hne : jsTrim inc.id ≠ "") :
    (ensureNode nodes inc).1.length = nodes.length ∧
    mergeNode n inc ∈ (ensureNode nodes inc).1 ∧
    (∀ m ∈ nodes, m.id ≠ jsTrim inc.id → m ∈ (ensureNode nodes inc).1) ∧
    (n.lines = 0 → 0 < inc.lines → (mergeNode n inc).lines = inc.lines) ∧
    (n.lines ≠ 0 → (mergeNode n inc).lines = n.lines) ∧
    (n.complexity = 0 → 0 < inc.complexity → (mergeNode n inc).complexity = inc.complexity) ∧
    (n.complexity ≠ 0 → (mergeNode n inc).complexity = n.complexity) ∧
    (n.headerComment ≠ "" → (mergeNode n inc).headerComment = n.headerComment) ∧
    (kindStr n.kind ≠ "" → (mergeNode n inc).kind = n.kind) ∧
    (n.file ≠ "" → (mergeNode n inc).file = n.file) ∧
    (mergeNode n inc).id = n.id := by
  have hany : nodes.any (fun m => m.id = jsTrim inc.id) = true :=
    List.any_eq_true.mpr ⟨n, hmem, by simp [hid]⟩
  have hres : (ensureNode nodes inc).1 =
      nodes.map (fun ex => if ex.id = jsTrim inc.id then mergeNode ex inc else ex) := by
    unfold ensureNode
    simp [hne, hany]
  refine ⟨?_, ?_, ?_, ?_, ?_, ?_, ?_, ?_, ?_, ?_, ?_⟩
  · rw [hres]; exact List.length_map _ _
  · rw [hres]
    have : (fun ex => if ex.id = jsTrim inc.id then mergeNode ex inc else ex) n =
        mergeNode n inc := by simp [hid]
    exact this ▸ List.mem_map_of_mem _ hmem
  · intro m hm hmne
    rw [hres]
    have : (fun ex => if ex.id = jsTrim inc.id then mergeNode ex inc else ex) m = m := by
      simp [hmne]
    exact this ▸ List.mem_map_of_mem _ hm
  · intro h0 hpos
    simp [mergeNode, h0, hpos]
  · intro h0
    simp [mergeNode, h0]
  · intro h0 hpos
    simp [mergeNode, h0, hpos]
  · intro h0
    simp [mergeNode, h0]
  · intro h0
    simp [mergeNode, h0]
  · intro h0
    simp [mergeNode, h0]
  · intro h0
    simp [mergeNode, h0]
  · rfl

/-- C5 witness: upgrading the placeholder `a.js` in place. -/
theorem ensureNode_upgrade_no_downgrade_witness :
    (ensureNode nodesC5 incC5).1.length = nodesC5.length ∧
    mergeNode ⟨"a.js", "a.js", 0, 0, "", some "asset"⟩ incC5 ∈ (ensureNode nodesC5 incC5).1 ∧
    (∀ m ∈ nodesC5, m.id ≠ jsTrim incC5.id → m ∈ (ensureNode nodesC5 incC5).1) ∧
    ((⟨"a.js", "a.js", 0, 0, "", some "asset"⟩ : NodeRec).lines = 0 → 0 < incC5.lines →
      (mergeNode ⟨"a.js", "a.js", 0, 0, "", some "asset"⟩ incC5).lines = incC5.lines) ∧
    ((⟨"a.js", "a.js", 0, 0, "", some "asset"⟩ : NodeRec).lines ≠ 0 →
      (mergeNode ⟨"a.js", "a.js", 0, 0, "", some "asset"⟩ incC5).lines =
        (⟨"a.js", "a.js", 0, 0, "", some "asset"⟩ : NodeRec).lines) ∧
    ((⟨"a.js", "a.js", 0, 0, "", some "asset"⟩ : NodeRec).complexity = 0 → 0 < incC5.complexity →
      (mergeNode ⟨"a.js", "a.js", 0, 0, "", some "asset"⟩ incC5).complexity = incC5.complexity) ∧
    ((⟨"a.js", "a.js", 0, 0, "", some "asset"⟩ : NodeRec).complexity ≠ 0 →
      (mergeNode ⟨"a.js", "a.js", 0, 0, "", some "asset"⟩ incC5).complexity =
        (⟨"a.js", "a.js", 0, 0, "", some "asset"⟩ : NodeRec).complexity) ∧
    ((⟨"a.js", "a.js", 0, 0, "", some "asset"⟩ : NodeRec).headerComment ≠ "" →
      (mergeNode ⟨"a.js", "a.js", 0, 0, "", some "asset"⟩ incC5).headerComment =
        (⟨"a.js", "a.js", 0, 0, "", some "asset"⟩ : NodeRec).headerComment) ∧
    (kindStr (⟨"a.js", "a.js", 0, 0, "", some "asset"⟩ : NodeRec).kind ≠ "" →
      (mergeNode ⟨"a.js", "a.js", 0, 0, "", some "asset"⟩ incC5).kind =
        (⟨"a.js", "a.js", 0, 0, "", some "asset"⟩ : NodeRec).kind) ∧
    ((⟨"a.js", "a.js", 0, 0, "", some "asset"⟩ : NodeRec).file ≠ "" →
      (mergeNode ⟨"a.js", "a.js", 0, 0, "", some "asset"⟩ incC5).file =
        (⟨"a.js", "a.js", 0, 0, "", some "asset"⟩ : NodeRec).file) ∧
    (mergeNode ⟨"a.js", "a.js", 0, 0, "", some "asset"⟩ incC5).id =
      (⟨"a.js", "a.js", 0, 0, "", some "asset"⟩ : NodeRec).id :=
  ensureNode_upgrade_no_downgrade nodesC5 ⟨"a.js", "a.js", 0, 0, "", some "asset"⟩ incC5
    (by decide) (by decide) (by decide)


/-! ## Claim C2: build errors and the entry file -/

/-- C2 counterexample: the entry `/p/e.js` is perfectly readable, yet
the run aborts with the EACCES of the downstream import `/p/a.js` —
`readUtf8` has no try/catch, so a downstream read failure is not
absorbed. -/
theorem build_downstream_unreadable_aborts :
    fsC2.readFileSync "/p/e.js" = Except.ok "x" ∧
    buildMetricsFromEntrypoint 4 ⟨fsC2, "/p", 0, 0⟩ pfC2 "/p" "/p/e.js" "" =
      some (Except.error "EACCES") := ⟨rfl, rfl⟩

/-- C2 (amended): an unreadable entry aborts the run with that read
error, and over a tree with no unreadable entry whose entry is a real
file the run never raises; but (per the counterexample) an unreadable
non-entry file also aborts the run. -/
theorem build_error_entry_and_clean_tree (w : World) (pf : String → String → Parsed)
    (projectRoot entryAbs urlInfo : String)
    (hH : HFS w.fs w.cwd projectRoot)
    (hge : GoodId (idOf w.cwd projectRoot entryAbs)) (hne : entryAbs ≠ "") :
    (∀ g e, w.fs.readFileSync entryAbs = Except.error e →
      buildMetricsFromEntrypoint (g + 1) w pf projectRoot entryAbs urlInfo =
        some (Except.error e)) ∧
    (w.fs.unreadable = [] → w.fs.isFile entryAbs = true →
      ∀ gas e, buildMetricsFromEntrypoint gas w pf projectRoot entryAbs urlInfo ≠
        some (Except.error e)) := by
  constructor
  · intro g e herr
    unfold buildMetricsFromEntrypoint
    rw [buildLoop_start, if_neg hne, herr]
  · intro hun hfe gas e h
    have hQ0 : QueueOK w.fs w.cwd projectRoot entryAbs ⟨[], [], [], [entryAbs]⟩ := by
      intro q hq
      left
      simpa using hq
    have hL0 : LinksOK w.cwd projectRoot ⟨[], [], [], [entryAbs]⟩ := by
      intro l hl
      exact absurd hl (List.not_mem_nil l)
    have hV0 : VisitedOK w.cwd projectRoot ⟨[], [], [], [entryAbs]⟩ := by
      intro v hv
      exact absurd hv (List.not_mem_nil v)
    have hN0 : NodesOK ⟨[], [], [], [entryAbs]⟩ := by
      intro n hn
      exact absurd hn (List.not_mem_nil n)
    have hZ0 : LinkNZ ⟨[], [], [], [entryAbs]⟩ := by
      intro l hl
      exact absurd hl (List.not_mem_nil l)
    obtain ⟨herrfree, _⟩ := buildLoop_inv w.fs pf w.cwd projectRoot entryAbs hH hge hne gas
      ⟨[], [], [], [entryAbs]⟩ hQ0 hL0 hV0 hN0 hZ0
    unfold buildMetricsFromEntrypoint at h
    cases hb : buildLoop gas w.fs pf w.cwd projectRoot ⟨[], [], [], [entryAbs]⟩ with
    | none =>
      rw [hb] at h
      exact Option.noConfusion h
    | some r =>
      cases r with
      | error e0 => exact herrfree hun hfe e0 hb
      | ok st' =>
        rw [hb] at h
        exact Except.noConfusion (Option.some.inj h)

/-- C2 witness: over the clean one-file tree `fsC4` the amended theorem
applies and rules out every error result. -/
theorem build_error_entry_and_clean_tree_witness :
    (HFS fsC4 "/p" "/p" ∧ GoodId (idOf "/p" "/p" "/p/x.js") ∧
      ("/p/x.js" : String) ≠ "") ∧
    (fsC4.unreadable = [] → fsC4.isFile "/p/x.js" = true →
      ∀ gas e, buildMetricsFromEntrypoint gas ⟨fsC4, "/p", 0, 0⟩ pfW "/p" "/p/x.js" "" ≠
        some (Except.error e)) :=
  ⟨⟨by decide, by decide, by decide⟩,
   (build_error_entry_and_clean_tree ⟨fsC4, "/p", 0, 0⟩ pfW "/p" "/p/x.js" ""
     (by decide) (by decide) (by decide)).2⟩

/-! ## Claim C6: link endpoints in a finished build -/

/-- C6 counterexample: over a tree containing the file name `` ` x.js` ``
(leading space), a successful build returns a `use` link whose target
id `" x.js"` (stored untrimmed by `ensureLink`) names no node — the
node side was trimmed to `"x.js"` by `ensureNode`. -/
theorem build_link_target_dangles :
    danglingTarget (buildMetricsFromEntrypoint 6 ⟨fsC6, "/p", 0, 0⟩ pfC6 "/p" "/p/e.js" "") =
      true := by decide

/-- C6 (amended): over a well-formed tree (absolute, normalised keys
with well-behaved ids) and an entry with a well-behaved id, every link
of a successfully completed build has both endpoints equal to the id of
some node of the returned graph. -/
theorem build_link_endpoints_node_backed (w : World) (pf : String → String → Parsed)
    (projectRoot entryAbs urlInfo : String) (gas : Nat) (G : Graph)
    (hH : HFS w.fs w.cwd projectRoot)
    (hge : GoodId (idOf w.cwd projectRoot entryAbs)) (hne : entryAbs ≠ "")
    (hok : buildMetricsFromEntrypoint gas w pf projectRoot entryAbs urlInfo =
      some (Except.ok G)) :
    ∀ l ∈ G.links, (∃ n ∈ G.nodes, n.id = l.source) ∧ ∃ n ∈ G.nodes, n.id = l.target := by
  have hQ0 : QueueOK w.fs w.cwd projectRoot entryAbs ⟨[], [], [], [entryAbs]⟩ := by
    intro q hq
    left
    simpa using hq
  have hL0 : LinksOK w.cwd projectRoot ⟨[], [], [], [entryAbs]⟩ := by
    intro l hl
    exact absurd hl (List.not_mem_nil l)
  have hV0 : VisitedOK w.cwd projectRoot ⟨[], [], [], [entryAbs]⟩ := by
    intro v hv
    exact absurd hv (List.not_mem_nil v)
  have hN0 : NodesOK ⟨[], [], [], [entryAbs]⟩ := by
    intro n hn
    exact absurd hn (List.not_mem_nil n)
  have hZ0 : LinkNZ ⟨[], [], [], [entryAbs]⟩ := by
    intro l hl
    exact absurd hl (List.not_mem_nil l)
  obtain ⟨_, hokpart⟩ := buildLoop_inv w.fs pf w.cwd projectRoot entryAbs hH hge hne gas
    ⟨[], [], [], [entryAbs]⟩ hQ0 hL0 hV0 hN0 hZ0
  unfold buildMetricsFromEntrypoint at hok
  cases hb : buildLoop gas w.fs pf w.cwd projectRoot ⟨[], [], [], [entryAbs]⟩ with
  | none =>
    rw [hb] at hok
    exact Option.noConfusion hok
  | some r =>
    cases r with
    | error e0 =>
      rw [hb] at hok
      exact Except.noConfusion (Option.some.inj hok)
    | ok st' =>
      obtain ⟨hqe, hLok, hNok⟩ := hokpart st' hb
      have hnb := linksNB_of_ok hLok hqe
      have hnodot : ∀ n ∈ st'.nodes, n.id ≠ "." := fun n hn => (hNok n hn).2
      have hfin := buildFinish_nb w.fs w.cwd projectRoot hH st' hnb hnodot
      rw [hb] at hok
      have hG : G = ⟨toProjectRelativeId w.cwd projectRoot entryAbs, urlInfo,
          (buildFinish w.fs w.cwd projectRoot st').nodes,
          (buildFinish w.fs w.cwd projectRoot st').links⟩ :=
        (Except.ok.inj (Option.some.inj hok)).symm
      rw [hG]
      intro l hl
      exact hfin l hl

/-- C6 witness: the concrete build over `fsC4` succeeds with graph `GW`
and the amended theorem grounds both endpoints of every link of `GW`. -/
theorem build_link_endpoints_node_backed_witness :
    (HFS fsC4 "/p" "/p" ∧ GoodId (idOf "/p" "/p" "/p/x.js") ∧
      ("/p/x.js" : String) ≠ "" ∧
      buildMetricsFromEntrypoint 3 ⟨fsC4, "/p", 0, 0⟩ pfW "/p" "/p/x.js" "" =
        some (Except.ok GW)) ∧
    (∀ l ∈ GW.links, (∃ n ∈ GW.nodes, n.id = l.source) ∧ ∃ n ∈ GW.nodes, n.id = l.target) :=
  ⟨⟨by decide, by decide, by decide, rfl⟩,
   build_link_endpoints_node_backed ⟨fsC4, "/p", 0, 0⟩ pfW "/p" "/p/x.js" "" 3 GW
     (by decide) (by decide) (by decide) rfl⟩

/-! ## Claim C7: the skeleton threshold -/

/-- C7: on a disciplined traversal result (no node named `"."`,
node-backed links, at least the entry node), the auto-mode gate fires
exactly at the threshold `nodes ≤ 5 ∧ links ≤ 1`: under it the finished
state gains a synthetic root node of kind `"root"` and ends with more
than one node; above it the state is returned unchanged. -/
theorem buildFinish_skeleton_threshold (fs : FS) (cwd projectRoot : String) (st : BState)
    (hH : HFS fs cwd projectRoot)
    (hnodot : ∀ n ∈ st.nodes, n.id ≠ ".") (hnb : LinksNB st) (hne : st.nodes ≠ []) :
    (st.nodes.length ≤ 5 ∧ st.links.length ≤ 1 →
      (∃ n ∈ (buildFinish fs cwd projectRoot st).nodes,
        n.id = "." ∧ n.kind = some "root") ∧
      1 < (buildFinish fs cwd projectRoot st).nodes.length) ∧
    (¬(st.nodes.length ≤ 5 ∧ st.links.length ≤ 1) →
      buildFinish fs cwd projectRoot st = st) := by
  constructor
  · intro hth
    have hcond : (st.nodes.length ≤ 5 && st.links.length ≤ 1) = true := by
      rw [Bool.and_eq_true]
      exact ⟨decide_eq_true hth.1, decide_eq_true hth.2⟩
    unfold buildFinish
    rw [if_pos hcond]
    obtain ⟨_, hdot, hlen⟩ := discoverProjectSkeleton_props fs cwd projectRoot
      (pResolve cwd [projectRoot]) hH rfl st hnodot hnb
    refine ⟨hdot, ?_⟩
    have hone : 1 ≤ st.nodes.length := by
      cases hns : st.nodes with
      | nil => exact absurd hns hne
      | cons a l => exact Nat.succ_le_succ (Nat.zero_le _)
    omega
  · intro hcontra
    have hcond : ¬((st.nodes.length ≤ 5 && st.links.length ≤ 1) = true) := by
      intro hc
      rw [Bool.and_eq_true] at hc
      exact hcontra ⟨of_decide_eq_true hc.1, of_decide_eq_true hc.2⟩
    unfold buildFinish
    rw [if_neg hcond]

/-- C7 witness: a one-node, zero-link traversal state over `fsC4` is
under the threshold, so the skeleton fires. -/
theorem buildFinish_skeleton_threshold_witness :
    (HFS fsC4 "/p" "/p" ∧ (∀ n ∈ stC7.nodes, n.id ≠ ".") ∧ LinksNB stC7 ∧
      stC7.nodes ≠ [] ∧ (stC7.nodes.length ≤ 5 ∧ stC7.links.length ≤ 1)) ∧
    ((stC7.nodes.length ≤ 5 ∧ stC7.links.length ≤ 1 →
      (∃ n ∈ (buildFinish fsC4 "/p" "/p" stC7).nodes,
        n.id = "." ∧ n.kind = some "root") ∧
      1 < (buildFinish fsC4 "/p" "/p" stC7).nodes.length) ∧
    (¬(stC7.nodes.length ≤ 5 ∧ stC7.links.length ≤ 1) →
      buildFinish fsC4 "/p" "/p" stC7 = stC7)) :=
  ⟨⟨by decide, by decide, by decide, by decide, by decide⟩,
   buildFinish_skeleton_threshold fsC4 "/p" "/p" stC7
     (by decide) (by decide) (by decide) (by decide)⟩

/-! ## Claim C8: two-run determinism -/

/-- C8: the build reads only the file tree and the working directory of
the ambient world — two runs over the same tree and directory return the
same graph (same node order, same links), whatever the clock and
randomness source do. -/
theorem build_two_run_deterministic (gas : Nat) (w1 w2 : World)
    (pf : String → String → Parsed) (projectRoot entryAbs urlInfo : String)
    (hfs : w1.fs = w2.fs) (hcwd : w1.cwd = w2.cwd) :
    buildMetricsFromEntrypoint gas w1 pf projectRoot entryAbs urlInfo =
      buildMetricsFromEntrypoint gas w2 pf projectRoot entryAbs urlInfo := by
  unfold buildMetricsFromEntrypoint
  rw [hfs, hcwd]

/-- C8 witness: two worlds over the same tree that differ in clock and
random seed produce the same graph. -/
theorem build_two_run_deterministic_witness :
    ((⟨fsC4, "/p", 0, 0⟩ : World).fs = (⟨fsC4, "/p", 999, 7⟩ : World).fs ∧
     (⟨fsC4, "/p", 0, 0⟩ : World).cwd = (⟨fsC4, "/p", 999, 7⟩ : World).cwd) ∧
    buildMetricsFromEntrypoint 3 ⟨fsC4, "/p", 0, 0⟩ pfW "/p" "/p/x.js" "" =
      buildMetricsFromEntrypoint 3 ⟨fsC4, "/p", 999, 7⟩ pfW "/p" "/p/x.js" "" :=
  ⟨⟨rfl, rfl⟩,
   build_two_run_deterministic 3 ⟨fsC4, "/p", 0, 0⟩ ⟨fsC4, "/p", 999, 7⟩ pfW
     "/p" "/p/x.js" "" rfl rfl⟩


/-- C3: `parseFile` is a total function of its inputs (for total
collaborators it never throws), and for a JS-like source file whose
parse fails it still returns the text-scanned count of non-empty
lines, the text-scanned header comment, and an empty import list. -/
theorem parseFile_unparseable_degrades
    (babel : String → String → Except String JsAst)
    (walkAst : JsAst → String → String → POut → POut)
    (jsonParse : String → Option Json)
    (cwd code filename : String)
    (hjs : isJsLikeExt (jsToLower (pExtname filename)) = true)
    (herr : ∃ e, babel code filename = Except.error e) :
    (parseFile babel walkAst jsonParse cwd code filename).lines =
      (jsSplitLines code).countP (fun l => jsTrim l ≠ "") ∧
    (parseFile babel walkAst jsonParse cwd code filename).headerComment =
      extractHeaderComment code ∧
    (parseFile babel walkAst jsonParse cwd code filename).imports = [] := by
  obtain ⟨e, he⟩ := herr
  have hpf : parseFile babel walkAst jsonParse cwd code filename =
      finalize (scanForAssetyStrings cwd (safeDirname cwd filename) code
        (emptyOut (countNonEmptyLines code) (extractHeaderComment code))) := by
    unfold parseFile
    rw [if_pos hjs]
    exact parseJsTs_err babel walkAst cwd code filename (safeDirname cwd filename)
      (emptyOut (countNonEmptyLines code) (extractHeaderComment code)) e he
  rw [hpf]
  obtain ⟨h1, h2, h3⟩ := scanRefs_core cwd (safeDirname cwd filename) (quotedStrings code)
    (emptyOut (countNonEmptyLines code) (extractHeaderComment code))
  refine ⟨?_, ?_, ?_⟩
  · exact h2.trans (countNonEmptyLines_eq code)
  · exact h3
  · show uniq (scanForAssetyStrings cwd (safeDirname cwd filename) code
      (emptyOut (countNonEmptyLines code) (extractHeaderComment code))).imports = []
    rw [show (scanForAssetyStrings cwd (safeDirname cwd filename) code
      (emptyOut (countNonEmptyLines code) (extractHeaderComment code))).imports =
      ([] : List String) from h1]
    rfl

theorem parseFile_unparseable_degrades_witness :
    (isJsLikeExt (jsToLower (pExtname "/p/bad.js")) = true ∧
      (∃ e, babelErr codeC3 "/p/bad.js" = Except.error e)) ∧
    ((parseFile babelErr walkNop jsonNop "/p" codeC3 "/p/bad.js").lines =
        (jsSplitLines codeC3).countP (fun l => jsTrim l ≠ "") ∧
      (parseFile babelErr walkNop jsonNop "/p" codeC3 "/p/bad.js").headerComment =
        extractHeaderComment codeC3 ∧
      (parseFile babelErr walkNop jsonNop "/p" codeC3 "/p/bad.js").imports = []) :=
  ⟨⟨by decide, ⟨"SyntaxError", rfl⟩⟩,
    parseFile_unparseable_degrades babelErr walkNop jsonNop "/p" codeC3 "/p/bad.js"
      (by decide) ⟨"SyntaxError", rfl⟩⟩

/-- C9: over every sequence of client connections, disconnections and
analysis activations starting from module load, at most one filesystem
watcher is running: the `watcher` variable names exactly the running
watcher when there is one, and none is running when it is `null`
(`startWatcher` awaits the previous watcher's teardown before starting
a new one, by definition). -/
theorem liveChangeFeed_single_watcher (ops : List WOp) :
    WatcherInv (wrun ops winit) :=
  wrun_inv ops winit (by decide)

/-- C10 counterexample: for the file `/r/a/f.js` (directory `/r/a`)
analysed under real working directory `/r/b`, the recognised call
`path.resolve(process.cwd(), "/e", "cfg.json")` is resolved by the
extractor to `/e/cfg.json` — exactly the value the analysed program
computes at runtime, because the absolute segment overrides both
anchors; so such references do not always differ from the runtime
value when the file's directory differs from the working directory. -/
theorem cwdBase_runtime_match_cex :
    pDirname "/r/a/f.js" = "/r/a" ∧
    ("/r/a" : String) ≠ "/r/b" ∧
    tryResolvePathCall "/r/b" "/r/a" [] (cwdCallAst "resolve" ["/e", "cfg.json"]) =
      some "/e/cfg.json" ∧
    pResolve "/r/b" ["/e", "cfg.json"] = "/e/cfg.json" := by
  refine ⟨by decide, by decide, ?_, by decide⟩
  decide

/-- C10 (amended): a recognised `path.join`/`path.resolve` call whose
base is `process.cwd()` is resolved with the parsed file's directory
as the anchor, not the process's working directory; when every literal
segment is a clean relative segment and the file's directory and the
real working directory are distinct resolved absolute paths, the
extractor's value differs from the one the analysed program computes
at runtime. -/
theorem cwdBase_anchored_at_baseDir (cwd rcwd baseDir : String) (baseVars : List String)
    (fn : String) (segs : List String)
    (hfn : fn = "join" ∨ fn = "resolve") (hne : segs ≠ [])
    (hsegs : ∀ s ∈ segs, cleanSeg s ∧ '/' ∉ s.data)
    (habs1 : pIsAbsolute baseDir = true) (habs2 : pIsAbsolute rcwd = true)
    (hfix1 : pResolve cwd [baseDir] = baseDir) (hfix2 : pResolve cwd [rcwd] = rcwd)
    (hdiff : baseDir ≠ rcwd) :
    tryResolvePathCall cwd baseDir baseVars (cwdCallAst fn segs) =
      some (pResolve cwd (baseDir :: segs)) ∧
    pResolve cwd (baseDir :: segs) ≠ pResolve rcwd segs :=
  ⟨tryResolvePathCall_cwd cwd baseDir baseVars hfn hne,
    pResolve_base_ne cwd habs1 habs2 hfix1 hfix2 hdiff hne hsegs⟩

theorem cwdBase_anchored_at_baseDir_witness :
    ((("resolve" : String) = "join" ∨ ("resolve" : String) = "resolve") ∧
      (["cfg", "a.json"] : List String) ≠ [] ∧
      (∀ s ∈ (["cfg", "a.json"] : List String), cleanSeg s ∧ '/' ∉ s.data) ∧
      pIsAbsolute "/r/a" = true ∧ pIsAbsolute "/r/b" = true ∧
      pResolve "/w" ["/r/a"] = "/r/a" ∧ pResolve "/w" ["/r/b"] = "/r/b" ∧
      ("/r/a" : String) ≠ "/r/b") ∧
    (tryResolvePathCall "/w" "/r/a" [] (cwdCallAst "resolve" ["cfg", "a.json"]) =
        some (pResolve "/w" ("/r/a" :: ["cfg", "a.json"])) ∧
      pResolve "/w" ("/r/a" :: ["cfg", "a.json"]) ≠ pResolve "/r/b" ["cfg", "a.json"]) :=
  ⟨⟨Or.inr rfl, by decide, by decide, by decide, by decide, by decide, by decide, by decide⟩,
    cwdBase_anchored_at_baseDir "/w" "/r/b" "/r/a" [] "resolve" ["cfg", "a.json"]
      (Or.inr rfl) (by decide) (by decide) (by decide) (by decide) (by decide) (by decide)
      (by decide)⟩

end JsDep
